import Mathlib

/-!
# go-edof: pyramid focus-stack fusion

A shallow embedding of `main.go` and machine-checked properties of it.

Conventions of the embedding.

* Go `int` is the 64-bit signed integer; values are carried as `Int`, and the
  additions and subtractions on `int` pixels that could leave the 64-bit range
  go through `wrapInt`.
* `float64` values are carried as rationals.  Every float operation is the exact
  operation followed by `fl`, rounding to the nearest 53-bit significand, ties
  to even; each operation rounds on its own (no fused multiply-add).  The
  exponent range is not bounded: with 64-bit integer inputs no operation of the
  program overflows or reaches the subnormal range.
* A float division by zero yields an infinity or NaN.  The only such divisions
  are the ratios of `resizeImage` for a target dimension of 1 and the division
  by the scaled divisor in `createImagePyramid`; `fdiv` returns `none` there
  and the callers say what becomes of it.
* Converting NaN, an infinity or an out-of-range float to `int` gives the
  minimum integer (the amd64 behaviour; Go leaves it to the implementation).
* A run that does not deliver a value stops with a `Fault`: an error value
  returned by the function, a runtime abort (index out of range, `make` with a
  negative length), or `os.Exit(1)`.
* The library function `math.Log` is a parameter `log` of the definitions that
  call it; a statement that depends on its values says what it asks of them.
-/

namespace Edof

/-! ## float64 -/

/-- Nearest integer to a rational, a tie going to the even neighbour. -/
def roundHalfEven (x : ℚ) : ℤ :=
  if x - ⌊x⌋ < 1 / 2 then ⌊x⌋
  else if 1 / 2 < x - ⌊x⌋ then ⌊x⌋ + 1
  else if ⌊x⌋ % 2 = 0 then ⌊x⌋ else ⌊x⌋ + 1

/-- Rounding of a non-negative rational to 53 significant bits: the significand
is scaled into `[2^52, 2^53)`, rounded half-even and scaled back. -/
def flAbs (a : ℚ) : ℚ :=
  (roundHalfEven (a / 2 ^ (Int.log 2 a - 52)) : ℚ) * 2 ^ (Int.log 2 a - 52)

/-- Rounding to float64 (round to nearest, ties to even), symmetric in the sign. -/
def fl (q : ℚ) : ℚ := if 0 ≤ q then flAbs q else -flAbs (-q)

/-- Division of two float64 values; `none` is the non-finite result of a
division by zero. -/
def fdiv (a b : ℚ) : Option ℚ := if b = 0 then none else some (fl (a / b))

/-- Truncation toward zero. -/
def truncQ (q : ℚ) : Int := if 0 ≤ q then ⌊q⌋ else ⌈q⌉

/-- The least 64-bit integer. -/
def minInt : Int := -(2 ^ 63)

/-- Go conversion `int(f)` of a finite float64: truncation toward zero, the
minimum integer when the truncation is outside the 64-bit range. -/
def toInt (q : ℚ) : Int :=
  if -(2 ^ 63) ≤ truncQ q ∧ truncQ q < 2 ^ 63 then truncQ q else minInt

/-- Go conversion `int(f)` of a float64 that may be non-finite. -/
def toIntOpt : Option ℚ → Int
  | some q => toInt q
  | none => minInt

/-- Go conversion `uint8(f)`; the program applies it to values in `[0, 255]` only. -/
def toUint8 (q : ℚ) : Nat := (truncQ q % 256).toNat

/-- Two-complement wrap-around of a 64-bit `int` result. -/
def wrapInt (z : Int) : Int := (z + 2 ^ 63) % 2 ^ 64 - 2 ^ 63

/-! ## Values and faults -/

/-- Ways a call stops without a value. -/
inductive Fault where
  | mismatch
  | crash
  | osExit
  deriving DecidableEq, Repr

/-- The image type of the go-pgm package as the program uses it: declared
width and height, maximum value, rows of 8-bit pixels. -/
structure PGMImage where
  Width : Int
  Height : Int
  MaxVal : Nat
  Pixels : List (List Nat)
  deriving DecidableEq, Repr

/-- Signed image of `main.go`. -/
structure LaplacianImage where
  Width : Int
  Height : Int
  Pixels : List (List Int)
  deriving DecidableEq, Repr

/-- Slice indexing `l[i]`: a runtime abort outside `0 ≤ i < len(l)`. -/
def index {α : Type} (l : List α) (i : Int) : Except Fault α :=
  if i < 0 then .error .crash
  else match l[i.toNat]? with
    | some a => .ok a
    | none => .error .crash

/-- Two-level indexing `px[y][x]`. -/
def pixelAt {α : Type} (px : List (List α)) (y x : Int) : Except Fault α := do
  let row ← index px y
  index row x

/-- Runs the computations in order and stops at the first fault. -/
def collect {α : Type} : List (Except Fault α) → Except Fault (List α)
  | [] => pure []
  | r :: rs => do
    let a ← r
    let as ← collect rs
    pure (a :: as)

/-- The allocate-and-fill pattern of the program: `make` of `height` rows of
`width` entries (a negative length aborts), then `f x y` for `y` in
`0..height-1` and `x` in `0..width-1`, row by row. -/
def makeGrid {α : Type} (height width : Int) (f : Int → Int → Except Fault α) :
    Except Fault (List (List α)) :=
  if height < 0 then .error .crash
  else if 0 < height ∧ width < 0 then .error .crash
  else collect ((List.range height.toNat).map fun (y : Nat) =>
    collect ((List.range width.toNat).map fun (x : Nat) => f (x : Int) (y : Int)))

/-- The caller pattern `if err != nil { ...; os.Exit(1) }`: a returned error
ends the process, a runtime abort stays one. -/
def exitOnError {α : Type} : Except Fault α → Except Fault α
  | .error .mismatch => .error .osExit
  | r => r

/-! ## The functions of main.go -/

/-- Source `clampImage`. -/
def clampImage (image : LaplacianImage) (minValue maxValue : Nat) : Except Fault PGMImage := do
  let pixelArray ← makeGrid image.Height image.Width fun x y => do
    let v ← pixelAt image.Pixels y x
    if v > (maxValue : Int) then pure maxValue
    else if v < (minValue : Int) then pure minValue
    else pure (v % 256).toNat
  pure { Width := image.Width, Height := image.Height, MaxVal := 255, Pixels := pixelArray }

/-- Source `interpolateLinear`, on finite coordinates. -/
def interpolateLinear (image : PGMImage) (x y : ℚ) : Except Fault Nat := do
  let x := max 0 (min x (fl ((image.Width - 1 : Int) : ℚ)))
  let y := max 0 (min y (fl ((image.Height - 1 : Int) : ℚ)))
  let minX : ℚ := ((⌊x⌋ : Int) : ℚ)
  let maxX : ℚ := ((⌈x⌉ : Int) : ℚ)
  let minY : ℚ := ((⌊y⌋ : Int) : ℚ)
  let maxY : ℚ := ((⌈y⌉ : Int) : ℚ)
  let dx := fl (x - minX)
  let dy := fl (y - minY)
  let topLeftVal : Int := ((← pixelAt image.Pixels (toInt minY) (toInt minX) : Nat) : Int)
  let topRightVal : Int := ((← pixelAt image.Pixels (toInt minY) (toInt maxX) : Nat) : Int)
  let bottomLeftVal : Int := ((← pixelAt image.Pixels (toInt maxY) (toInt minX) : Nat) : Int)
  let bottomRightVal : Int := ((← pixelAt image.Pixels (toInt maxY) (toInt maxX) : Nat) : Int)
  let topVal := fl (fl (topLeftVal : ℚ) + fl (fl ((topRightVal - topLeftVal : Int) : ℚ) * dx))
  let bottomVal :=
    fl (fl (bottomLeftVal : ℚ) + fl (fl ((bottomRightVal - bottomLeftVal : Int) : ℚ) * dx))
  let value := fl (topVal + fl (fl (bottomVal - topVal) * dy))
  let value := if value > 255 ∨ value < 0 then (if value < 0 then 0 else 255) else value
  pure (toUint8 value)

/-- The clamping `math.Max(0, math.Min(c, float64(n-1)))` of a coordinate
(lines 417-418 and 462-463). -/
def clampCoord (c : ℚ) (n : Int) : ℚ := max 0 (min c (fl ((n - 1 : Int) : ℚ)))

/-- The blend of four 8-bit samples (lines 435-438): `topVal`, `bottomVal` and
`value`, every operation rounded. -/
def bilinear (topLeftVal topRightVal bottomLeftVal bottomRightVal : Int) (dx dy : ℚ) : ℚ :=
  let topVal := fl (fl (topLeftVal : ℚ) + fl (fl ((topRightVal - topLeftVal : Int) : ℚ) * dx))
  let bottomVal :=
    fl (fl (bottomLeftVal : ℚ) + fl (fl ((bottomRightVal - bottomLeftVal : Int) : ℚ) * dx))
  fl (topVal + fl (fl (bottomVal - topVal) * dy))

/-- Lines 417-438 of `interpolateLinear`: the interpolated value before the
range check and the narrowing. -/
def interpolateLinearValue (image : PGMImage) (x y : ℚ) : Except Fault ℚ := do
  let x := max 0 (min x (fl ((image.Width - 1 : Int) : ℚ)))
  let y := max 0 (min y (fl ((image.Height - 1 : Int) : ℚ)))
  let minX : ℚ := ((⌊x⌋ : Int) : ℚ)
  let maxX : ℚ := ((⌈x⌉ : Int) : ℚ)
  let minY : ℚ := ((⌊y⌋ : Int) : ℚ)
  let maxY : ℚ := ((⌈y⌉ : Int) : ℚ)
  let dx := fl (x - minX)
  let dy := fl (y - minY)
  let topLeftVal : Int := ((← pixelAt image.Pixels (toInt minY) (toInt minX) : Nat) : Int)
  let topRightVal : Int := ((← pixelAt image.Pixels (toInt minY) (toInt maxX) : Nat) : Int)
  let bottomLeftVal : Int := ((← pixelAt image.Pixels (toInt maxY) (toInt minX) : Nat) : Int)
  let bottomRightVal : Int := ((← pixelAt image.Pixels (toInt maxY) (toInt maxX) : Nat) : Int)
  let topVal := fl (fl (topLeftVal : ℚ) + fl (fl ((topRightVal - topLeftVal : Int) : ℚ) * dx))
  let bottomVal :=
    fl (fl (bottomLeftVal : ℚ) + fl (fl ((bottomRightVal - bottomLeftVal : Int) : ℚ) * dx))
  pure (fl (topVal + fl (fl (bottomVal - topVal) * dy)))

/-- Source `interpolateLinearLaplacian`, on finite coordinates. -/
def interpolateLinearLaplacian (image : LaplacianImage) (x y : ℚ) : Except Fault Int := do
  let width : Int := (← index image.Pixels 0).length
  let height : Int := image.Pixels.length
  let x := max 0 (min x (fl ((width - 1 : Int) : ℚ)))
  let y := max 0 (min y (fl ((height - 1 : Int) : ℚ)))
  let minX : ℚ := ((⌊x⌋ : Int) : ℚ)
  let maxX : ℚ := ((⌈x⌉ : Int) : ℚ)
  let minY : ℚ := ((⌊y⌋ : Int) : ℚ)
  let maxY : ℚ := ((⌈y⌉ : Int) : ℚ)
  let dx := fl (x - minX)
  let dy := fl (y - minY)
  let topLeftVal ← pixelAt image.Pixels (toInt minY) (toInt minX)
  let topRightVal ← pixelAt image.Pixels (toInt minY) (toInt maxX)
  let bottomLeftVal ← pixelAt image.Pixels (toInt maxY) (toInt minX)
  let bottomRightVal ← pixelAt image.Pixels (toInt maxY) (toInt maxX)
  let topVal :=
    fl (fl (topLeftVal : ℚ) + fl (fl ((wrapInt (topRightVal - topLeftVal) : Int) : ℚ) * dx))
  let bottomVal :=
    fl (fl (bottomLeftVal : ℚ) +
      fl (fl ((wrapInt (bottomRightVal - bottomLeftVal) : Int) : ℚ) * dx))
  let value := fl (topVal + fl (fl (bottomVal - topVal) * dy))
  pure (toInt value)

/-- The coordinate `float64(i) * ratio` of the resamplers.  A ratio with divisor
zero (target dimension 1) is an infinity or NaN; the only loop index is then 0,
the product is NaN, it passes `Min`, `Max` and `Floor` unchanged, and the pixel
index `int(NaN)` is the minimum integer: the read aborts. -/
def scaleCoord (i : Int) (ratio : Option ℚ) : Except Fault ℚ :=
  match ratio with
  | some r => pure (fl (fl (i : ℚ) * r))
  | none => .error .crash

/-- Source `resizeImage`. -/
def resizeImage (image : PGMImage) (targetWidth targetHeight : Int) :
    Except Fault PGMImage := do
  let startingWidth := image.Width
  let startingHeight := image.Height
  let widthRatio := fdiv (fl ((startingWidth - 1 : Int) : ℚ)) (fl ((targetWidth - 1 : Int) : ℚ))
  let heightRatio := fdiv (fl ((startingHeight - 1 : Int) : ℚ)) (fl ((targetHeight - 1 : Int) : ℚ))
  let newImage ← makeGrid targetHeight targetWidth fun x y => do
    let sx ← scaleCoord x widthRatio
    let sy ← scaleCoord y heightRatio
    interpolateLinear image sx sy
  pure { Width := targetWidth, Height := targetHeight, MaxVal := 255, Pixels := newImage }

/-- Source `resizeImageLaplacian`. -/
def resizeImageLaplacian (image : LaplacianImage) (targetWidth targetHeight : Int) :
    Except Fault LaplacianImage := do
  let startingWidth := image.Width
  let startingHeight := image.Height
  let widthRatio := fdiv (fl ((startingWidth - 1 : Int) : ℚ)) (fl ((targetWidth - 1 : Int) : ℚ))
  let heightRatio := fdiv (fl ((startingHeight - 1 : Int) : ℚ)) (fl ((targetHeight - 1 : Int) : ℚ))
  let newImage ← makeGrid targetHeight targetWidth fun x y => do
    let sx ← scaleCoord x widthRatio
    let sy ← scaleCoord y heightRatio
    interpolateLinearLaplacian image sx sy
  pure { Width := targetWidth, Height := targetHeight, Pixels := newImage }

/-- Source `addImagesLaplacian`. -/
def addImagesLaplacian (image1 image2 : LaplacianImage) : Except Fault LaplacianImage :=
  if image1.Height ≠ image2.Height ∨ image1.Width ≠ image2.Width then .error .mismatch
  else do
    let pixels ← makeGrid image1.Height image1.Width fun x y => do
      let a ← pixelAt image1.Pixels y x
      let b ← pixelAt image2.Pixels y x
      pure (wrapInt (a + b))
    pure { Width := image1.Width, Height := image1.Height, Pixels := pixels }

/-- Source `reconstructImage`: the levels are consumed from the last (coarsest)
to the first; an error of the addition ends the process. -/
def reconstructImage (seedImage : LaplacianImage) :
    List LaplacianImage → Except Fault LaplacianImage
  | [] => pure { Width := seedImage.Width, Height := seedImage.Height,
                 Pixels := seedImage.Pixels }
  | level :: coarser => do
    let reconstructedImage ← reconstructImage seedImage coarser
    let upscaledImage ← resizeImageLaplacian reconstructedImage level.Width level.Height
    exitOnError (addImagesLaplacian upscaledImage level)

/-- Source `pgmToLaplacianImageType`. -/
def pgmToLaplacianImageType (image : PGMImage) : Except Fault LaplacianImage := do
  let pixels ← makeGrid image.Height image.Width fun x y => do
    let v ← pixelAt image.Pixels y x
    pure ((v : Nat) : Int)
  pure { Width := image.Width, Height := image.Height, Pixels := pixels }

/-- The inner loop of `meanImages`: the wrapped sum of the pixel at `(x, y)`
over the images, in order. -/
def sumPixels (y x : Int) : List LaplacianImage → Int → Except Fault Int
  | [], total => pure total
  | image :: rest, total => do
    let v ← pixelAt image.Pixels y x
    sumPixels y x rest (wrapInt (total + v))

/-- Source `meanImages`. -/
def meanImages (images : List LaplacianImage) : Except Fault LaplacianImage := do
  let numOfImages : Int := images.length
  let first ← index images 0
  let width := first.Width
  let height := first.Height
  if images.tail.any (fun image => image.Height ≠ height ∨ image.Width ≠ width) then
    .error .mismatch
  else do
    let meanImageArray ← makeGrid height width fun x y => do
      let total ← sumPixels y x images 0
      pure (toInt (fl (fl (total : ℚ) / fl (numOfImages : ℚ))))
    pure { Width := width, Height := height, Pixels := meanImageArray }

/-- The innermost loop of `createMaxLaplacianPyramid`: over the stack in
order, keep the value whose float magnitude exceeds the kept one. -/
def maxResponseLoop (pyramidTier y x : Int) :
    List (List LaplacianImage) → Int → Except Fault Int
  | [], maxResponse => pure maxResponse
  | pyramid :: rest, maxResponse => do
    let image ← index pyramid pyramidTier
    let value ← pixelAt image.Pixels y x
    maxResponseLoop pyramidTier y x rest
      (if |fl (value : ℚ)| > |fl (maxResponse : ℚ)| then value else maxResponse)

/-- Source `createMaxLaplacianPyramid`. -/
def createMaxLaplacianPyramid (laplacianPyramidStack : List (List LaplacianImage)) :
    Except Fault (List LaplacianImage) := do
  let first ← index laplacianPyramidStack 0
  collect ((List.range first.length).map fun (pyramidTier : Nat) => do
    let image0 ← index first (pyramidTier : Int)
    let width := image0.Width
    let height := image0.Height
    let pixels ← makeGrid height width fun x y =>
      maxResponseLoop (pyramidTier : Int) y x laplacianPyramidStack 0
    pure { Width := width, Height := height, Pixels := pixels })

/-- Source `subtractImages`. -/
def subtractImages (image1 image2 : List (List Nat)) : Except Fault (List (List Int)) :=
  if image1.length ≠ image2.length then .error .mismatch
  else do
    let row1 ← index image1 0
    let row2 ← index image2 0
    if row1.length ≠ row2.length then .error .mismatch
    else
      makeGrid image1.length row1.length fun x y => do
        let a ← pixelAt image1 y x
        let b ← pixelAt image2 y x
        pure (((a : Nat) : Int) - ((b : Nat) : Int))

/-- Source `createLaplacianPyramid`. -/
def createLaplacianPyramid (pyramid gaussianPyramid : List PGMImage) :
    Except Fault (List LaplacianImage) :=
  collect ((List.range gaussianPyramid.length).map fun (idx : Nat) => do
    let level ← index pyramid (idx : Int)
    let approx ← index gaussianPyramid (idx : Int)
    let laplacian ← subtractImages level.Pixels approx.Pixels
    pure { Width := level.Width, Height := level.Height, Pixels := laplacian })

/-- Source `createImagePyramid`.  `math.Pow(divisor, i)` is the rounded power
(exact for divisor 2). -/
def createImagePyramid (image : PGMImage) (numOfDivisions : Int) (divisor : ℚ) :
    Except Fault (List PGMImage) :=
  if numOfDivisions + 1 ≤ 0 then .error .crash
  else do
    let rest ← collect ((List.range numOfDivisions.toNat).map fun (k : Nat) =>
      let i := k + 1
      let divisorScaled := fl (divisor ^ i)
      let targetWidth := toIntOpt (fdiv (fl (image.Width : ℚ)) divisorScaled)
      let targetHeight := toIntOpt (fdiv (fl (image.Height : ℚ)) divisorScaled)
      resizeImage image targetWidth targetHeight)
    pure (image :: rest)

/-- Source `createGaussianPyramid`. -/
def createGaussianPyramid (pyramid : List PGMImage) : Except Fault (List PGMImage) :=
  if (pyramid.length : Int) - 1 < 0 then .error .crash
  else
    collect ((List.range (pyramid.length - 1)).map fun (i : Nat) => do
      let coarser ← index pyramid ((i : Int) + 1)
      let level ← index pyramid (i : Int)
      resizeImage coarser level.Width level.Height)

/-- The value `math.Floor(math.Log(q) / math.Log(2))` of main.  The library
function `math.Log` is the parameter `log` (its finite values at positive
arguments).  For positive `q` the result is the floor of the rounded quotient of
the two logarithms; it is non-finite (`none`) for `q ≤ 0`, where `math.Log`
gives -Inf or NaN, and for a divisor zero (which `math.Log(2)` is not). -/
def floorLog2 (log : ℚ → ℚ) (q : ℚ) : Option ℚ :=
  if 0 < q then (fdiv (log q) (log 2)).map (fun r => ((⌊r⌋ : Int) : ℚ)) else none

/-- The argument `float64(dimension) / float64(threshold)` of `math.Log` in main
(lines 103-104), `threshold` being 40. -/
def sizeRatio (dimension : Int) : ℚ :=
  let threshold : Int := 40
  fl (fl (dimension : ℚ) / fl (threshold : ℚ))

/-- The division count of main (lines 101-105) from the first image's size, with
`math.Log` as the parameter `log`. -/
def maxDivisions (log : ℚ → ℚ) (width height : Int) : Int :=
  let maxDivisionsWidth := floorLog2 log (sizeRatio width)
  let maxDivisionsHeight := floorLog2 log (sizeRatio height)
  match maxDivisionsWidth, maxDivisionsHeight with
  | some a, some b => toInt (min a b)
  | _, _ => minInt

/-- One iteration of the per-image loop of main (lines 110-118). -/
def buildPyramids (maxDivisions : Int) (image : PGMImage) :
    Except Fault (List PGMImage × List PGMImage × List LaplacianImage) := do
  let pyramid ← createImagePyramid image maxDivisions 2
  let gaussianPyramid ← createGaussianPyramid pyramid
  let laplacianPyramid ← exitOnError (createLaplacianPyramid pyramid gaussianPyramid)
  pure (pyramid, gaussianPyramid, laplacianPyramid)

/-- The fusion pipeline of main (lines 107-139) on a decoded stack with a given
division count. -/
def fuse (imageStack : List PGMImage) (maxDivisions : Int) : Except Fault PGMImage := do
  let built ← collect (imageStack.map (buildPyramids maxDivisions))
  let pyramidStack := built.map (fun t => t.1)
  let laplacianPyramidStack := built.map (fun t => t.2.2)
  let coarsestImageStack ← collect (pyramidStack.map fun pyramid => do
    let first ← index pyramidStack 0
    let coarsest ← index pyramid ((first.length : Int) - 1)
    pgmToLaplacianImageType coarsest)
  let meanImage ← exitOnError (meanImages coarsestImageStack)
  let maxLaplacianPyramid ← createMaxLaplacianPyramid laplacianPyramidStack
  let reconstructedImage ← reconstructImage meanImage maxLaplacianPyramid
  clampImage reconstructedImage 0 255

/-- The validation of main (lines 79-99) on the decoded stack: fewer than two
images, or an image after the first whose width or height differs from the
first image's, ends the process with `os.Exit(1)`. -/
def validateStack (imageStack : List PGMImage) : Except Fault Unit :=
  if imageStack.length < 2 then .error .osExit
  else do
    let first ← index imageStack 0
    let width := first.Width
    let height := first.Height
    if imageStack.tail.any (fun image => image.Width ≠ width ∨ image.Height ≠ height) then
      .error .osExit
    else pure ()

/-- Source `main` from the decoded stack on (lines 79-139), with `math.Log` as
the parameter `log`: the validation, the division count from the first image's
size, the fusion pipeline on the whole stack. -/
def main (log : ℚ → ℚ) (imageStack : List PGMImage) : Except Fault PGMImage := do
  let _ ← validateStack imageStack
  let first ← index imageStack 0
  fuse imageStack (maxDivisions log first.Width first.Height)

/-! ## Predicates used by the statements -/

/-- A grid of `h` rows of `w` entries each. -/
def Shape {α : Type} (G : List (List α)) (h w : Int) : Prop :=
  (G.length : Int) = h ∧ ∀ row ∈ G, (row.length : Int) = w

/-- Well-formed 8-bit image: the declared height and width are the actual row
count and row length, and every pixel is a byte. -/
def PGMImage.WF (image : PGMImage) : Prop :=
  Shape image.Pixels image.Height image.Width ∧ ∀ row ∈ image.Pixels, ∀ p ∈ row, p < 256

/-- Well-formed signed image: the declared height and width are the actual row
count and row length. -/
def LaplacianImage.WF (image : LaplacianImage) : Prop :=
  Shape image.Pixels image.Height image.Width

/-- The signed image with the same pixels (the value `pgmToLaplacianImageType`
returns on a well-formed image). -/
def PGMImage.toLaplacian (image : PGMImage) : LaplacianImage :=
  { Width := image.Width, Height := image.Height,
    Pixels := image.Pixels.map (List.map (fun (p : Nat) => (p : Int))) }

/-- What the statements about sizes of at least 40 ask of `math.Log` at an
argument `q`: the returned value is the natural logarithm of `q` up to a relative
error of `10^-9` (the library function is accurate to the last place). -/
def LogAccurateAt (log : ℚ → ℚ) (q : ℚ) : Prop :=
  |((log q : ℚ) : ℝ) - Real.log ((q : ℚ) : ℝ)| ≤ 1 / 1000000000 * |Real.log ((q : ℚ) : ℝ)|

instance {α : Type} (G : List (List α)) (h w : Int) : Decidable (Shape G h w) := by
  unfold Shape; infer_instance

instance (image : PGMImage) : Decidable image.WF := by
  unfold PGMImage.WF; infer_instance

instance (image : LaplacianImage) : Decidable image.WF := by
  unfold LaplacianImage.WF; infer_instance

/-! ## Sample inputs -/

/-- A 3 by 1 signed image with one pixel above, one below and one inside `[0, 255]`. -/
def sampleSigned : LaplacianImage := { Width := 3, Height := 1, Pixels := [[300, -10, 77]] }

/-- A 2 by 1 pyramid level. -/
def sampleLevel : PGMImage := { Width := 2, Height := 1, MaxVal := 255, Pixels := [[10, 200]] }

/-- A 2 by 1 approximation of `sampleLevel`. -/
def sampleApprox : PGMImage := { Width := 2, Height := 1, MaxVal := 255, Pixels := [[255, 0]] }

/-- A 1 by 1 signed image whose pixel is `2^53 + 1`. -/
def hugePixelImage : LaplacianImage :=
  { Width := 1, Height := 1, Pixels := [[9007199254740993]] }

/-- A 2 by 1 signed image of small values. -/
def sampleMeanA : LaplacianImage := { Width := 2, Height := 1, Pixels := [[7, -7]] }

/-- A second 2 by 1 signed image of small values. -/
def sampleMeanB : LaplacianImage := { Width := 2, Height := 1, Pixels := [[0, -2]] }

/-- A 1 by 1 signed image whose pixel is `2^53`. -/
def evenHugeImage : LaplacianImage :=
  { Width := 1, Height := 1, Pixels := [[9007199254740992]] }

/-- A 2 by 1 detail image. -/
def sampleDetailA : LaplacianImage := { Width := 2, Height := 1, Pixels := [[-30, 5]] }

/-- A second 2 by 1 detail image. -/
def sampleDetailB : LaplacianImage := { Width := 2, Height := 1, Pixels := [[20, -6]] }

/-- The `w` by `h` 8-bit image whose pixels all equal `v`. -/
def flatImage (w h v : Nat) : PGMImage :=
  { Width := w, Height := h, MaxVal := 255, Pixels := List.replicate h (List.replicate w v) }

/-- A 2 by 2 8-bit image. -/
def tinyImage : PGMImage := { Width := 2, Height := 2, MaxVal := 255, Pixels := [[1, 2], [3, 4]] }

/-- A 4 by 4 8-bit image. -/
def blockA : PGMImage :=
  { Width := 4, Height := 4, MaxVal := 255,
    Pixels := [[10, 20, 30, 40], [50, 60, 70, 80], [90, 100, 110, 120], [130, 140, 150, 255]] }

/-- The image `blockA` with a brighter 2 by 2 block in the middle. -/
def blockB : PGMImage :=
  { Width := 4, Height := 4, MaxVal := 255,
    Pixels := [[10, 20, 30, 40], [50, 200, 210, 80], [90, 220, 230, 120], [130, 140, 150, 255]] }

/-- A 1 by 1 8-bit image. -/
def dotImage : PGMImage := { Width := 1, Height := 1, MaxVal := 255, Pixels := [[7]] }

/-- A 3 by 3 8-bit image. -/
def threeImage : PGMImage :=
  { Width := 3, Height := 3, MaxVal := 255, Pixels := [[1, 2, 3], [4, 5, 6], [7, 8, 9]] }

/-- A 2 by 2 8-bit image with a dark left and a bright right column. -/
def edgeImage : PGMImage :=
  { Width := 2, Height := 2, MaxVal := 255, Pixels := [[0, 255], [0, 255]] }

/-- A 2 by 2 signed image whose first pixel is `2^53 + 1`. -/
def hugeGrid : LaplacianImage :=
  { Width := 2, Height := 2, Pixels := [[9007199254740993, 0], [0, 0]] }

/-- A 2 by 2 signed image of small values. -/
def smallGrid : LaplacianImage := { Width := 2, Height := 2, Pixels := [[-5, 9], [300, 0]] }

/-- A 1 by 1 signed image whose pixel is `-(2^53 + 1)`. -/
def negHugeImage : LaplacianImage :=
  { Width := 1, Height := 1, Pixels := [[-9007199254740993]] }

/-- A 1 by 1 detail image with the value -30. -/
def detailMinus : LaplacianImage := { Width := 1, Height := 1, Pixels := [[-30]] }

/-- A 1 by 1 detail image with the value 30. -/
def detailPlus : LaplacianImage := { Width := 1, Height := 1, Pixels := [[30]] }

/-- An 8-bit image without rows. -/
def emptyImage : PGMImage := { Width := 0, Height := 0, MaxVal := 255, Pixels := [] }

/-- The values of `math.Log` at the arguments of the closed evaluations, each
the float64 nearest to the natural logarithm: at 2, at 4, at 1/2, at
`float64(4)/float64(40)` and at `float64(40 * 2^43 - 1)/float64(40)`; 0 at 1
and, unused, elsewhere. -/
def sampleLog (q : ℚ) : ℚ :=
  if q = 2 then 6243314768165359 / 9007199254740992
  else if q = 4 then 6243314768165359 / 4503599627370496
  else if q = 1 / 2 then -(6243314768165359 / 9007199254740992)
  else if q = 3602879701896397 / 36028797018963968 then
    -(5184960683398421 / 2251799813685248)
  else if q = 9007199254740966 / 1024 then 8389454219722201 / 281474976710656
  else 0

/-! ## Rounding lemmas -/

theorem roundHalfEven_intCast (n : ℤ) : roundHalfEven (n : ℚ) = n := by
  simp [roundHalfEven]

theorem roundHalfEven_cases (x : ℚ) :
    (roundHalfEven x = ⌊x⌋ ∧ x - ⌊x⌋ ≤ 1 / 2) ∨ (roundHalfEven x = ⌊x⌋ + 1 ∧ 1 / 2 ≤ x - ⌊x⌋) := by
  unfold roundHalfEven
  split_ifs with h1 h2 h3
  · exact Or.inl ⟨rfl, h1.le⟩
  · exact Or.inr ⟨rfl, h2.le⟩
  · exact Or.inl ⟨rfl, not_lt.mp h2⟩
  · exact Or.inr ⟨rfl, not_lt.mp h1⟩

theorem roundHalfEven_err (x : ℚ) : |(roundHalfEven x : ℚ) - x| ≤ 1 / 2 := by
  have h0 := Int.floor_le x
  have h1 := Int.lt_floor_add_one x
  rw [abs_le]
  rcases roundHalfEven_cases x with ⟨h, hx⟩ | ⟨h, hx⟩ <;> rw [h] <;> push_cast <;>
    constructor <;> linarith

theorem roundHalfEven_mono {x y : ℚ} (h : x ≤ y) : roundHalfEven x ≤ roundHalfEven y := by
  have hf : ⌊x⌋ ≤ ⌊y⌋ := Int.floor_mono h
  rcases lt_or_eq_of_le hf with hlt | heq
  · have hx : roundHalfEven x ≤ ⌊x⌋ + 1 := by
      rcases roundHalfEven_cases x with ⟨h, _⟩ | ⟨h, _⟩ <;> omega
    have hy : ⌊y⌋ ≤ roundHalfEven y := by
      rcases roundHalfEven_cases y with ⟨h, _⟩ | ⟨h, _⟩ <;> omega
    omega
  · unfold roundHalfEven
    rw [← heq]
    split_ifs <;> first | omega | (exfalso; linarith) 

theorem two_zpow_pos (k : ℤ) : (0 : ℚ) < 2 ^ k := zpow_pos (by norm_num) k

theorem log_spec {a : ℚ} (ha : 0 < a) :
    (2 : ℚ) ^ Int.log 2 a ≤ a ∧ a < 2 ^ (Int.log 2 a + 1) := by
  have h1 := Int.zpow_log_le_self (b := 2) (by norm_num) ha
  have h2 := Int.lt_zpow_succ_log_self (b := 2) (by norm_num) a
  simp only [Nat.cast_ofNat] at h1 h2
  exact ⟨h1, h2⟩

theorem log_unique {a : ℚ} {e : ℤ} (h1 : (2 : ℚ) ^ e ≤ a) (h2 : a < 2 ^ (e + 1)) :
    Int.log 2 a = e := by
  have ha : 0 < a := lt_of_lt_of_le (two_zpow_pos e) h1
  apply le_antisymm
  · have := (Int.lt_zpow_iff_log_lt (b := 2) (by norm_num) ha (x := e + 1)).mp (by simpa using h2)
    omega
  · exact (Int.zpow_le_iff_le_log (b := 2) (by norm_num) ha).mp (by simpa using h1)

theorem flAbs_zero : flAbs 0 = 0 := by
  simp [flAbs, roundHalfEven]

/-- scaled significand lies in [2^52, 2^53) -/
theorem scaled_bounds {a : ℚ} (ha : 0 < a) :
    (2 : ℚ) ^ (52 : ℤ) ≤ a / 2 ^ (Int.log 2 a - 52) ∧ a / 2 ^ (Int.log 2 a - 52) < 2 ^ (53 : ℤ) := by
  obtain ⟨h1, h2⟩ := log_spec ha
  have hs := two_zpow_pos (Int.log 2 a - 52)
  constructor
  · rw [le_div_iff₀ hs, ← zpow_add₀ (by norm_num : (2 : ℚ) ≠ 0)]
    simpa using h1
  · rw [div_lt_iff₀ hs, ← zpow_add₀ (by norm_num : (2 : ℚ) ≠ 0)]
    have : (53 : ℤ) + (Int.log 2 a - 52) = Int.log 2 a + 1 := by ring
    rw [this]; exact h2

theorem flAbs_bounds {a : ℚ} (ha : 0 < a) :
    (2 : ℚ) ^ Int.log 2 a ≤ flAbs a ∧ flAbs a ≤ 2 ^ (Int.log 2 a + 1) := by
  obtain ⟨h1, h2⟩ := scaled_bounds ha
  have hs := two_zpow_pos (Int.log 2 a - 52)
  have e1 : ((2 : ℚ) ^ (52 : ℤ)) = (((2 : ℤ) ^ 52 : ℤ) : ℚ) := by norm_num
  have e2 : ((2 : ℚ) ^ (53 : ℤ)) = (((2 : ℤ) ^ 53 : ℤ) : ℚ) := by norm_num
  have l1 : (2 : ℤ) ^ 52 ≤ roundHalfEven (a / 2 ^ (Int.log 2 a - 52)) := by
    have := roundHalfEven_mono h1
    rwa [e1, roundHalfEven_intCast] at this
  have l2 : roundHalfEven (a / 2 ^ (Int.log 2 a - 52)) ≤ (2 : ℤ) ^ 53 := by
    have := roundHalfEven_mono h2.le
    rwa [e2, roundHalfEven_intCast] at this
  have l1q : ((2 : ℚ) ^ (52 : ℤ)) ≤ (roundHalfEven (a / 2 ^ (Int.log 2 a - 52)) : ℚ) := by
    rw [e1]; exact_mod_cast l1
  have l2q : (roundHalfEven (a / 2 ^ (Int.log 2 a - 52)) : ℚ) ≤ ((2 : ℚ) ^ (53 : ℤ)) := by
    rw [e2]; exact_mod_cast l2
  unfold flAbs
  constructor
  · calc (2 : ℚ) ^ Int.log 2 a = 2 ^ (52 : ℤ) * 2 ^ (Int.log 2 a - 52) := by
          rw [← zpow_add₀ (by norm_num : (2 : ℚ) ≠ 0)]; congr 1; ring
      _ ≤ _ := mul_le_mul_of_nonneg_right l1q hs.le
  · calc _ ≤ (2 : ℚ) ^ (53 : ℤ) * 2 ^ (Int.log 2 a - 52) := mul_le_mul_of_nonneg_right l2q hs.le
      _ = 2 ^ (Int.log 2 a + 1) := by
          rw [← zpow_add₀ (by norm_num : (2 : ℚ) ≠ 0)]; congr 1; ring

theorem flAbs_nonneg {a : ℚ} (ha : 0 ≤ a) : 0 ≤ flAbs a := by
  rcases eq_or_lt_of_le ha with h | h
  · rw [← h, flAbs_zero]
  · exact le_trans (two_zpow_pos _).le (flAbs_bounds h).1

theorem flAbs_mono {a b : ℚ} (ha : 0 ≤ a) (hab : a ≤ b) : flAbs a ≤ flAbs b := by
  rcases eq_or_lt_of_le ha with h | h
  · rw [← h, flAbs_zero]; exact flAbs_nonneg (le_trans ha hab)
  · have hb : 0 < b := lt_of_lt_of_le h hab
    have hlog : Int.log 2 a ≤ Int.log 2 b := Int.log_mono_right h hab
    rcases lt_or_eq_of_le hlog with hlt | heq
    · calc flAbs a ≤ 2 ^ (Int.log 2 a + 1) := (flAbs_bounds h).2
        _ ≤ 2 ^ Int.log 2 b := zpow_le_zpow_right₀ (by norm_num) (by omega)
        _ ≤ flAbs b := (flAbs_bounds hb).1
    · unfold flAbs
      rw [heq]
      have hs := two_zpow_pos (Int.log 2 b - 52)
      apply mul_le_mul_of_nonneg_right _ hs.le
      exact_mod_cast roundHalfEven_mono (div_le_div_of_nonneg_right hab hs.le)

theorem flAbs_err {a : ℚ} (ha : 0 ≤ a) : |flAbs a - a| ≤ a / 2 ^ (53 : ℤ) := by
  rcases eq_or_lt_of_le ha with h | h
  · rw [← h, flAbs_zero]; simp
  · have hs := two_zpow_pos (Int.log 2 a - 52)
    have herr := roundHalfEven_err (a / 2 ^ (Int.log 2 a - 52))
    have key : flAbs a - a =
        ((roundHalfEven (a / 2 ^ (Int.log 2 a - 52)) : ℚ) - a / 2 ^ (Int.log 2 a - 52)) *
          2 ^ (Int.log 2 a - 52) := by
      unfold flAbs; field_simp
    rw [key, abs_mul, abs_of_pos hs]
    calc _ ≤ 1 / 2 * (2 : ℚ) ^ (Int.log 2 a - 52) := mul_le_mul_of_nonneg_right herr hs.le
      _ = 2 ^ Int.log 2 a / 2 ^ (53 : ℤ) := by
          rw [← zpow_sub₀ (by norm_num : (2 : ℚ) ≠ 0)]
          have : Int.log 2 a - 53 = (Int.log 2 a - 52) + (-1) := by ring
          rw [this, zpow_add₀ (by norm_num : (2 : ℚ) ≠ 0)]
          norm_num; ring
      _ ≤ a / 2 ^ (53 : ℤ) := by
          apply div_le_div_of_nonneg_right (log_spec h).1 (two_zpow_pos _).le

theorem flAbs_exact (m : ℕ) (k : ℤ) (hm : m < 2 ^ 53) :
    flAbs ((m : ℚ) * 2 ^ k) = (m : ℚ) * 2 ^ k := by
  rcases Nat.eq_zero_or_pos m with h0 | hpos
  · subst h0; simp [flAbs_zero]
  · have hk := two_zpow_pos k
    have hmq : (0 : ℚ) < m := by exact_mod_cast hpos
    have ha : (0 : ℚ) < (m : ℚ) * 2 ^ k := mul_pos hmq hk
    obtain ⟨h1, h2⟩ := log_spec ha
    set e := Int.log 2 ((m : ℚ) * 2 ^ k) with he
    have hlt : (m : ℚ) * 2 ^ k < 2 ^ (53 + k) := by
      rw [zpow_add₀ (by norm_num : (2 : ℚ) ≠ 0)]
      apply mul_lt_mul_of_pos_right _ hk
      have : ((2 : ℚ) ^ (53 : ℤ)) = (((2 : ℕ) ^ 53 : ℕ) : ℚ) := by norm_num
      rw [this]; exact_mod_cast hm
    have hek : e < 53 + k := by
      by_contra hcon
      have : (2 : ℚ) ^ (53 + k) ≤ 2 ^ e := zpow_le_zpow_right₀ (by norm_num) (by omega)
      linarith
    obtain ⟨n, hn⟩ : ∃ n : ℕ, (n : ℤ) = k - (e - 52) := ⟨(k - (e - 52)).toNat, by omega⟩
    have hscaled : (m : ℚ) * 2 ^ k / 2 ^ (e - 52) = (((m : ℤ) * 2 ^ n : ℤ) : ℚ) := by
      rw [mul_div_assoc, ← zpow_sub₀ (by norm_num : (2 : ℚ) ≠ 0), ← hn]
      push_cast
      rw [zpow_natCast]
    unfold flAbs
    rw [← he, hscaled, roundHalfEven_intCast]
    push_cast
    rw [mul_assoc, ← zpow_natCast, hn, ← zpow_add₀ (by norm_num : (2 : ℚ) ≠ 0)]
    congr 2; ring

theorem fl_zero : fl 0 = 0 := by simp [fl, flAbs_zero]

theorem fl_neg (q : ℚ) : fl (-q) = -fl q := by
  unfold fl
  rcases lt_trichotomy q 0 with h | h | h
  · have h1 : 0 ≤ -q := by linarith
    have h2 : ¬ 0 ≤ q := by linarith
    simp [h1, h2]
  · subst h; simp [flAbs_zero]
  · have h1 : ¬ 0 ≤ -q := by linarith
    have h2 : 0 ≤ q := by linarith
    simp [h1, h2]

theorem fl_of_nonneg {q : ℚ} (h : 0 ≤ q) : fl q = flAbs q := by simp [fl, h]

theorem fl_nonneg {q : ℚ} (h : 0 ≤ q) : 0 ≤ fl q := by
  rw [fl_of_nonneg h]; exact flAbs_nonneg h

theorem fl_nonpos {q : ℚ} (h : q ≤ 0) : fl q ≤ 0 := by
  have := fl_nonneg (q := -q) (by linarith)
  rw [fl_neg] at this; linarith

theorem fl_mono {a b : ℚ} (h : a ≤ b) : fl a ≤ fl b := by
  rcases le_or_lt 0 a with ha | ha
  · rw [fl_of_nonneg ha, fl_of_nonneg (le_trans ha h)]; exact flAbs_mono ha h
  · rcases le_or_lt 0 b with hb | hb
    · exact le_trans (fl_nonpos ha.le) (fl_nonneg hb)
    · have := flAbs_mono (a := -b) (b := -a) (by linarith) (by linarith)
      rw [← fl_of_nonneg (by linarith), ← fl_of_nonneg (by linarith), fl_neg, fl_neg] at this
      linarith

theorem fl_err (q : ℚ) : |fl q - q| ≤ |q| / 2 ^ (53 : ℤ) := by
  rcases le_or_lt 0 q with h | h
  · rw [fl_of_nonneg h, abs_of_nonneg h]; exact flAbs_err h
  · have := flAbs_err (a := -q) (by linarith)
    rw [← fl_of_nonneg (by linarith), fl_neg] at this
    rw [abs_of_neg h]
    have e : |fl q - q| = |-fl q - -q| := by rw [← abs_neg]; congr 1; ring
    rw [e]; exact this

theorem fl_natCast_mul_zpow (m : ℕ) (k : ℤ) (hm : m < 2 ^ 53) :
    fl ((m : ℚ) * 2 ^ k) = (m : ℚ) * 2 ^ k := by
  rw [fl_of_nonneg (mul_nonneg (Nat.cast_nonneg m) (two_zpow_pos k).le)]
  exact flAbs_exact m k hm

/-- every integer of magnitude at most 2^53 is a float64 value -/
theorem fl_intCast (n : ℤ) (hn : |n| ≤ 2 ^ 53) : fl (n : ℚ) = n := by
  have key : ∀ m : ℕ, m ≤ 2 ^ 53 → fl (m : ℚ) = m := by
    intro m hm
    rcases Nat.lt_or_ge m (2 ^ 53) with h | h
    · simpa using fl_natCast_mul_zpow m 0 h
    · have : m = 2 ^ 53 := le_antisymm hm h
      subst this
      have := fl_natCast_mul_zpow 1 53 (by norm_num)
      norm_num at this ⊢
      exact this
  rcases le_or_lt 0 n with h | h
  · obtain ⟨m, rfl⟩ := Int.eq_ofNat_of_zero_le h
    have : m ≤ 2 ^ 53 := by
      rw [abs_of_nonneg h] at hn; exact_mod_cast hn
    simpa using key m this
  · obtain ⟨m, hm⟩ := Int.eq_ofNat_of_zero_le (a := -n) (by omega)
    have hm' : m ≤ 2 ^ 53 := by
      rw [abs_of_neg h, hm] at hn; exact_mod_cast hn
    have : (n : ℚ) = -(m : ℚ) := by
      have : n = -(m : ℤ) := by omega
      rw [this]; push_cast; ring
    rw [this, fl_neg, key m hm']

/-! ## Evaluating a rounding -/

/-- Evaluation of a rounding: a positive `q` in the binade of `2^(e+52)` whose
scaled significand is within less than one half of the integer `R` rounds to
`R * 2^e`. -/
theorem fl_eval (q : ℚ) (e R : ℤ) (h1 : (2 : ℚ) ^ (e + 52) ≤ q) (h2 : q < 2 ^ (e + 52 + 1))
    (hR : |q / 2 ^ e - (R : ℚ)| < 1 / 2) : fl q = (R : ℚ) * 2 ^ e := by
  have hpos : 0 < q := lt_of_lt_of_le (two_zpow_pos _) h1
  have hlog : Int.log 2 q = e + 52 := log_unique h1 h2
  have herr := roundHalfEven_err (q / 2 ^ e)
  have hround : roundHalfEven (q / 2 ^ e) = R := by
    have hlt : |((roundHalfEven (q / 2 ^ e) - R : ℤ) : ℚ)| < 1 := by
      have e1 : ((roundHalfEven (q / 2 ^ e) - R : ℤ) : ℚ) =
          ((roundHalfEven (q / 2 ^ e) : ℚ) - q / 2 ^ e) + (q / 2 ^ e - (R : ℚ)) := by
        push_cast; ring
      rw [e1]
      calc _ ≤ |(roundHalfEven (q / 2 ^ e) : ℚ) - q / 2 ^ e| + |q / 2 ^ e - (R : ℚ)| :=
            abs_add _ _
        _ < 1 := by linarith
    have hz : |roundHalfEven (q / 2 ^ e) - R| < 1 := by
      have : ((|roundHalfEven (q / 2 ^ e) - R| : ℤ) : ℚ) < ((1 : ℤ) : ℚ) := by
        rw [Int.cast_abs]; simpa using hlt
      exact_mod_cast this
    have := abs_lt.mp hz
    omega
  rw [fl_of_nonneg hpos.le]
  unfold flAbs
  rw [hlog]
  have e0 : e + 52 - 52 = e := by ring
  rw [e0, hround]

/-! ## Indexing, `collect` and `makeGrid` -/

@[simp] theorem ok_bind {α β : Type} (a : α) (f : α → Except Fault β) :
    (Except.ok a >>= f) = f a := rfl

@[simp] theorem error_bind {α β : Type} (e : Fault) (f : α → Except Fault β) :
    ((Except.error e : Except Fault α) >>= f) = Except.error e := rfl

@[simp] theorem pure_eq_ok {α : Type} (a : α) : (pure a : Except Fault α) = Except.ok a := rfl

theorem index_eq_ok_iff {α : Type} (l : List α) (i : Int) (a : α) :
    index l i = .ok a ↔ 0 ≤ i ∧ l[i.toNat]? = some a := by
  unfold index
  by_cases h : i < 0
  · simp [h]
  · simp only [h, if_false]
    cases hl : l[i.toNat]? with
    | none => simp
    | some b => simp; omega

theorem index_natCast_of_lt {α : Type} (l : List α) (n : Nat) (h : n < l.length) :
    index l (n : Int) = .ok (l.get ⟨n, h⟩) := by
  rw [index_eq_ok_iff]
  refine ⟨by omega, ?_⟩
  simp only [Int.toNat_ofNat, List.getElem?_eq_getElem h, List.get_eq_getElem]

theorem index_ok_of_lt {α : Type} (l : List α) (i : Int) (h0 : 0 ≤ i) (h1 : i < l.length) :
    ∃ a, index l i = .ok a ∧ a ∈ l := by
  have hlt : i.toNat < l.length := by omega
  refine ⟨l[i.toNat], ?_, List.getElem_mem _⟩
  rw [index_eq_ok_iff]
  exact ⟨h0, List.getElem?_eq_getElem hlt⟩

theorem index_eq_ok_lt {α : Type} {l : List α} {i : Int} {a : α} (h : index l i = .ok a) :
    0 ≤ i ∧ i < l.length ∧ a ∈ l := by
  obtain ⟨h0, h1⟩ := (index_eq_ok_iff l i a).mp h
  have hlt : i.toNat < l.length := by
    by_contra hc
    rw [List.getElem?_eq_none (by omega)] at h1
    cases h1
  refine ⟨h0, by omega, ?_⟩
  exact List.getElem?_mem h1

theorem index_crash_or_ok {α : Type} (l : List α) (i : Int) :
    index l i = .error .crash ∨ ∃ a, index l i = .ok a := by
  unfold index
  split_ifs
  · exact Or.inl rfl
  · cases l[i.toNat]? with
    | none => exact Or.inl rfl
    | some a => exact Or.inr ⟨a, rfl⟩

theorem collect_nil {α : Type} : collect ([] : List (Except Fault α)) = .ok [] := rfl

theorem collect_cons_error {α : Type} (e : Fault) (rs : List (Except Fault α)) :
    collect (.error e :: rs) = .error e := rfl

theorem collect_cons_ok {α : Type} (a : α) (rs : List (Except Fault α)) :
    collect (.ok a :: rs) = (collect rs >>= fun as => pure (a :: as)) := rfl

theorem collect_eq_ok_iff {α : Type} (l : List (Except Fault α)) (xs : List α) :
    collect l = .ok xs ↔ l = xs.map .ok := by
  induction l generalizing xs with
  | nil => cases xs <;> simp [collect_nil]
  | cons r rs ih =>
    cases r with
    | error e => cases xs <;> simp [collect_cons_error]
    | ok a =>
      rw [collect_cons_ok]
      cases hc : collect rs with
      | error e =>
        cases xs with
        | nil => simp
        | cons x xt =>
          simp only [error_bind, List.map_cons, List.cons.injEq]
          constructor
          · intro h; cases h
          · rintro ⟨_, h2⟩
            rw [← ih] at h2; rw [hc] at h2; cases h2
      | ok as =>
        have := (ih as).mp hc
        cases xs with
        | nil => simp
        | cons x xt =>
          simp only [ok_bind, pure_eq_ok, List.map_cons, List.cons.injEq, Except.ok.injEq]
          constructor
          · rintro ⟨h1, h2⟩; subst h1 h2; exact ⟨rfl, this⟩
          · rintro ⟨h1, h2⟩
            refine ⟨h1, ?_⟩
            rw [this] at h2
            exact List.map_injective_iff.mpr (fun a b h => by cases h; rfl) h2

theorem collect_range_eq_ok_iff {α : Type} (n : Nat) (f : Nat → Except Fault α) (xs : List α) :
    collect ((List.range n).map f) = .ok xs ↔
      xs.length = n ∧ ∀ i : Nat, i < n → f i = index xs (i : Int) := by
  rw [collect_eq_ok_iff]
  constructor
  · intro h
    have hlen : xs.length = n := by
      have := congrArg List.length h
      simpa using this.symm
    refine ⟨hlen, fun i hi => ?_⟩
    have := congrArg (fun l => l[i]?) h
    simp only [List.getElem?_map, List.getElem?_range hi, Option.map_some'] at this
    have hx : i < xs.length := by omega
    rw [index_natCast_of_lt xs i hx]
    rw [List.getElem?_eq_getElem hx] at this
    simpa using this
  · rintro ⟨hlen, hf⟩
    apply List.ext_getElem?
    intro i
    by_cases hi : i < n
    · have hx : i < xs.length := by omega
      have := hf i hi
      rw [index_natCast_of_lt xs i hx] at this
      simp [List.getElem?_range hi, this, List.getElem?_eq_getElem hx]
    · have h1 : n ≤ i := by omega
      have h2 : xs.length ≤ i := by omega
      simp [List.getElem?_eq_none, h1, h2]

theorem collect_range_exists {α : Type} (n : Nat) (f : Nat → Except Fault α)
    (hf : ∀ i : Nat, i < n → ∃ a, f i = .ok a) :
    ∃ xs, collect ((List.range n).map f) = .ok xs := by
  induction n with
  | zero => exact ⟨[], rfl⟩
  | succ k ih =>
    obtain ⟨xs, hxs⟩ := ih (fun i hi => hf i (by omega))
    obtain ⟨a, ha⟩ := hf k (by omega)
    refine ⟨xs ++ [a], ?_⟩
    rw [collect_eq_ok_iff] at hxs ⊢
    rw [List.range_succ, List.map_append, hxs]
    simp [ha]

theorem pixelAt_natCast_of_lt {α : Type} (G : List (List α)) (n : Nat) (x : Int)
    (h : n < G.length) : pixelAt G (n : Int) x = index (G.get ⟨n, h⟩) x := by
  unfold pixelAt
  rw [index_natCast_of_lt G n h]
  rfl

theorem makeGrid_eq_ok_iff {α : Type} (h w : Int) (f : Int → Int → Except Fault α)
    (G : List (List α)) :
    makeGrid h w f = .ok G ↔
      Shape G h w ∧ ∀ x y : Int, 0 ≤ x → x < w → 0 ≤ y → y < h → f x y = pixelAt G y x := by
  unfold makeGrid Shape
  by_cases h1 : h < 0
  · simp only [h1, if_true]
    constructor
    · intro hc; cases hc
    · rintro ⟨⟨hl, _⟩, _⟩; omega
  · by_cases h2 : 0 < h ∧ w < 0
    · simp only [h1, h2, if_false, and_self, if_true]
      constructor
      · intro hc; cases hc
      · rintro ⟨⟨hl, hr⟩, _⟩
        have hpos : 0 < G.length := by omega
        have := hr (G.get ⟨0, hpos⟩) (List.get_mem _ _ _)
        omega
    · simp only [h1, h2, if_false]
      rw [collect_range_eq_ok_iff]
      constructor
      · rintro ⟨hlen, hrows⟩
        have hrow : ∀ (i : Nat) (hi : i < G.length),
            (G.get ⟨i, hi⟩).length = w.toNat ∧
              ∀ j : Nat, j < w.toNat → f (j : Int) (i : Int) = index (G.get ⟨i, hi⟩) (j : Int) := by
          intro i hi
          have := hrows i (by omega)
          rw [index_natCast_of_lt G i hi, collect_range_eq_ok_iff] at this
          exact this
        refine ⟨⟨by omega, ?_⟩, ?_⟩
        · intro row hmem
          obtain ⟨⟨i, hi⟩, rfl⟩ := List.mem_iff_get.mp hmem
          have := (hrow i hi).1
          have hh : 0 < h := by omega
          have hw : ¬ w < 0 := fun hw => h2 ⟨hh, hw⟩
          omega
        · intro x y hx0 hxw hy0 hyh
          obtain ⟨i, rfl⟩ := Int.eq_ofNat_of_zero_le hy0
          obtain ⟨j, rfl⟩ := Int.eq_ofNat_of_zero_le hx0
          have hi : i < G.length := by omega
          rw [pixelAt_natCast_of_lt G i _ hi]
          exact (hrow i hi).2 j (by omega)
      · rintro ⟨⟨hlen, hrows⟩, hf⟩
        refine ⟨by omega, fun i hi => ?_⟩
        have hi2 : i < G.length := by omega
        rw [index_natCast_of_lt G i hi2, collect_range_eq_ok_iff]
        have hrl := hrows (G.get ⟨i, hi2⟩) (List.get_mem _ _ _)
        refine ⟨by omega, fun j hj => ?_⟩
        rw [← pixelAt_natCast_of_lt G i _ hi2]
        exact hf j i (by omega) (by omega) (by omega) (by omega)

theorem makeGrid_exists {α : Type} (h w : Int) (f : Int → Int → Except Fault α)
    (hh : 0 ≤ h) (hw : 0 < h → 0 ≤ w)
    (hf : ∀ x y : Int, 0 ≤ x → x < w → 0 ≤ y → y < h → ∃ v, f x y = .ok v) :
    ∃ G, makeGrid h w f = .ok G := by
  unfold makeGrid
  have h1 : ¬ h < 0 := by omega
  have h2 : ¬ (0 < h ∧ w < 0) := by
    rintro ⟨a, b⟩
    have := hw a
    omega
  simp only [h1, h2, if_false]
  apply collect_range_exists
  intro i hi
  apply collect_range_exists
  intro j hj
  exact hf j i (by omega) (by omega) (by omega) (by omega)

theorem Shape.nonneg {α : Type} {G : List (List α)} {h w : Int} (hG : Shape G h w) :
    0 ≤ h ∧ (0 < h → 0 ≤ w) := by
  refine ⟨by rw [← hG.1]; omega, fun hpos => ?_⟩
  have hlen : 0 < G.length := by have := hG.1; omega
  have := hG.2 (G.get ⟨0, hlen⟩) (List.get_mem _ _ _)
  omega

theorem pixelAt_ok_of_shape {α : Type} {G : List (List α)} {h w : Int} (hG : Shape G h w)
    {x y : Int} (hx0 : 0 ≤ x) (hxw : x < w) (hy0 : 0 ≤ y) (hyh : y < h) :
    ∃ v, pixelAt G y x = .ok v ∧ ∃ row ∈ G, v ∈ row := by
  obtain ⟨row, hrow, hmem⟩ := index_ok_of_lt G y hy0 (by rw [hG.1]; exact hyh)
  obtain ⟨v, hv, hvm⟩ := index_ok_of_lt row x hx0 (by rw [hG.2 row hmem]; exact hxw)
  refine ⟨v, ?_, row, hmem, hvm⟩
  unfold pixelAt
  rw [hrow]; exact hv

/-- two grids of one shape that agree at every position are equal -/
theorem grid_ext {α : Type} {G1 G2 : List (List α)} {h w : Int} (h1 : Shape G1 h w)
    (h2 : Shape G2 h w)
    (hpt : ∀ x y : Int, 0 ≤ x → x < w → 0 ≤ y → y < h → pixelAt G1 y x = pixelAt G2 y x) :
    G1 = G2 := by
  have e1 := (makeGrid_eq_ok_iff h w (fun x y => pixelAt G1 y x) G1).mpr
    ⟨h1, fun _ _ _ _ _ _ => rfl⟩
  have e2 := (makeGrid_eq_ok_iff h w (fun x y => pixelAt G1 y x) G2).mpr ⟨h2, hpt⟩
  rw [e1] at e2
  cases e2; rfl

/-! ## Conversions and clamped coordinates -/

theorem truncQ_intCast (z : Int) : truncQ (z : ℚ) = z := by
  unfold truncQ; split_ifs <;> simp

theorem toInt_intCast (z : Int) (h1 : -(2 ^ 63) ≤ z) (h2 : z < 2 ^ 63) : toInt (z : ℚ) = z := by
  unfold toInt; rw [truncQ_intCast, if_pos ⟨h1, h2⟩]

theorem wrapInt_of_range (z : Int) (h1 : -(2 ^ 63) ≤ z) (h2 : z < 2 ^ 63) : wrapInt z = z := by
  unfold wrapInt; omega

theorem fl_one : fl 1 = 1 := by
  have := fl_intCast 1 (by norm_num)
  simpa using this

theorem fl_byte (a : Int) (h0 : -255 ≤ a) (h1 : a ≤ 255) : fl (a : ℚ) = a :=
  fl_intCast a (by rw [abs_le]; constructor <;> omega)

/-- a coordinate clamped into `[0, n-1]` has its floor and ceiling in `[0, n-1]` -/
theorem clampCoord_range (x : ℚ) (n : Int) (h1 : 1 ≤ n) (h2 : n ≤ 2 ^ 53) :
    0 ≤ max 0 (min x (fl ((n - 1 : Int) : ℚ))) ∧
      max 0 (min x (fl ((n - 1 : Int) : ℚ))) ≤ ((n - 1 : Int) : ℚ) := by
  have hfl : fl ((n - 1 : Int) : ℚ) = ((n - 1 : Int) : ℚ) :=
    fl_intCast (n - 1) (by rw [abs_le]; constructor <;> omega)
  rw [hfl]
  have hn : (0 : ℚ) ≤ ((n - 1 : Int) : ℚ) := by exact_mod_cast (by omega : (0 : Int) ≤ n - 1)
  exact ⟨le_max_left _ _, max_le hn (min_le_right _ _)⟩

theorem toInt_floor_range {c : ℚ} {n : Int} (h0 : 0 ≤ c) (h1 : c ≤ ((n - 1 : Int) : ℚ))
    (h2 : n ≤ 2 ^ 53) :
    toInt ((⌊c⌋ : Int) : ℚ) = ⌊c⌋ ∧ 0 ≤ ⌊c⌋ ∧ ⌊c⌋ < n := by
  have f0 : 0 ≤ ⌊c⌋ := Int.floor_nonneg.mpr h0
  have f1 : ⌊c⌋ ≤ n - 1 := by
    have : ((⌊c⌋ : Int) : ℚ) ≤ ((n - 1 : Int) : ℚ) := le_trans (Int.floor_le c) h1
    exact_mod_cast this
  exact ⟨toInt_intCast _ (by omega) (by omega), f0, by omega⟩

theorem toInt_ceil_range {c : ℚ} {n : Int} (h0 : 0 ≤ c) (h1 : c ≤ ((n - 1 : Int) : ℚ))
    (h2 : n ≤ 2 ^ 53) :
    toInt ((⌈c⌉ : Int) : ℚ) = ⌈c⌉ ∧ 0 ≤ ⌈c⌉ ∧ ⌈c⌉ < n := by
  have f0 : 0 ≤ ⌈c⌉ := Int.ceil_nonneg h0
  have f1 : ⌈c⌉ ≤ n - 1 := Int.ceil_le.mpr h1
  exact ⟨toInt_intCast _ (by omega) (by omega), f0, by omega⟩

/-- the fractional offset of a coordinate is a float in `[0, 1]` -/
theorem frac_range (c : ℚ) : 0 ≤ fl (c - ((⌊c⌋ : Int) : ℚ)) ∧ fl (c - ((⌊c⌋ : Int) : ℚ)) ≤ 1 := by
  have h0 : 0 ≤ c - ((⌊c⌋ : Int) : ℚ) := by linarith [Int.floor_le c]
  have h1 : c - ((⌊c⌋ : Int) : ℚ) ≤ 1 := by linarith [Int.lt_floor_add_one c]
  refine ⟨fl_nonneg h0, ?_⟩
  have := fl_mono h1
  rwa [fl_one] at this

/-! ## Interpolation between bytes -/

/-- one linear interpolation between two bytes stays between them, hence in
`[0, 255]` -/
theorem lerp_byte_range (a c : Int) (t : ℚ) (ha0 : 0 ≤ a) (ha1 : a ≤ 255) (hc0 : 0 ≤ c)
    (hc1 : c ≤ 255) (ht0 : 0 ≤ t) (ht1 : t ≤ 1) :
    0 ≤ fl (fl (a : ℚ) + fl (fl ((c - a : Int) : ℚ) * t)) ∧
      fl (fl (a : ℚ) + fl (fl ((c - a : Int) : ℚ) * t)) ≤ 255 := by
  rw [fl_byte a (by omega) ha1, fl_byte (c - a) (by omega) (by omega)]
  have haq0 : (0 : ℚ) ≤ a := by exact_mod_cast ha0
  have haq1 : (a : ℚ) ≤ 255 := by exact_mod_cast ha1
  have hcq0 : (0 : ℚ) ≤ c := by exact_mod_cast hc0
  have hcq1 : (c : ℚ) ≤ 255 := by exact_mod_cast hc1
  have hd : (((c - a : Int) : ℚ)) = (c : ℚ) - a := by push_cast; ring
  have e255 : fl (255 : ℚ) = 255 := by
    have := fl_byte 255 (by norm_num) (by norm_num); simpa using this
  have key : 0 ≤ (a : ℚ) + fl (((c - a : Int) : ℚ) * t) ∧
      (a : ℚ) + fl (((c - a : Int) : ℚ) * t) ≤ 255 := by
    rcases le_total a c with hac | hca
    · have hq : (0 : ℚ) ≤ ((c - a : Int) : ℚ) := by exact_mod_cast (by omega : (0 : Int) ≤ c - a)
      have p0 : 0 ≤ fl (((c - a : Int) : ℚ) * t) := fl_nonneg (mul_nonneg hq ht0)
      have p1 : fl (((c - a : Int) : ℚ) * t) ≤ ((c - a : Int) : ℚ) := by
        have := fl_mono (mul_le_of_le_one_right hq ht1)
        rwa [fl_byte (c - a) (by omega) (by omega)] at this
      constructor <;> linarith
    · have hq : ((c - a : Int) : ℚ) ≤ 0 := by exact_mod_cast (by omega : c - a ≤ (0 : Int))
      have p0 : fl (((c - a : Int) : ℚ) * t) ≤ 0 := fl_nonpos (mul_nonpos_of_nonpos_of_nonneg hq ht0)
      have p1 : ((c - a : Int) : ℚ) ≤ fl (((c - a : Int) : ℚ) * t) := by
        have h' : ((c - a : Int) : ℚ) ≤ ((c - a : Int) : ℚ) * t := by nlinarith
        have := fl_mono h'
        rwa [fl_byte (c - a) (by omega) (by omega)] at this
      constructor <;> linarith
  constructor
  · exact fl_nonneg key.1
  · have := fl_mono key.2
    rwa [e255] at this

theorem fl_close (q : ℚ) : |fl q - q| ≤ |q| / 1000000 := by
  have h := fl_err q
  have hq : 0 ≤ |q| := abs_nonneg q
  have e : (2 : ℚ) ^ (53 : ℤ) = 9007199254740992 := by norm_num
  rw [e] at h
  have : |q| / 9007199254740992 ≤ |q| / 1000000 :=
    div_le_div_of_nonneg_left hq (by norm_num) (by norm_num)
  linarith

/-- the second interpolation stays within less than one unit of `[0, 255]` -/
theorem blend_range (top bot dy : ℚ) (ht0 : 0 ≤ top) (ht1 : top ≤ 255) (hb0 : 0 ≤ bot)
    (hb1 : bot ≤ 255) (hd0 : 0 ≤ dy) (hd1 : dy ≤ 1) :
    -1 < fl (top + fl (fl (bot - top) * dy)) ∧ fl (top + fl (fl (bot - top) * dy)) < 256 := by
  have e1 := abs_le.mp (fl_close (bot - top))
  have e2 := abs_le.mp (fl_close (fl (bot - top) * dy))
  have e3 := abs_le.mp (fl_close (top + fl (fl (bot - top) * dy)))
  rcases le_total top bot with h | h
  · have d0 : 0 ≤ fl (bot - top) := fl_nonneg (by linarith)
    have p0 : 0 ≤ fl (fl (bot - top) * dy) := fl_nonneg (mul_nonneg d0 hd0)
    have s0 : 0 ≤ top + fl (fl (bot - top) * dy) := by linarith
    have a1 : |bot - top| = bot - top := abs_of_nonneg (by linarith)
    have a2 : |fl (bot - top) * dy| = fl (bot - top) * dy := abs_of_nonneg (mul_nonneg d0 hd0)
    have a3 : |top + fl (fl (bot - top) * dy)| = top + fl (fl (bot - top) * dy) :=
      abs_of_nonneg s0
    rw [a1] at e1; rw [a2] at e2; rw [a3] at e3
    have m1 : fl (bot - top) * dy ≤ fl (bot - top) := mul_le_of_le_one_right d0 hd1
    constructor
    · have := fl_nonneg s0; linarith
    · linarith [e1.2, e2.2, e3.2]
  · have d0 : fl (bot - top) ≤ 0 := fl_nonpos (by linarith)
    have p0 : fl (fl (bot - top) * dy) ≤ 0 := fl_nonpos (mul_nonpos_of_nonpos_of_nonneg d0 hd0)
    have a1 : |bot - top| = top - bot := by rw [abs_of_nonpos (by linarith)]; ring
    have a2 : |fl (bot - top) * dy| = -(fl (bot - top) * dy) :=
      abs_of_nonpos (mul_nonpos_of_nonpos_of_nonneg d0 hd0)
    rw [a1] at e1; rw [a2] at e2
    have m1 : fl (bot - top) ≤ fl (bot - top) * dy := by nlinarith
    have s1 : top + fl (fl (bot - top) * dy) ≤ 255 := by linarith
    have e255 : fl (255 : ℚ) = 255 := by
      have := fl_byte 255 (by norm_num) (by norm_num); simpa using this
    constructor
    · have hs : -(1 / 1000) ≤ top + fl (fl (bot - top) * dy) := by linarith [e1.1, e2.1]
      have habs : |top + fl (fl (bot - top) * dy)| ≤ 255 := by
        rw [abs_le]; constructor <;> linarith
      linarith [e3.1]
    · have := fl_mono s1
      rw [e255] at this; linarith

/-- narrowing after the range check agrees with the unchecked signed narrowing -/
theorem narrow_agree (v : ℚ) (h0 : -1 < v) (h1 : v < 256) :
    toUint8 (if v > 255 ∨ v < 0 then (if v < 0 then 0 else 255) else v) < 256 ∧
      ((toUint8 (if v > 255 ∨ v < 0 then (if v < 0 then 0 else 255) else v) : Nat) : Int) =
        toInt v := by
  have hlt : ∀ q : ℚ, toUint8 q < 256 := by
    intro q; unfold toUint8; omega
  refine ⟨hlt _, ?_⟩
  by_cases hneg : v < 0
  · have hc : ⌈v⌉ = 0 := by
      rw [Int.ceil_eq_iff]; constructor <;> push_cast <;> linarith
    have hn : ¬ 0 ≤ v := not_le.mpr hneg
    simp [hneg, toUint8, toInt, truncQ, hn, hc]
  · have hv0 : 0 ≤ v := not_lt.mp hneg
    have hf0 : 0 ≤ ⌊v⌋ := Int.floor_nonneg.mpr hv0
    have hf1 : ⌊v⌋ < 256 := by
      rw [Int.floor_lt]; exact_mod_cast h1
    by_cases hbig : v > 255
    · have hf : ⌊v⌋ = 255 := by
        rw [Int.floor_eq_iff]; constructor <;> push_cast <;> linarith
      simp [hbig, hneg, toUint8, toInt, truncQ, hv0, hf]
    · have hmod : ⌊v⌋ % 256 = ⌊v⌋ := Int.emod_eq_of_lt hf0 hf1
      have hr : -(2 ^ 63) ≤ ⌊v⌋ ∧ ⌊v⌋ < 2 ^ 63 := by constructor <;> omega
      simp only [hbig, hneg, or_self, if_false, toUint8, toInt, truncQ, hv0, if_true, hmod, hr,
        and_self]
      omega

/-! ## The two interpolators on 8-bit data -/

@[simp] theorem map_ok {α β : Type} (g : α → β) (a : α) :
    Except.map g (Except.ok a : Except Fault α) = Except.ok (g a) := rfl

@[simp] theorem map_error {α β : Type} (g : α → β) (e : Fault) :
    Except.map g (Except.error e : Except Fault α) = Except.error e := rfl

theorem index_map {α β : Type} (g : α → β) (l : List α) (i : Int) :
    index (l.map g) i = Except.map g (index l i) := by
  unfold index
  split_ifs
  · rfl
  · rw [List.getElem?_map]
    cases l[i.toNat]? <;> rfl

theorem pixelAt_map {α β : Type} (g : α → β) (G : List (List α)) (y x : Int) :
    pixelAt (G.map (List.map g)) y x = Except.map g (pixelAt G y x) := by
  unfold pixelAt
  rw [index_map]
  cases index G y with
  | error e => rfl
  | ok row => exact index_map g row x

theorem shape_map {α β : Type} (g : α → β) {G : List (List α)} {h w : Int} (hG : Shape G h w) :
    Shape (G.map (List.map g)) h w := by
  refine ⟨by simpa using hG.1, ?_⟩
  intro row hrow
  obtain ⟨r, hr, rfl⟩ := List.mem_map.mp hrow
  simpa using hG.2 r hr

theorem PGMImage.WF.pixel {A : PGMImage} (hWF : A.WF) {x y : Int} (hx0 : 0 ≤ x)
    (hxw : x < A.Width) (hy0 : 0 ≤ y) (hyh : y < A.Height) :
    ∃ p : Nat, pixelAt A.Pixels y x = .ok p ∧ p < 256 := by
  obtain ⟨v, hv, row, hrow, hmem⟩ := pixelAt_ok_of_shape hWF.1 hx0 hxw hy0 hyh
  exact ⟨v, hv, hWF.2 row hrow v hmem⟩

theorem PGMImage.toLaplacian_WF {A : PGMImage} (hWF : A.WF) : A.toLaplacian.WF := by
  unfold LaplacianImage.WF PGMImage.toLaplacian
  exact shape_map _ hWF.1

theorem interpolate_agree (A : PGMImage) (hWF : A.WF) (hW1 : 1 ≤ A.Width)
    (hW2 : A.Width ≤ 2 ^ 53) (hH1 : 1 ≤ A.Height) (hH2 : A.Height ≤ 2 ^ 53) (x y : ℚ) :
    ∃ v : Nat, interpolateLinear A x y = .ok v ∧ v < 256 ∧
      interpolateLinearLaplacian A.toLaplacian x y = .ok (v : Int) := by
  obtain ⟨cx0, cx1⟩ := clampCoord_range x A.Width hW1 hW2
  obtain ⟨cy0, cy1⟩ := clampCoord_range y A.Height hH1 hH2
  obtain ⟨fx, fx0, fx1⟩ := toInt_floor_range cx0 cx1 hW2
  obtain ⟨gx, gx0, gx1⟩ := toInt_ceil_range cx0 cx1 hW2
  obtain ⟨fy, fy0, fy1⟩ := toInt_floor_range cy0 cy1 hH2
  obtain ⟨gy, gy0, gy1⟩ := toInt_ceil_range cy0 cy1 hH2
  obtain ⟨dx0, dx1⟩ := frac_range (max 0 (min x (fl ((A.Width - 1 : Int) : ℚ))))
  obtain ⟨dy0, dy1⟩ := frac_range (max 0 (min y (fl ((A.Height - 1 : Int) : ℚ))))
  obtain ⟨tl, htl, tl1⟩ := hWF.pixel fx0 fx1 fy0 fy1
  obtain ⟨tr, htr, tr1⟩ := hWF.pixel gx0 gx1 fy0 fy1
  obtain ⟨bl, hbl, bl1⟩ := hWF.pixel fx0 fx1 gy0 gy1
  obtain ⟨br, hbr, br1⟩ := hWF.pixel gx0 gx1 gy0 gy1
  obtain ⟨t0, t1⟩ := lerp_byte_range (tl : Int) (tr : Int) _ (by omega) (by omega) (by omega)
    (by omega) dx0 dx1
  obtain ⟨b0, b1⟩ := lerp_byte_range (bl : Int) (br : Int) _ (by omega) (by omega) (by omega)
    (by omega) dx0 dx1
  obtain ⟨v0, v1⟩ := blend_range _ _ _ t0 t1 b0 b1 dy0 dy1
  obtain ⟨n1, n2⟩ := narrow_agree _ v0 v1
  refine ⟨_, ?_, n1, ?_⟩
  · unfold interpolateLinear
    simp only [fx, gx, fy, gy, htl, htr, hbl, hbr, ok_bind, pure_eq_ok]
  · have hlen : (A.Pixels.length : Int) = A.Height := hWF.1.1
    have hpos : 0 < A.Pixels.length := by omega
    have hrow0 : index A.Pixels 0 = .ok (A.Pixels.get ⟨0, hpos⟩) :=
      index_natCast_of_lt A.Pixels 0 hpos
    have hrl : ((A.Pixels.get ⟨0, hpos⟩).length : Int) = A.Width :=
      hWF.1.2 _ (List.get_mem _ _ _)
    have w1 : wrapInt ((tr : Int) - (tl : Int)) = (tr : Int) - (tl : Int) :=
      wrapInt_of_range _ (by omega) (by omega)
    have w2 : wrapInt ((br : Int) - (bl : Int)) = (br : Int) - (bl : Int) :=
      wrapInt_of_range _ (by omega) (by omega)
    unfold interpolateLinearLaplacian PGMImage.toLaplacian
    simp only [index_map, hrow0, List.length_map, hrl, hlen, pixelAt_map, fx, gx, fy, gy, htl,
      htr, hbl, hbr, w1, w2, ok_bind, pure_eq_ok, map_ok]
    rw [n2]

/-! ## Resampling a well-formed image -/

theorem fl_pos {q : ℚ} (h : 0 < q) : 0 < fl q := by
  rw [fl_of_nonneg h.le]
  exact lt_of_lt_of_le (two_zpow_pos _) (flAbs_bounds h).1

theorem fl_ne_zero {q : ℚ} (h : q ≠ 0) : fl q ≠ 0 := by
  rcases lt_or_gt_of_ne h with hneg | hpos
  · have := fl_pos (q := -q) (by linarith)
    rw [fl_neg] at this
    linarith
  · exact (fl_pos hpos).ne'

theorem ratio_some (s t : Int) (ht : 2 ≤ t) :
    ∃ r, fdiv (fl ((s - 1 : Int) : ℚ)) (fl ((t - 1 : Int) : ℚ)) = some r := by
  have hne : fl ((t - 1 : Int) : ℚ) ≠ 0 := by
    apply fl_ne_zero
    have : (t - 1 : Int) ≠ 0 := by omega
    exact_mod_cast this
  exact ⟨_, by unfold fdiv; rw [if_neg hne]⟩

theorem mem_grid_pixelAt {α : Type} {G : List (List α)} {row : List α} {p : α}
    (hrow : row ∈ G) (hp : p ∈ row) :
    ∃ y x : Int, 0 ≤ y ∧ y < G.length ∧ 0 ≤ x ∧ x < row.length ∧ pixelAt G y x = .ok p := by
  obtain ⟨⟨i, hi⟩, rfl⟩ := List.mem_iff_get.mp hrow
  obtain ⟨⟨j, hj⟩, rfl⟩ := List.mem_iff_get.mp hp
  refine ⟨i, j, by omega, by omega, by omega, by omega, ?_⟩
  rw [pixelAt_natCast_of_lt G i _ hi]
  exact index_natCast_of_lt _ j hj

theorem bind_eq_ok_of {α β : Type} {r : Except Fault α} {f : α → Except Fault β} {a : α}
    {b : β} (h1 : r = .ok a) (h2 : f a = .ok b) : (r >>= f) = .ok b := by
  rw [h1]; exact h2

theorem bind_eq_ok_iff {α β : Type} (r : Except Fault α) (f : α → Except Fault β) (b : β) :
    (r >>= f) = .ok b ↔ ∃ a, r = .ok a ∧ f a = .ok b := by
  cases r with
  | error e => simp
  | ok a => simp

theorem bind_eq_error_iff {α β : Type} (r : Except Fault α) (f : α → Except Fault β)
    (e : Fault) :
    (r >>= f) = .error e ↔ r = .error e ∨ ∃ a, r = .ok a ∧ f a = .error e := by
  cases r with
  | error e1 => simp
  | ok a => simp

theorem scaleCoord_some (i : Int) (r : ℚ) :
    scaleCoord i (some r) = .ok (fl (fl (i : ℚ) * r)) := rfl

/-- Resampling a well-formed image to a target of at least 2 by 2: the call
returns a well-formed image of the target size, and the signed resampler returns
the same pixels on the widened image. -/
theorem resizeImage_spec (A : PGMImage) (hWF : A.WF) (hW1 : 1 ≤ A.Width)
    (hW2 : A.Width ≤ 2 ^ 53) (hH1 : 1 ≤ A.Height) (hH2 : A.Height ≤ 2 ^ 53)
    (tw th : Int) (htw : 2 ≤ tw) (hth : 2 ≤ th) :
    ∃ R, resizeImage A tw th = .ok R ∧ R.Width = tw ∧ R.Height = th ∧ R.MaxVal = 255 ∧ R.WF ∧
      resizeImageLaplacian A.toLaplacian tw th = .ok R.toLaplacian := by
  obtain ⟨wr, hwr⟩ := ratio_some A.Width tw htw
  obtain ⟨hr, hhr⟩ := ratio_some A.Height th hth
  have hagree := fun (x y : ℚ) => interpolate_agree A hWF hW1 hW2 hH1 hH2 x y
  obtain ⟨G, hG⟩ := makeGrid_exists th tw
    (fun x y => interpolateLinear A (fl (fl (x : ℚ) * wr)) (fl (fl (y : ℚ) * hr)))
    (by omega) (fun _ => by omega)
    (fun x y _ _ _ _ => by
      obtain ⟨v, hv, _⟩ := hagree (fl (fl (x : ℚ) * wr)) (fl (fl (y : ℚ) * hr))
      exact ⟨v, hv⟩)
  obtain ⟨hshape, hpt⟩ := (makeGrid_eq_ok_iff _ _ _ _).mp hG
  refine ⟨{ Width := tw, Height := th, MaxVal := 255, Pixels := G }, ?_, rfl, rfl, rfl, ?_, ?_⟩
  · unfold resizeImage
    refine bind_eq_ok_of (a := G) ?_ rfl
    rw [makeGrid_eq_ok_iff]
    refine ⟨hshape, fun x y hx0 hx1 hy0 hy1 => ?_⟩
    simp only [hwr, hhr, scaleCoord_some, ok_bind]
    exact hpt x y hx0 hx1 hy0 hy1
  · refine ⟨hshape, ?_⟩
    intro row hrow p hp
    obtain ⟨y, x, hy0, hy1, hx0, hx1, hpx⟩ := mem_grid_pixelAt hrow hp
    have hx1' : x < tw := by rw [← hshape.2 row hrow]; exact hx1
    have hy1' : y < th := by rw [← hshape.1]; exact hy1
    have := hpt x y hx0 hx1' hy0 hy1'
    obtain ⟨v, hv, hv256, _⟩ := hagree (fl (fl (x : ℚ) * wr)) (fl (fl (y : ℚ) * hr))
    rw [hpx] at this
    rw [hv] at this
    cases this
    exact hv256
  · unfold resizeImageLaplacian
    refine bind_eq_ok_of (a := G.map (List.map (fun (p : Nat) => (p : Int)))) ?_ rfl
    rw [makeGrid_eq_ok_iff]
    refine ⟨shape_map _ hshape, fun x y hx0 hx1 hy0 hy1 => ?_⟩
    have e1 : A.toLaplacian.Width = A.Width := rfl
    have e2 : A.toLaplacian.Height = A.Height := rfl
    simp only [e1, e2, hwr, hhr, scaleCoord_some, ok_bind]
    obtain ⟨v, hv, _, hvL⟩ := hagree (fl (fl (x : ℚ) * wr)) (fl (fl (y : ℚ) * hr))
    have := hpt x y hx0 hx1 hy0 hy1
    rw [hv] at this
    rw [hvL, pixelAt_map, ← this]
    rfl

/-! ## The signed resampler on any well-formed image -/

theorem interpolateLaplacian_ok (B : LaplacianImage) (hWF : B.WF) (hW1 : 1 ≤ B.Width)
    (hW2 : B.Width ≤ 2 ^ 53) (hH1 : 1 ≤ B.Height) (hH2 : B.Height ≤ 2 ^ 53) (x y : ℚ) :
    ∃ v : Int, interpolateLinearLaplacian B x y = .ok v := by
  obtain ⟨cx0, cx1⟩ := clampCoord_range x B.Width hW1 hW2
  obtain ⟨cy0, cy1⟩ := clampCoord_range y B.Height hH1 hH2
  obtain ⟨fx, fx0, fx1⟩ := toInt_floor_range cx0 cx1 hW2
  obtain ⟨gx, gx0, gx1⟩ := toInt_ceil_range cx0 cx1 hW2
  obtain ⟨fy, fy0, fy1⟩ := toInt_floor_range cy0 cy1 hH2
  obtain ⟨gy, gy0, gy1⟩ := toInt_ceil_range cy0 cy1 hH2
  have hS : Shape B.Pixels B.Height B.Width := hWF
  obtain ⟨tl, htl, _⟩ := pixelAt_ok_of_shape hS fx0 fx1 fy0 fy1
  obtain ⟨tr, htr, _⟩ := pixelAt_ok_of_shape hS gx0 gx1 fy0 fy1
  obtain ⟨bl, hbl, _⟩ := pixelAt_ok_of_shape hS fx0 fx1 gy0 gy1
  obtain ⟨br, hbr, _⟩ := pixelAt_ok_of_shape hS gx0 gx1 gy0 gy1
  have hlen : (B.Pixels.length : Int) = B.Height := hS.1
  have hpos : 0 < B.Pixels.length := by omega
  have hrow0 : index B.Pixels 0 = .ok (B.Pixels.get ⟨0, hpos⟩) :=
    index_natCast_of_lt B.Pixels 0 hpos
  have hrl : ((B.Pixels.get ⟨0, hpos⟩).length : Int) = B.Width :=
    hS.2 _ (List.get_mem _ _ _)
  unfold interpolateLinearLaplacian
  simp only [hrow0, hrl, hlen, fx, gx, fy, gy, htl, htr, hbl, hbr, ok_bind, pure_eq_ok]
  exact ⟨_, rfl⟩

theorem resizeImageLaplacian_shape (B : LaplacianImage) (hWF : B.WF) (hW1 : 1 ≤ B.Width)
    (hW2 : B.Width ≤ 2 ^ 53) (hH1 : 1 ≤ B.Height) (hH2 : B.Height ≤ 2 ^ 53)
    (tw th : Int) (htw : 2 ≤ tw) (hth : 2 ≤ th) :
    ∃ R, resizeImageLaplacian B tw th = .ok R ∧ R.Width = tw ∧ R.Height = th ∧ R.WF := by
  obtain ⟨wr, hwr⟩ := ratio_some B.Width tw htw
  obtain ⟨hr, hhr⟩ := ratio_some B.Height th hth
  obtain ⟨G, hG⟩ := makeGrid_exists th tw
    (fun x y => interpolateLinearLaplacian B (fl (fl (x : ℚ) * wr)) (fl (fl (y : ℚ) * hr)))
    (by omega) (fun _ => by omega)
    (fun x y _ _ _ _ => interpolateLaplacian_ok B hWF hW1 hW2 hH1 hH2 _ _)
  obtain ⟨hshape, hpt⟩ := (makeGrid_eq_ok_iff _ _ _ _).mp hG
  refine ⟨{ Width := tw, Height := th, Pixels := G }, ?_, rfl, rfl, hshape⟩
  unfold resizeImageLaplacian
  refine bind_eq_ok_of (a := G) ?_ rfl
  rw [makeGrid_eq_ok_iff]
  refine ⟨hshape, fun x y hx0 hx1 hy0 hy1 => ?_⟩
  simp only [hwr, hhr, scaleCoord_some, ok_bind]
  exact hpt x y hx0 hx1 hy0 hy1

/-! ## Pixelwise operations -/

theorem map_eq_bind {α β : Type} (g : α → β) (r : Except Fault α) :
    Except.map g r = (r >>= fun a => pure (g a)) := by
  cases r <;> rfl

theorem pgmToLaplacianImageType_eq (A : PGMImage) (hWF : A.WF) :
    pgmToLaplacianImageType A = .ok A.toLaplacian := by
  unfold pgmToLaplacianImageType
  refine bind_eq_ok_of (a := A.Pixels.map (List.map (fun (p : Nat) => (p : Int)))) ?_ rfl
  rw [makeGrid_eq_ok_iff]
  refine ⟨shape_map _ hWF.1, fun x y _ _ _ _ => ?_⟩
  rw [pixelAt_map, map_eq_bind]

/-- Pixelwise addition of two well-formed images of one size. -/
theorem addImagesLaplacian_spec (U L : LaplacianImage) (hU : U.WF) (hL : L.WF)
    (hw : U.Width = L.Width) (hh : U.Height = L.Height) :
    ∃ R, addImagesLaplacian U L = .ok R ∧ R.Width = L.Width ∧ R.Height = L.Height ∧ R.WF ∧
      ∀ x y : Int, 0 ≤ x → x < L.Width → 0 ≤ y → y < L.Height →
        ∃ a b, pixelAt U.Pixels y x = .ok a ∧ pixelAt L.Pixels y x = .ok b ∧
          pixelAt R.Pixels y x = .ok (wrapInt (a + b)) := by
  have hU : Shape U.Pixels U.Height U.Width := hU
  have hL : Shape L.Pixels L.Height L.Width := hL
  obtain ⟨G, hG⟩ := makeGrid_exists U.Height U.Width (fun x y => do
      let a ← pixelAt U.Pixels y x
      let b ← pixelAt L.Pixels y x
      pure (wrapInt (a + b))) hU.nonneg.1 hU.nonneg.2
    (fun x y hx0 hx1 hy0 hy1 => by
      obtain ⟨a, ha, _⟩ := pixelAt_ok_of_shape hU hx0 hx1 hy0 hy1
      obtain ⟨b, hb, _⟩ := pixelAt_ok_of_shape hL hx0 (hw ▸ hx1) hy0 (hh ▸ hy1)
      exact ⟨wrapInt (a + b), by simp only [ha, hb, ok_bind, pure_eq_ok]⟩)
  obtain ⟨hshape, hpt⟩ := (makeGrid_eq_ok_iff _ _ _ _).mp hG
  refine ⟨{ Width := U.Width, Height := U.Height, Pixels := G }, ?_, hw, hh, hshape, ?_⟩
  · unfold addImagesLaplacian
    rw [if_neg (by simp [hw, hh])]
    refine bind_eq_ok_of (a := G) ?_ rfl
    rw [makeGrid_eq_ok_iff]
    exact ⟨hshape, hpt⟩
  · intro x y hx0 hx1 hy0 hy1
    obtain ⟨a, ha, _⟩ := pixelAt_ok_of_shape hU hx0 (hw ▸ hx1) hy0 (hh ▸ hy1)
    obtain ⟨b, hb, _⟩ := pixelAt_ok_of_shape hL hx0 hx1 hy0 hy1
    refine ⟨a, b, ha, hb, ?_⟩
    have := hpt x y hx0 (hw ▸ hx1) hy0 (hh ▸ hy1)
    simp only [ha, hb, ok_bind, pure_eq_ok] at this
    exact this.symm

/-! ## Which faults a grid computation can end with -/

theorem collect_eq_error {α : Type} {l : List (Except Fault α)} {e : Fault}
    (h : collect l = .error e) : ∃ r ∈ l, r = .error e := by
  induction l with
  | nil => cases h
  | cons r rs ih =>
    cases r with
    | error e1 =>
      rw [collect_cons_error] at h
      cases h
      exact ⟨_, List.mem_cons_self _ _, rfl⟩
    | ok a =>
      rw [collect_cons_ok] at h
      cases hc : collect rs with
      | error e2 =>
        rw [hc] at h
        cases h
        obtain ⟨r, hr, he⟩ := ih hc
        exact ⟨r, List.mem_cons_of_mem _ hr, he⟩
      | ok as =>
        rw [hc] at h
        cases h

theorem makeGrid_eq_error {α : Type} {h w : Int} {f : Int → Int → Except Fault α} {e : Fault}
    (he : makeGrid h w f = .error e) : e = .crash ∨ ∃ x y : Int, f x y = .error e := by
  unfold makeGrid at he
  split_ifs at he
  · cases he; exact Or.inl rfl
  · cases he; exact Or.inl rfl
  · obtain ⟨r, hr, hre⟩ := collect_eq_error he
    obtain ⟨y, _, rfl⟩ := List.mem_map.mp hr
    obtain ⟨r2, hr2, hre2⟩ := collect_eq_error hre
    obtain ⟨x, _, rfl⟩ := List.mem_map.mp hr2
    exact Or.inr ⟨x, y, hre2⟩

theorem pixelAt_crash_or_ok {α : Type} (G : List (List α)) (y x : Int) :
    pixelAt G y x = .error .crash ∨ ∃ v, pixelAt G y x = .ok v := by
  unfold pixelAt
  rcases index_crash_or_ok G y with h | ⟨row, h⟩
  · rw [h]; exact Or.inl rfl
  · rw [h]; exact index_crash_or_ok row x

theorem sumPixels_ne_mismatch (y x : Int) (images : List LaplacianImage) (total : Int) :
    sumPixels y x images total ≠ .error .mismatch := by
  induction images generalizing total with
  | nil => intro h; cases h
  | cons image rest ih =>
    unfold sumPixels
    rcases pixelAt_crash_or_ok image.Pixels y x with h | ⟨v, h⟩
    · rw [h]; intro hc; cases hc
    · rw [h]; exact ih _

/-! ## C4: clamping -/

/-- Clamping a well-formed signed image to `[0, 255]`, position by position. -/
theorem clampImage_spec (image : LaplacianImage) (hWF : image.WF) :
    ∃ out, clampImage image 0 255 = .ok out ∧ out.Width = image.Width ∧
      out.Height = image.Height ∧ Shape out.Pixels image.Height image.Width ∧
      ∀ x y : Int, 0 ≤ x → x < image.Width → 0 ≤ y → y < image.Height →
        ∃ (v : Int) (p : Nat), pixelAt image.Pixels y x = .ok v ∧
          pixelAt out.Pixels y x = .ok p ∧ (p : Int) = min (max v 0) 255 ∧
          (255 < v → p = 255) ∧ (v < 0 → p = 0) ∧ (0 ≤ v → v ≤ 255 → (p : Int) = v) := by
  have hS : Shape image.Pixels image.Height image.Width := hWF
  have hval : ∀ x y : Int, 0 ≤ x → x < image.Width → 0 ≤ y → y < image.Height →
      ∃ (v : Int) (p : Nat), pixelAt image.Pixels y x = .ok v ∧
        (do
          let v ← pixelAt image.Pixels y x
          if v > ((255 : Nat) : Int) then pure 255
          else if v < ((0 : Nat) : Int) then pure 0
          else pure (v % 256).toNat) = Except.ok p ∧ (p : Int) = min (max v 0) 255 ∧
        (255 < v → p = 255) ∧ (v < 0 → p = 0) ∧ (0 ≤ v → v ≤ 255 → (p : Int) = v) := by
    intro x y hx0 hx1 hy0 hy1
    obtain ⟨v, hv, _⟩ := pixelAt_ok_of_shape hS hx0 hx1 hy0 hy1
    by_cases h1 : v > 255
    · refine ⟨v, 255, hv, ?_, ?_, ?_, ?_, ?_⟩
      · simp [hv, h1]
      · rw [max_eq_left (by omega), min_eq_right (by omega)]; rfl
      · intro _; rfl
      · intro h; omega
      · intro _ h; omega
    · by_cases h2 : v < 0
      · refine ⟨v, 0, hv, ?_, ?_, ?_, ?_, ?_⟩
        · simp [hv, h1, h2]
        · rw [max_eq_right (by omega), min_eq_left (by omega)]; rfl
        · intro h; omega
        · intro _; rfl
        · intro h; omega
      · have hmod : v % 256 = v := Int.emod_eq_of_lt (by omega) (by omega)
        refine ⟨v, (v % 256).toNat, hv, ?_, ?_, ?_, ?_, ?_⟩
        · simp [hv, h1, h2]
        · rw [max_eq_left (by omega), min_eq_left (by omega), hmod]; omega
        · intro h; omega
        · intro h; omega
        · intro _ _; rw [hmod]; omega
  obtain ⟨G, hG⟩ := makeGrid_exists image.Height image.Width (fun x y => do
      let v ← pixelAt image.Pixels y x
      if v > ((255 : Nat) : Int) then pure 255
      else if v < ((0 : Nat) : Int) then pure 0
      else pure (v % 256).toNat) hS.nonneg.1 hS.nonneg.2
    (fun x y hx0 hx1 hy0 hy1 => by
      obtain ⟨v, p, _, hp, _⟩ := hval x y hx0 hx1 hy0 hy1
      exact ⟨p, hp⟩)
  obtain ⟨hshape, hpt⟩ := (makeGrid_eq_ok_iff _ _ _ _).mp hG
  refine ⟨{ Width := image.Width, Height := image.Height, MaxVal := 255, Pixels := G }, ?_,
    rfl, rfl, hshape, ?_⟩
  · unfold clampImage
    exact bind_eq_ok_of (a := G) hG rfl
  · intro x y hx0 hx1 hy0 hy1
    obtain ⟨v, p, hv, hp, h1, h2, h3, h4⟩ := hval x y hx0 hx1 hy0 hy1
    refine ⟨v, p, hv, ?_, h1, h2, h3, h4⟩
    rw [← hpt x y hx0 hx1 hy0 hy1]
    exact hp

/-- C4. Clamp correctness: on a well-formed signed image `clampImage image 0 255`
returns an image of the same declared width and height, with rows of that
shape, whose pixel at every position is 255 where the input exceeds 255, 0 where
the input is negative, and the input itself where it lies in `[0, 255]`; that is
`min (max v 0) 255`. -/
theorem clampImage_correct (image : LaplacianImage) (hWF : image.WF) :
    ∃ out, clampImage image 0 255 = .ok out ∧ out.Width = image.Width ∧
      out.Height = image.Height ∧ Shape out.Pixels image.Height image.Width ∧
      ∀ x y : Int, 0 ≤ x → x < image.Width → 0 ≤ y → y < image.Height →
        ∃ (v : Int) (p : Nat), pixelAt image.Pixels y x = .ok v ∧
          pixelAt out.Pixels y x = .ok p ∧ (p : Int) = min (max v 0) 255 ∧
          (255 < v → p = 255) ∧ (v < 0 → p = 0) ∧ (0 ≤ v → v ≤ 255 → (p : Int) = v) := by
  obtain ⟨out, hout, hw, hh, hshape, hpt⟩ := clampImage_spec image hWF
  refine ⟨out, hout, hw, hh, hshape, fun x y hx0 hx1 hy0 hy1 => ?_⟩
  obtain ⟨v, p, hv, hp, hmm, hrest⟩ := hpt x y hx0 hx1 hy0 hy1
  exact ⟨v, p, hv, hp, hmm, hrest⟩

theorem clampImage_correct_witness :
    sampleSigned.WF ∧ ∃ out, clampImage sampleSigned 0 255 = .ok out ∧
      pixelAt out.Pixels 0 0 = .ok 255 ∧ pixelAt out.Pixels 0 1 = .ok 0 ∧
      pixelAt out.Pixels 0 2 = .ok 77 := by
  refine ⟨by decide, ?_⟩
  obtain ⟨out, h, _, _, _, hpt⟩ := clampImage_correct sampleSigned (by decide)
  have e0 : pixelAt sampleSigned.Pixels 0 0 = .ok 300 := rfl
  have e1 : pixelAt sampleSigned.Pixels 0 1 = .ok (-10) := rfl
  have e2 : pixelAt sampleSigned.Pixels 0 2 = .ok 77 := rfl
  refine ⟨out, h, ?_, ?_, ?_⟩
  · obtain ⟨v, p, hv, hp, _, hbig, _, _⟩ := hpt 0 0 (by decide) (by decide) (by decide) (by decide)
    rw [e0] at hv; cases hv
    rw [hp, hbig (by decide)]
  · obtain ⟨v, p, hv, hp, _, _, hneg, _⟩ := hpt 1 0 (by decide) (by decide) (by decide) (by decide)
    rw [e1] at hv; cases hv
    rw [hp, hneg (by decide)]
  · obtain ⟨v, p, hv, hp, _, _, _, hin⟩ := hpt 2 0 (by decide) (by decide) (by decide) (by decide)
    rw [e2] at hv; cases hv
    have := hin (by decide) (by decide)
    rw [hp]
    congr 1
    exact_mod_cast this

/-! ## C9: the mismatch error of meanImages -/

/-- C9. For a non-empty list `first :: rest`, `meanImages` returns its
dimension-mismatch error exactly when some later member has a declared width
or height different from the first member's. -/
theorem meanImages_error_iff (first : LaplacianImage) (rest : List LaplacianImage) :
    meanImages (first :: rest) = .error .mismatch ↔
      ∃ image ∈ rest, image.Width ≠ first.Width ∨ image.Height ≠ first.Height := by
  have h0 : index (first :: rest) 0 = .ok first := by
    rw [index_eq_ok_iff]; simp
  unfold meanImages
  simp only [h0, ok_bind, List.tail_cons]
  by_cases hany : (rest.any fun image =>
      decide (image.Height ≠ first.Height ∨ image.Width ≠ first.Width)) = true
  · rw [if_pos hany]
    simp only [true_iff]
    obtain ⟨image, hmem, hd⟩ := List.any_eq_true.mp hany
    refine ⟨image, hmem, ?_⟩
    have := of_decide_eq_true hd
    tauto
  · rw [if_neg hany]
    constructor
    · intro h
      exfalso
      rw [bind_eq_error_iff] at h
      rcases h with h | ⟨G, _, h⟩
      · rcases makeGrid_eq_error h with hc | ⟨x, y, hxy⟩
        · cases hc
        · rcases hsum : sumPixels y x (first :: rest) 0 with e | t
          · rw [hsum] at hxy
            simp only [error_bind] at hxy
            cases hxy
            exact sumPixels_ne_mismatch _ _ _ _ hsum
          · rw [hsum] at hxy
            cases hxy
      · cases h
    · rintro ⟨image, hmem, hd⟩
      exfalso
      apply hany
      rw [List.any_eq_true]
      exact ⟨image, hmem, decide_eq_true (by tauto)⟩

/-! ## C10: Laplacian extraction -/

/-- Pixelwise signed difference of two byte grids of one shape with at least one row. -/
theorem subtractImages_spec (P G : List (List Nat)) (h w : Int) (hP : Shape P h w)
    (hG : Shape G h w) (hh : 1 ≤ h) :
    ∃ D, subtractImages P G = .ok D ∧ Shape D h w ∧
      ∀ x y : Int, 0 ≤ x → x < w → 0 ≤ y → y < h →
        ∃ a b : Nat, pixelAt P y x = .ok a ∧ pixelAt G y x = .ok b ∧
          pixelAt D y x = .ok ((a : Int) - (b : Int)) := by
  have hPl : 0 < P.length := by have := hP.1; omega
  have hGl : 0 < G.length := by have := hG.1; omega
  have hlen : P.length = G.length := by have := hP.1; have := hG.1; omega
  have r1 : index P 0 = .ok (P.get ⟨0, hPl⟩) := index_natCast_of_lt P 0 hPl
  have r2 : index G 0 = .ok (G.get ⟨0, hGl⟩) := index_natCast_of_lt G 0 hGl
  have l1 : ((P.get ⟨0, hPl⟩).length : Int) = w := hP.2 _ (List.get_mem _ _ _)
  have l2 : ((G.get ⟨0, hGl⟩).length : Int) = w := hG.2 _ (List.get_mem _ _ _)
  have hrl : (P.get ⟨0, hPl⟩).length = (G.get ⟨0, hGl⟩).length := by omega
  have hval : ∀ x y : Int, 0 ≤ x → x < w → 0 ≤ y → y < h →
      ∃ a b : Nat, pixelAt P y x = .ok a ∧ pixelAt G y x = .ok b ∧
        (do
          let a ← pixelAt P y x
          let b ← pixelAt G y x
          pure (((a : Nat) : Int) - ((b : Nat) : Int))) = Except.ok ((a : Int) - (b : Int)) := by
    intro x y hx0 hx1 hy0 hy1
    obtain ⟨a, ha, _⟩ := pixelAt_ok_of_shape hP hx0 hx1 hy0 hy1
    obtain ⟨b, hb, _⟩ := pixelAt_ok_of_shape hG hx0 hx1 hy0 hy1
    exact ⟨a, b, ha, hb, by simp only [ha, hb, ok_bind, pure_eq_ok]⟩
  obtain ⟨D, hD⟩ := makeGrid_exists h w (fun x y => do
      let a ← pixelAt P y x
      let b ← pixelAt G y x
      pure (((a : Nat) : Int) - ((b : Nat) : Int))) (by omega) (fun _ => by omega)
    (fun x y hx0 hx1 hy0 hy1 => by
      obtain ⟨a, b, _, _, hv⟩ := hval x y hx0 hx1 hy0 hy1
      exact ⟨_, hv⟩)
  obtain ⟨hshape, hpt⟩ := (makeGrid_eq_ok_iff _ _ _ _).mp hD
  refine ⟨D, ?_, hshape, ?_⟩
  · unfold subtractImages
    rw [if_neg (fun hne => hne hlen)]
    simp only [r1, r2, ok_bind]
    rw [if_neg (fun hne => hne hrl)]
    rw [hP.1, l1]
    exact hD
  · intro x y hx0 hx1 hy0 hy1
    obtain ⟨a, b, ha, hb, hv⟩ := hval x y hx0 hx1 hy0 hy1
    refine ⟨a, b, ha, hb, ?_⟩
    rw [← hpt x y hx0 hx1 hy0 hy1]
    exact hv

/-- Level-by-level signed difference of a pyramid and its approximations. -/
theorem createLaplacianPyramid_spec (pyramid gaussianPyramid : List PGMImage)
    (hcompat : ∀ i : Nat, i < gaussianPyramid.length →
      ∃ level approx, index pyramid (i : Int) = .ok level ∧
        index gaussianPyramid (i : Int) = .ok approx ∧ level.WF ∧ approx.WF ∧
        approx.Width = level.Width ∧ approx.Height = level.Height ∧ 1 ≤ level.Height) :
    ∃ L, createLaplacianPyramid pyramid gaussianPyramid = .ok L ∧
      L.length = gaussianPyramid.length ∧
      ∀ i : Nat, i < gaussianPyramid.length →
        ∃ level approx detail, index pyramid (i : Int) = .ok level ∧
          index gaussianPyramid (i : Int) = .ok approx ∧ index L (i : Int) = .ok detail ∧
          detail.Width = level.Width ∧ detail.Height = level.Height ∧ detail.WF ∧
          ∀ x y : Int, 0 ≤ x → x < level.Width → 0 ≤ y → y < level.Height →
            ∃ a b : Nat, pixelAt level.Pixels y x = .ok a ∧ pixelAt approx.Pixels y x = .ok b ∧
              pixelAt detail.Pixels y x = .ok ((a : Int) - (b : Int)) ∧
              -255 ≤ (a : Int) - (b : Int) ∧ (a : Int) - (b : Int) ≤ 255 := by
  have hstep : ∀ i : Nat, i < gaussianPyramid.length →
      ∃ level approx detail, index pyramid (i : Int) = .ok level ∧
        index gaussianPyramid (i : Int) = .ok approx ∧
        (do
          let level ← index pyramid (i : Int)
          let approx ← index gaussianPyramid (i : Int)
          let laplacian ← subtractImages level.Pixels approx.Pixels
          pure ({ Width := level.Width, Height := level.Height,
                  Pixels := laplacian } : LaplacianImage)) = Except.ok detail ∧
        detail.Width = level.Width ∧ detail.Height = level.Height ∧ detail.WF ∧
        ∀ x y : Int, 0 ≤ x → x < level.Width → 0 ≤ y → y < level.Height →
          ∃ a b : Nat, pixelAt level.Pixels y x = .ok a ∧ pixelAt approx.Pixels y x = .ok b ∧
            pixelAt detail.Pixels y x = .ok ((a : Int) - (b : Int)) ∧
            -255 ≤ (a : Int) - (b : Int) ∧ (a : Int) - (b : Int) ≤ 255 := by
    intro i hi
    obtain ⟨level, approx, hl, ha, hlWF, haWF, hw, hh, h1⟩ := hcompat i hi
    have haS : Shape approx.Pixels level.Height level.Width := by
      have := haWF.1
      rwa [hw, hh] at this
    obtain ⟨D, hD, hDS, hDpt⟩ :=
      subtractImages_spec level.Pixels approx.Pixels level.Height level.Width hlWF.1 haS h1
    refine ⟨level, approx, { Width := level.Width, Height := level.Height, Pixels := D },
      hl, ha, ?_, rfl, rfl, hDS, ?_⟩
    · simp only [hl, ha, hD, ok_bind, pure_eq_ok]
    · intro x y hx0 hx1 hy0 hy1
      obtain ⟨a, b, hpa, hpb, hpd⟩ := hDpt x y hx0 hx1 hy0 hy1
      obtain ⟨a2, ha2, ha256⟩ := hlWF.pixel hx0 hx1 hy0 hy1
      obtain ⟨b2, hb2, hb256⟩ := haWF.pixel hx0 (hw ▸ hx1) hy0 (hh ▸ hy1)
      rw [hpa] at ha2; cases ha2
      rw [hpb] at hb2; cases hb2
      exact ⟨a, b, hpa, hpb, hpd, by omega, by omega⟩
  obtain ⟨L, hL⟩ := collect_range_exists gaussianPyramid.length (fun (idx : Nat) => do
      let level ← index pyramid (idx : Int)
      let approx ← index gaussianPyramid (idx : Int)
      let laplacian ← subtractImages level.Pixels approx.Pixels
      pure ({ Width := level.Width, Height := level.Height,
              Pixels := laplacian } : LaplacianImage))
    (fun i hi => by
      obtain ⟨_, _, detail, _, _, hd, _⟩ := hstep i hi
      exact ⟨detail, hd⟩)
  obtain ⟨hlen, hidx⟩ := (collect_range_eq_ok_iff _ _ _).mp hL
  refine ⟨L, hL, hlen, fun i hi => ?_⟩
  obtain ⟨level, approx, detail, hl, ha, hd, h1, h2, h3, h4⟩ := hstep i hi
  refine ⟨level, approx, detail, hl, ha, ?_, h1, h2, h3, h4⟩
  rw [← hidx i hi]
  exact hd

/-- C10 (amended). Laplacian extraction: when every approximation has a pyramid level at
its index, both well-formed with equal declared sizes and at least one row,
`createLaplacianPyramid` returns one detail image per approximation; detail `i`
has level `i`'s width and height and the matching rows, and its pixel at every
position is the signed difference of the level's byte and the approximation's
byte, which lies in `[-255, 255]`. -/
theorem createLaplacianPyramid_correct (pyramid gaussianPyramid : List PGMImage)
    (hcompat : ∀ i : Nat, i < gaussianPyramid.length →
      ∃ level approx, index pyramid (i : Int) = .ok level ∧
        index gaussianPyramid (i : Int) = .ok approx ∧ level.WF ∧ approx.WF ∧
        approx.Width = level.Width ∧ approx.Height = level.Height ∧ 1 ≤ level.Height) :
    ∃ L, createLaplacianPyramid pyramid gaussianPyramid = .ok L ∧
      L.length = gaussianPyramid.length ∧
      ∀ i : Nat, i < gaussianPyramid.length →
        ∃ level approx detail, index pyramid (i : Int) = .ok level ∧
          index gaussianPyramid (i : Int) = .ok approx ∧ index L (i : Int) = .ok detail ∧
          detail.Width = level.Width ∧ detail.Height = level.Height ∧ detail.WF ∧
          ∀ x y : Int, 0 ≤ x → x < level.Width → 0 ≤ y → y < level.Height →
            ∃ a b : Nat, pixelAt level.Pixels y x = .ok a ∧ pixelAt approx.Pixels y x = .ok b ∧
              pixelAt detail.Pixels y x = .ok ((a : Int) - (b : Int)) ∧
              -255 ≤ (a : Int) - (b : Int) ∧ (a : Int) - (b : Int) ≤ 255 := by
  obtain ⟨L, hL, hlen, hlev⟩ := createLaplacianPyramid_spec pyramid gaussianPyramid hcompat
  refine ⟨L, hL, hlen, fun i hi => ?_⟩
  obtain ⟨level, approx, detail, h1, h2, h3, hrest⟩ := hlev i hi
  exact ⟨level, approx, detail, h1, h2, h3, hrest⟩

theorem createLaplacianPyramid_correct_witness :
    (∀ i : Nat, i < [sampleApprox].length →
      ∃ level approx, index [sampleLevel] (i : Int) = .ok level ∧
        index [sampleApprox] (i : Int) = .ok approx ∧ level.WF ∧ approx.WF ∧
        approx.Width = level.Width ∧ approx.Height = level.Height ∧ 1 ≤ level.Height) ∧
      ∃ L, createLaplacianPyramid [sampleLevel] [sampleApprox] = .ok L ∧ L.length = 1 := by
  have hyp : ∀ i : Nat, i < [sampleApprox].length →
      ∃ level approx, index [sampleLevel] (i : Int) = .ok level ∧
        index [sampleApprox] (i : Int) = .ok approx ∧ level.WF ∧ approx.WF ∧
        approx.Width = level.Width ∧ approx.Height = level.Height ∧ 1 ≤ level.Height := by
    intro i hi
    have hi0 : i = 0 := by simpa using hi
    subst hi0
    exact ⟨sampleLevel, sampleApprox, rfl, rfl, by decide, by decide, rfl, rfl, by decide⟩
  obtain ⟨L, hL, hlen, _⟩ := createLaplacianPyramid_correct [sampleLevel] [sampleApprox] hyp
  exact ⟨hyp, L, hL, hlen⟩

/-- C10 (counterexample). The image without rows is well formed and compatible
with itself, level by level; `subtractImages` on its grid passes the row count
check and then reads row 0, which does not exist, so `createLaplacianPyramid`
aborts instead of returning one detail image. -/
theorem createLaplacianPyramid_empty_level :
    emptyImage.WF ∧
    (∀ i : Nat, i < [emptyImage].length →
      ∃ level approx, index [emptyImage] (i : Int) = .ok level ∧
        index [emptyImage] (i : Int) = .ok approx ∧ level.WF ∧ approx.WF ∧
        approx.Width = level.Width ∧ approx.Height = level.Height) ∧
    subtractImages emptyImage.Pixels emptyImage.Pixels = .error .crash ∧
    createLaplacianPyramid [emptyImage] [emptyImage] = .error .crash := by
  refine ⟨by decide, ?_, rfl, rfl⟩
  intro i hi
  have hi0 : i = 0 := by simpa using hi
  subst hi0
  exact ⟨emptyImage, emptyImage, rfl, rfl, by decide, by decide, rfl, rfl⟩

/-! ## C8: the mean of the coarsest level -/

theorem wrapInt_add_wrapInt (a b : Int) : wrapInt (wrapInt a + b) = wrapInt (a + b) := by
  unfold wrapInt; omega

theorem sumPixels_eq (y x : Int) (images : List LaplacianImage) (vs : List Int)
    (h : List.Forall₂ (fun (image : LaplacianImage) v => pixelAt image.Pixels y x = .ok v)
      images vs) (t : Int) :
    sumPixels y x images (wrapInt t) = .ok (wrapInt (t + vs.sum)) := by
  induction h generalizing t with
  | nil => simp [sumPixels]
  | cons hv _ ih =>
    unfold sumPixels
    rw [hv]
    simp only [ok_bind, wrapInt_add_wrapInt, List.sum_cons]
    rw [ih, add_assoc]

/-- the float quotient of a non-negative total by the count truncates to the
integer quotient while the total stays below 2^53 -/
theorem floor_fl_div (t : Int) (n : Nat) (ht : 0 ≤ t) (hn : 1 ≤ n)
    (hb : t + n ≤ 2 ^ 53) :
    0 ≤ fl ((t : ℚ) / (n : ℚ)) ∧ ⌊fl ((t : ℚ) / (n : ℚ))⌋ = t / (n : Int) := by
  have hnq : (0 : ℚ) < n := by exact_mod_cast hn
  have htq : (0 : ℚ) ≤ t := by exact_mod_cast ht
  have hq0 : (0 : ℚ) ≤ (t : ℚ) / n := div_nonneg htq hnq.le
  have hfloor : ⌊(t : ℚ) / (n : ℚ)⌋ = t / (n : Int) := Rat.floor_intCast_div_natCast t n
  have hk0 : 0 ≤ t / (n : Int) := Int.ediv_nonneg ht (by omega)
  have hkt : t / (n : Int) ≤ t := Int.ediv_le_self _ ht
  have hflk : fl ((t / (n : Int) : Int) : ℚ) = ((t / (n : Int) : Int) : ℚ) :=
    fl_intCast _ (by rw [abs_of_nonneg hk0]; omega)
  have hlow : ((t / (n : Int) : Int) : ℚ) ≤ fl ((t : ℚ) / n) := by
    have h1 : ((t / (n : Int) : Int) : ℚ) ≤ (t : ℚ) / n := by
      rw [← hfloor]; exact Int.floor_le _
    have := fl_mono h1
    rwa [hflk] at this
  have herr := (abs_le.mp (fl_err ((t : ℚ) / n))).2
  rw [abs_of_nonneg hq0] at herr
  have e53 : (2 : ℚ) ^ (53 : ℤ) = 9007199254740992 := by norm_num
  rw [e53] at herr
  -- t ≤ n * k + (n - 1)
  have hmod : t % (n : Int) ≤ (n : Int) - 1 := by
    have := Int.emod_lt_of_pos t (by omega : (0 : Int) < n)
    omega
  have hdecomp : t = (n : Int) * (t / (n : Int)) + t % (n : Int) := (Int.ediv_add_emod t n).symm
  have hq1 : (t : ℚ) / n ≤ ((t / (n : Int) : Int) : ℚ) + 1 - 1 / n := by
    rw [div_le_iff₀ hnq]
    have : (t : ℚ) ≤ (n : ℚ) * ((t / (n : Int) : Int) : ℚ) + ((n : ℚ) - 1) := by
      have hz : t ≤ (n : Int) * (t / (n : Int)) + ((n : Int) - 1) := by omega
      exact_mod_cast hz
    have e : (((t / (n : Int) : Int) : ℚ) + 1 - 1 / n) * n =
        (n : ℚ) * ((t / (n : Int) : Int) : ℚ) + ((n : ℚ) - 1) := by
      field_simp
      ring
    rw [e]; exact this
  have hq2 : (t : ℚ) / n / 9007199254740992 < 1 / n := by
    rw [div_div, div_lt_div_iff₀ (by positivity) hnq]
    have : (t : ℚ) < 9007199254740992 := by
      have hz : t < 9007199254740992 := by
        have : (2 : Int) ^ 53 = 9007199254740992 := by norm_num
        omega
      exact_mod_cast hz
    nlinarith
  have hup : fl ((t : ℚ) / n) < ((t / (n : Int) : Int) : ℚ) + 1 := by linarith
  refine ⟨fl_nonneg hq0, ?_⟩
  rw [Int.floor_eq_iff]
  exact ⟨hlow, hup⟩

/-- the mean computed by `meanImages` from a total: the truncated quotient -/
theorem mean_quotient (t : Int) (n : Nat) (hn : 1 ≤ n) (hb : |t| + n ≤ 2 ^ 53) :
    toInt (fl (fl (t : ℚ) / fl (((n : Nat) : Int) : ℚ))) = Int.tdiv t n := by
  have habs : |t| ≤ 2 ^ 53 := by omega
  have hnabs : |((n : Nat) : Int)| ≤ 2 ^ 53 := by
    rw [abs_of_nonneg (by omega)]
    have := abs_nonneg t
    omega
  rw [fl_intCast t habs, fl_intCast _ hnabs]
  have hcast : ((((n : Nat) : Int) : ℚ)) = (n : ℚ) := by push_cast; rfl
  rw [hcast]
  rcases le_or_lt 0 t with ht | ht
  · obtain ⟨h0, hf⟩ := floor_fl_div t n ht hn (by rw [abs_of_nonneg ht] at hb; exact hb)
    have hk0 : 0 ≤ t / (n : Int) := Int.ediv_nonneg ht (by omega)
    have hkt : t / (n : Int) ≤ t := Int.ediv_le_self _ ht
    have ht53 : t ≤ 2 ^ 53 := by rw [abs_of_nonneg ht] at habs; exact habs
    unfold toInt truncQ
    rw [if_pos h0, hf, if_pos ⟨by omega, by omega⟩, Int.tdiv_eq_ediv ht (by omega)]
  · have hneg : (t : ℚ) / n = -(((-t : Int) : ℚ) / n) := by push_cast; ring
    obtain ⟨h0, hf⟩ := floor_fl_div (-t) n (by omega) hn
      (by rw [abs_of_neg ht] at hb; exact hb)
    have hk0 : 0 ≤ (-t) / (n : Int) := Int.ediv_nonneg (by omega) (by omega)
    have hkt : (-t) / (n : Int) ≤ -t := Int.ediv_le_self _ (by omega)
    have ht53 : -t ≤ 2 ^ 53 := by rw [abs_of_neg ht] at habs; exact habs
    have htd : Int.tdiv t n = -((-t) / (n : Int)) := by
      have := Int.neg_tdiv (-t) n
      rw [neg_neg] at this
      rw [this, Int.tdiv_eq_ediv (by omega) (by omega)]
    rw [hneg, fl_neg, htd]
    unfold toInt truncQ
    rcases eq_or_lt_of_le h0 with hz | hpos
    · rw [← hz] at hf ⊢
      simp only [neg_zero, le_refl, if_true, Int.floor_zero] at hf ⊢
      rw [← hf]
      simp
    · have hnn : ¬ (0 : ℚ) ≤ -fl (((-t : Int) : ℚ) / n) := by linarith
      rw [if_neg hnn, Int.ceil_neg, hf, if_pos ⟨by omega, by omega⟩]

theorem pixel_values_exist (images : List LaplacianImage) (H W : Int)
    (hS : ∀ image ∈ images, Shape image.Pixels H W) {x y : Int} (hx0 : 0 ≤ x) (hx1 : x < W)
    (hy0 : 0 ≤ y) (hy1 : y < H) :
    ∃ vs : List Int,
      List.Forall₂ (fun (image : LaplacianImage) v => pixelAt image.Pixels y x = .ok v)
        images vs ∧
      ∀ v ∈ vs, ∃ image ∈ images, ∃ row ∈ image.Pixels, v ∈ row := by
  induction images with
  | nil => exact ⟨[], List.Forall₂.nil, by simp⟩
  | cons image rest ih =>
    obtain ⟨vs, hvs, hmem⟩ := ih (fun im him => hS im (List.mem_cons_of_mem _ him))
    obtain ⟨v, hv, row, hrow, hvrow⟩ :=
      pixelAt_ok_of_shape (hS image (List.mem_cons_self _ _)) hx0 hx1 hy0 hy1
    refine ⟨v :: vs, List.Forall₂.cons hv hvs, ?_⟩
    intro u hu
    rcases List.mem_cons.mp hu with rfl | hu
    · exact ⟨image, List.mem_cons_self _ _, row, hrow, hvrow⟩
    · obtain ⟨im, him, r, hr, hur⟩ := hmem u hu
      exact ⟨im, List.mem_cons_of_mem _ him, r, hr, hur⟩

theorem abs_sum_le (vs : List Int) (M : Int) (h : ∀ v ∈ vs, |v| ≤ M) :
    |vs.sum| ≤ (vs.length : Int) * M := by
  induction vs with
  | nil => simp
  | cons v rest ih =>
    have h1 := h v (List.mem_cons_self _ _)
    have h2 := ih (fun u hu => h u (List.mem_cons_of_mem _ hu))
    have h3 := abs_add v rest.sum
    simp only [List.sum_cons, List.length_cons]
    push_cast
    linarith

/-- The pixelwise truncated mean computed by `meanImages` on bounded values. -/
theorem meanImages_spec (first : LaplacianImage) (rest : List LaplacianImage) (M : Int)
    (hWF : ∀ image ∈ first :: rest,
      image.WF ∧ image.Width = first.Width ∧ image.Height = first.Height)
    (hM : ∀ image ∈ first :: rest, ∀ row ∈ image.Pixels, ∀ p ∈ row, |p| ≤ M)
    (hn : ((rest.length + 1 : Nat) : Int) * (M + 1) ≤ 2 ^ 53) :
    ∃ out, meanImages (first :: rest) = .ok out ∧ out.Width = first.Width ∧
      out.Height = first.Height ∧ out.WF ∧
      ∀ x y : Int, 0 ≤ x → x < first.Width → 0 ≤ y → y < first.Height →
        ∃ vs : List Int,
          List.Forall₂ (fun (image : LaplacianImage) v => pixelAt image.Pixels y x = .ok v)
            (first :: rest) vs ∧
          pixelAt out.Pixels y x = .ok (Int.tdiv vs.sum ((rest.length + 1 : Nat) : Int)) := by
  have hS : ∀ image ∈ first :: rest, Shape image.Pixels first.Height first.Width := by
    intro image him
    obtain ⟨h1, h2, h3⟩ := hWF image him
    have h1 : Shape image.Pixels image.Height image.Width := h1
    rwa [h2, h3] at h1
  have hS0 := hS first (List.mem_cons_self _ _)
  have hval : ∀ x y : Int, 0 ≤ x → x < first.Width → 0 ≤ y → y < first.Height →
      ∃ vs : List Int,
        List.Forall₂ (fun (image : LaplacianImage) v => pixelAt image.Pixels y x = .ok v)
          (first :: rest) vs ∧
        (do
          let total ← sumPixels y x (first :: rest) 0
          pure (toInt (fl (fl (total : ℚ) /
            fl ((((first :: rest).length : Nat) : Int) : ℚ))))) =
          Except.ok (Int.tdiv vs.sum ((rest.length + 1 : Nat) : Int)) := by
    intro x y hx0 hx1 hy0 hy1
    obtain ⟨vs, hvs, hmem⟩ := pixel_values_exist (first :: rest) _ _ hS hx0 hx1 hy0 hy1
    refine ⟨vs, hvs, ?_⟩
    have hlen : vs.length = rest.length + 1 := by
      have := hvs.length_eq
      simpa using this.symm
    have hbound : ∀ v ∈ vs, |v| ≤ M := by
      intro v hv
      obtain ⟨im, him, row, hrow, hvr⟩ := hmem v hv
      exact hM im him row hrow v hvr
    have hsum := abs_sum_le vs M hbound
    rw [hlen] at hsum
    have hnpos : (1 : Int) ≤ ((rest.length + 1 : Nat) : Int) := by omega
    have hb : |vs.sum| + ((rest.length + 1 : Nat) : Int) ≤ 2 ^ 53 := by nlinarith
    have hw0 : wrapInt 0 = 0 := by decide
    have hs := sumPixels_eq y x (first :: rest) vs hvs 0
    rw [hw0, zero_add] at hs
    have hr : wrapInt vs.sum = vs.sum := by
      have := abs_le.mp (le_trans (le_add_of_nonneg_right (by omega)) hb)
      exact wrapInt_of_range _ (by omega) (by omega)
    rw [hs, hr]
    simp only [ok_bind, pure_eq_ok, List.length_cons]
    rw [mean_quotient vs.sum (rest.length + 1) (by omega) hb]
  have h0 : index (first :: rest) 0 = .ok first := by
    rw [index_eq_ok_iff]; simp
  have hany : ¬ ((rest.any fun image =>
      decide (image.Height ≠ first.Height ∨ image.Width ≠ first.Width)) = true) := by
    intro h
    obtain ⟨image, hmem, hd⟩ := List.any_eq_true.mp h
    have := of_decide_eq_true hd
    obtain ⟨_, h2, h3⟩ := hWF image (List.mem_cons_of_mem _ hmem)
    tauto
  obtain ⟨G, hG⟩ := makeGrid_exists first.Height first.Width (fun x y => do
      let total ← sumPixels y x (first :: rest) 0
      pure (toInt (fl (fl (total : ℚ) /
        fl ((((first :: rest).length : Nat) : Int) : ℚ))))) hS0.nonneg.1 hS0.nonneg.2
    (fun x y hx0 hx1 hy0 hy1 => by
      obtain ⟨vs, _, hv⟩ := hval x y hx0 hx1 hy0 hy1
      exact ⟨_, hv⟩)
  obtain ⟨hshape, hpt⟩ := (makeGrid_eq_ok_iff _ _ _ _).mp hG
  refine ⟨{ Width := first.Width, Height := first.Height, Pixels := G }, ?_, rfl, rfl, hshape,
    ?_⟩
  · unfold meanImages
    simp only [h0, ok_bind, List.tail_cons]
    rw [if_neg hany]
    exact bind_eq_ok_of (a := G) hG rfl
  · intro x y hx0 hx1 hy0 hy1
    obtain ⟨vs, hvs, hv⟩ := hval x y hx0 hx1 hy0 hy1
    refine ⟨vs, hvs, ?_⟩
    rw [← hpt x y hx0 hx1 hy0 hy1]
    exact hv

/-- C8 (amended). Mean of the coarsest level: for a non-empty list of
well-formed signed images of the first one's declared size, whose pixels have
magnitude at most `M` with `n * (M + 1) ≤ 2^53` for the `n` images, `meanImages`
succeeds and returns a well-formed image of that size whose pixel at every
position is the sum of the `n` pixels there divided by `n`, truncated toward
zero. -/
theorem meanImages_mean (first : LaplacianImage) (rest : List LaplacianImage) (M : Int)
    (hWF : ∀ image ∈ first :: rest,
      image.WF ∧ image.Width = first.Width ∧ image.Height = first.Height)
    (hM : ∀ image ∈ first :: rest, ∀ row ∈ image.Pixels, ∀ p ∈ row, |p| ≤ M)
    (hn : ((rest.length + 1 : Nat) : Int) * (M + 1) ≤ 2 ^ 53) :
    ∃ out, meanImages (first :: rest) = .ok out ∧ out.Width = first.Width ∧
      out.Height = first.Height ∧ out.WF ∧
      ∀ x y : Int, 0 ≤ x → x < first.Width → 0 ≤ y → y < first.Height →
        ∃ vs : List Int,
          List.Forall₂ (fun (image : LaplacianImage) v => pixelAt image.Pixels y x = .ok v)
            (first :: rest) vs ∧
          pixelAt out.Pixels y x = .ok (Int.tdiv vs.sum ((rest.length + 1 : Nat) : Int)) := by
  obtain ⟨out, hout, hw, hh, hwf, hpt⟩ := meanImages_spec first rest M hWF hM hn
  refine ⟨out, hout, hw, hh, hwf, fun x y hx0 hx1 hy0 hy1 => ?_⟩
  obtain ⟨vs, hvs, hv⟩ := hpt x y hx0 hx1 hy0 hy1
  exact ⟨vs, hvs, hv⟩

theorem meanImages_mean_witness :
    (∀ image ∈ [sampleMeanA, sampleMeanB],
      image.WF ∧ image.Width = sampleMeanA.Width ∧ image.Height = sampleMeanA.Height) ∧
    (∀ image ∈ [sampleMeanA, sampleMeanB], ∀ row ∈ image.Pixels, ∀ p ∈ row, |p| ≤ 7) ∧
    ((([sampleMeanB].length + 1 : Nat) : Int) * (7 + 1) ≤ 2 ^ 53) ∧
    ∃ out, meanImages [sampleMeanA, sampleMeanB] = .ok out ∧
      pixelAt out.Pixels 0 0 = .ok 3 ∧ pixelAt out.Pixels 0 1 = .ok (-4) := by
  have h1 : ∀ image ∈ [sampleMeanA, sampleMeanB],
      image.WF ∧ image.Width = sampleMeanA.Width ∧ image.Height = sampleMeanA.Height := by
    decide
  have h2 : ∀ image ∈ [sampleMeanA, sampleMeanB], ∀ row ∈ image.Pixels, ∀ p ∈ row, |p| ≤ 7 := by
    decide
  have h3 : (([sampleMeanB].length + 1 : Nat) : Int) * (7 + 1) ≤ 2 ^ 53 := by decide
  obtain ⟨out, hout, _, _, _, hpt⟩ := meanImages_mean sampleMeanA [sampleMeanB] 7 h1 h2 h3
  refine ⟨h1, h2, h3, out, hout, ?_, ?_⟩
  · obtain ⟨vs, hvs, hv⟩ := hpt 0 0 (by decide) (by decide) (by decide) (by decide)
    cases hvs with
    | cons ha hrest =>
      cases hrest with
      | cons hb hnil =>
        cases hnil
        have ea : pixelAt sampleMeanA.Pixels 0 0 = .ok 7 := rfl
        have eb : pixelAt sampleMeanB.Pixels 0 0 = .ok 0 := rfl
        rw [ea] at ha; cases ha
        rw [eb] at hb; cases hb
        rw [hv]; rfl
  · obtain ⟨vs, hvs, hv⟩ := hpt 1 0 (by decide) (by decide) (by decide) (by decide)
    cases hvs with
    | cons ha hrest =>
      cases hrest with
      | cons hb hnil =>
        cases hnil
        have ea : pixelAt sampleMeanA.Pixels 0 1 = .ok (-7) := rfl
        have eb : pixelAt sampleMeanB.Pixels 0 1 = .ok (-2) := rfl
        rw [ea] at ha; cases ha
        rw [eb] at hb; cases hb
        rw [hv]; rfl

/-- float64 rounding of `2^53 + 1`: the tie goes to the even significand, `2^53` -/
theorem fl_two_pow_53_succ : fl 9007199254740993 = 9007199254740992 := by
  have hlog : Int.log 2 (9007199254740993 : ℚ) = 53 := by
    apply log_unique <;> norm_num
  have hfloor : ⌊(9007199254740993 : ℚ) / 2⌋ = 4503599627370496 := by
    rw [Int.floor_eq_iff]; constructor <;> norm_num
  have hr : roundHalfEven ((9007199254740993 : ℚ) / 2) = 4503599627370496 := by
    unfold roundHalfEven
    rw [hfloor]
    norm_num
  rw [fl_of_nonneg (by norm_num)]
  unfold flAbs
  rw [hlog]
  have e : (2 : ℚ) ^ ((53 : ℤ) - 52) = 2 := by norm_num
  rw [e, hr]
  norm_num

theorem fl_two_pow_53 : fl 9007199254740992 = 9007199254740992 := by
  have := fl_intCast 9007199254740992 (by norm_num)
  simpa using this

/-- C8 (counterexample). For the single 1 by 1 image with pixel `2^53 + 1`
`meanImages` returns the pixel `2^53`, not the sum `2^53 + 1` divided by 1. -/
theorem meanImages_huge_pixel :
    hugePixelImage.WF ∧
    meanImages [hugePixelImage] =
      .ok { Width := 1, Height := 1, Pixels := [[9007199254740992]] } ∧
    ¬ ∃ out, meanImages [hugePixelImage] = .ok out ∧
      pixelAt out.Pixels 0 0 = .ok (Int.tdiv 9007199254740993 1) := by
  have hw : wrapInt (0 + 9007199254740993) = 9007199254740993 := by decide
  have hq : toInt (fl (fl ((9007199254740993 : Int) : ℚ) / fl (((1 : Nat) : Int) : ℚ))) =
      9007199254740992 := by
    have e1 : (((9007199254740993 : Int) : ℚ)) = 9007199254740993 := by norm_num
    have e2 : ((((1 : Nat) : Int) : ℚ)) = 1 := by norm_num
    rw [e1, e2, fl_two_pow_53_succ, fl_one, div_one, fl_two_pow_53]
    have := toInt_intCast 9007199254740992 (by norm_num) (by norm_num)
    simpa using this
  have hmean : meanImages [hugePixelImage] =
      .ok { Width := 1, Height := 1, Pixels := [[9007199254740992]] } := by
    have hp : pixelAt hugePixelImage.Pixels 0 0 = .ok 9007199254740993 := rfl
    have h0 : index [hugePixelImage] 0 = .ok hugePixelImage := rfl
    have hsum : sumPixels 0 0 [hugePixelImage] 0 = .ok 9007199254740993 := by
      unfold sumPixels
      rw [hp]
      simp only [ok_bind, hw]
      rfl
    unfold meanImages
    simp only [h0, ok_bind, List.tail_cons, List.any_nil, Bool.false_eq_true, if_false]
    refine bind_eq_ok_of (a := [[9007199254740992]]) ?_ rfl
    rw [makeGrid_eq_ok_iff]
    refine ⟨by decide, fun x y hx0 hx1 hy0 hy1 => ?_⟩
    have hx : x = 0 := by
      have : x < 1 := hx1
      omega
    have hy : y = 0 := by
      have : y < 1 := hy1
      omega
    subst hx hy
    rw [hsum]
    simp only [ok_bind, pure_eq_ok, List.length_singleton]
    rw [hq]
    rfl
  refine ⟨by decide, hmean, ?_⟩
  rintro ⟨out, hout, hpx⟩
  rw [hmean] at hout
  cases hout
  have e : pixelAt [[(9007199254740992 : Int)]] 0 0 = .ok 9007199254740992 := rfl
  rw [e] at hpx
  cases hpx

/-! ## C2: max-abs selection -/

theorem abs_fl_gt_iff (v m : Int) (hv : |v| ≤ 2 ^ 53) (hm : |m| ≤ 2 ^ 53) :
    |fl (v : ℚ)| > |fl (m : ℚ)| ↔ |v| > |m| := by
  rw [fl_intCast v hv, fl_intCast m hm, ← Int.cast_abs, ← Int.cast_abs, gt_iff_lt, Int.cast_lt]

/-- the selection loop returns the start value or a member's value, of
magnitude at least that of the start value and of every member's value -/
theorem maxResponseLoop_spec (tier y x : Int) (stack : List (List LaplacianImage))
    (vs : List Int)
    (h : List.Forall₂ (fun (pyramid : List LaplacianImage) v =>
      ∃ image, index pyramid tier = .ok image ∧ pixelAt image.Pixels y x = .ok v) stack vs)
    (hb : ∀ v ∈ vs, |v| ≤ 2 ^ 53) (m0 : Int) (hm0 : |m0| ≤ 2 ^ 53) :
    ∃ r, maxResponseLoop tier y x stack m0 = .ok r ∧ (r = m0 ∨ r ∈ vs) ∧ |m0| ≤ |r| ∧
      ∀ v ∈ vs, |v| ≤ |r| := by
  induction h generalizing m0 with
  | nil => exact ⟨m0, rfl, Or.inl rfl, le_refl _, by simp⟩
  | @cons pyramid v rest vrest hv _ ih =>
    obtain ⟨image, hi, hp⟩ := hv
    have hvb : |v| ≤ 2 ^ 53 := hb v (List.mem_cons_self _ _)
    have hrestb : ∀ u ∈ vrest, |u| ≤ 2 ^ 53 := fun u hu => hb u (List.mem_cons_of_mem _ hu)
    unfold maxResponseLoop
    simp only [hi, hp, ok_bind]
    by_cases hgt : |fl (v : ℚ)| > |fl (m0 : ℚ)|
    · rw [if_pos hgt]
      have hgt2 := (abs_fl_gt_iff v m0 hvb hm0).mp hgt
      obtain ⟨r, hr, hmem, hge, hall⟩ := ih hrestb v hvb
      refine ⟨r, hr, ?_, by omega, ?_⟩
      · rcases hmem with h1 | h1
        · exact Or.inr (h1 ▸ List.mem_cons_self _ _)
        · exact Or.inr (List.mem_cons_of_mem _ h1)
      · intro u hu
        rcases List.mem_cons.mp hu with rfl | hu
        · exact hge
        · exact hall u hu
    · rw [if_neg hgt]
      have hle : ¬ |v| > |m0| := fun hc => hgt ((abs_fl_gt_iff v m0 hvb hm0).mpr hc)
      obtain ⟨r, hr, hmem, hge, hall⟩ := ih hrestb m0 hm0
      refine ⟨r, hr, ?_, hge, ?_⟩
      · rcases hmem with h1 | h1
        · exact Or.inl h1
        · exact Or.inr (List.mem_cons_of_mem _ h1)
      · intro u hu
        rcases List.mem_cons.mp hu with rfl | hu
        · omega
        · exact hall u hu

theorem stack_values_exist (stack : List (List LaplacianImage)) (tier : Nat) (H W : Int)
    (hS : ∀ pyramid ∈ stack, ∃ image, index pyramid (tier : Int) = .ok image ∧
      Shape image.Pixels H W)
    {x y : Int} (hx0 : 0 ≤ x) (hx1 : x < W) (hy0 : 0 ≤ y) (hy1 : y < H) :
    ∃ vs : List Int,
      List.Forall₂ (fun (pyramid : List LaplacianImage) v =>
        ∃ image, index pyramid (tier : Int) = .ok image ∧ pixelAt image.Pixels y x = .ok v)
        stack vs ∧
      ∀ v ∈ vs, ∃ pyramid ∈ stack, ∃ image ∈ pyramid, ∃ row ∈ image.Pixels, v ∈ row := by
  induction stack with
  | nil => exact ⟨[], List.Forall₂.nil, by simp⟩
  | cons pyramid rest ih =>
    obtain ⟨vs, hvs, hmem⟩ := ih (fun p hp => hS p (List.mem_cons_of_mem _ hp))
    obtain ⟨image, hi, hsh⟩ := hS pyramid (List.mem_cons_self _ _)
    obtain ⟨v, hv, row, hrow, hvrow⟩ := pixelAt_ok_of_shape hsh hx0 hx1 hy0 hy1
    refine ⟨v :: vs, List.Forall₂.cons ⟨image, hi, hv⟩ hvs, ?_⟩
    intro u hu
    rcases List.mem_cons.mp hu with rfl | hu
    · exact ⟨pyramid, List.mem_cons_self _ _, image, (index_eq_ok_lt hi).2.2, row, hrow, hvrow⟩
    · obtain ⟨p, hp, rest2⟩ := hmem u hu
      exact ⟨p, List.mem_cons_of_mem _ hp, rest2⟩

/-- Per level and position, the fused value is a member value of greatest magnitude. -/
theorem createMaxLaplacianPyramid_spec (first : List LaplacianImage)
    (rest : List (List LaplacianImage))
    (hshape : ∀ pyramid ∈ first :: rest, ∀ i : Nat, i < first.length →
      ∃ a b, index first (i : Int) = .ok a ∧ index pyramid (i : Int) = .ok b ∧ b.WF ∧
        b.Width = a.Width ∧ b.Height = a.Height)
    (hbound : ∀ pyramid ∈ first :: rest, ∀ image ∈ pyramid, ∀ row ∈ image.Pixels,
      ∀ p ∈ row, |p| ≤ 2 ^ 53) :
    ∃ M, createMaxLaplacianPyramid (first :: rest) = .ok M ∧ M.length = first.length ∧
      ∀ i : Nat, i < first.length →
        ∃ a m, index first (i : Int) = .ok a ∧ index M (i : Int) = .ok m ∧
          m.Width = a.Width ∧ m.Height = a.Height ∧ m.WF ∧
          ∀ x y : Int, 0 ≤ x → x < a.Width → 0 ≤ y → y < a.Height →
            ∃ (vs : List Int) (r : Int),
              List.Forall₂ (fun (pyramid : List LaplacianImage) v =>
                ∃ image, index pyramid (i : Int) = .ok image ∧
                  pixelAt image.Pixels y x = .ok v) (first :: rest) vs ∧
              pixelAt m.Pixels y x = .ok r ∧ r ∈ vs ∧ ∀ v ∈ vs, |v| ≤ |r| := by
  have h0 : index (first :: rest) 0 = .ok first := by
    rw [index_eq_ok_iff]; simp
  have hstep : ∀ i : Nat, i < first.length →
      ∃ a m, index first (i : Int) = .ok a ∧
        (do
          let image0 ← index first (i : Int)
          let pixels ← makeGrid image0.Height image0.Width fun x y =>
            maxResponseLoop (i : Int) y x (first :: rest) 0
          pure ({ Width := image0.Width, Height := image0.Height,
                  Pixels := pixels } : LaplacianImage)) = Except.ok m ∧
        m.Width = a.Width ∧ m.Height = a.Height ∧ m.WF ∧
        ∀ x y : Int, 0 ≤ x → x < a.Width → 0 ≤ y → y < a.Height →
          ∃ (vs : List Int) (r : Int),
            List.Forall₂ (fun (pyramid : List LaplacianImage) v =>
              ∃ image, index pyramid (i : Int) = .ok image ∧
                pixelAt image.Pixels y x = .ok v) (first :: rest) vs ∧
            pixelAt m.Pixels y x = .ok r ∧ r ∈ vs ∧ ∀ v ∈ vs, |v| ≤ |r| := by
    intro i hi
    obtain ⟨a, b, ha, hb, hbWF, _, _⟩ := hshape first (List.mem_cons_self _ _) i hi
    rw [ha] at hb
    cases hb
    have haS : Shape a.Pixels a.Height a.Width := hbWF
    have hS : ∀ pyramid ∈ first :: rest, ∃ image, index pyramid (i : Int) = .ok image ∧
        Shape image.Pixels a.Height a.Width := by
      intro pyramid hp
      obtain ⟨a1, b1, h1, h2, h3, h4, h5⟩ := hshape pyramid hp i hi
      rw [ha] at h1; cases h1
      have h3 : Shape b1.Pixels b1.Height b1.Width := h3
      rw [h4, h5] at h3
      exact ⟨b1, h2, h3⟩
    have hval : ∀ x y : Int, 0 ≤ x → x < a.Width → 0 ≤ y → y < a.Height →
        ∃ (vs : List Int) (r : Int),
          List.Forall₂ (fun (pyramid : List LaplacianImage) v =>
            ∃ image, index pyramid (i : Int) = .ok image ∧
              pixelAt image.Pixels y x = .ok v) (first :: rest) vs ∧
          maxResponseLoop (i : Int) y x (first :: rest) 0 = .ok r ∧ r ∈ vs ∧
          ∀ v ∈ vs, |v| ≤ |r| := by
      intro x y hx0 hx1 hy0 hy1
      obtain ⟨vs, hvs, hmem⟩ := stack_values_exist (first :: rest) i _ _ hS hx0 hx1 hy0 hy1
      have hb : ∀ v ∈ vs, |v| ≤ 2 ^ 53 := by
        intro v hv
        obtain ⟨p, hp, im, him, row, hrow, hvr⟩ := hmem v hv
        exact hbound p hp im him row hrow v hvr
      obtain ⟨r, hr, hrm, _, hall⟩ :=
        maxResponseLoop_spec (i : Int) y x (first :: rest) vs hvs hb 0 (by norm_num)
      refine ⟨vs, r, hvs, hr, ?_, hall⟩
      rcases hrm with hr0 | hin
      · cases hvs with
        | cons hv0 hrest =>
          rename_i v0 vrest
          have := hall v0 (List.mem_cons_self _ _)
          rw [hr0, abs_zero] at this
          have hv00 : v0 = 0 := abs_eq_zero.mp (le_antisymm this (abs_nonneg _))
          rw [hr0, ← hv00]
          exact List.mem_cons_self _ _
      · exact hin
    obtain ⟨G, hG⟩ := makeGrid_exists a.Height a.Width
      (fun x y => maxResponseLoop (i : Int) y x (first :: rest) 0) haS.nonneg.1 haS.nonneg.2
      (fun x y hx0 hx1 hy0 hy1 => by
        obtain ⟨_, r, _, hr, _⟩ := hval x y hx0 hx1 hy0 hy1
        exact ⟨r, hr⟩)
    obtain ⟨hGS, hpt⟩ := (makeGrid_eq_ok_iff _ _ _ _).mp hG
    refine ⟨a, { Width := a.Width, Height := a.Height, Pixels := G }, ha, ?_, rfl, rfl, hGS, ?_⟩
    · simp only [ha, hG, ok_bind, pure_eq_ok]
    · intro x y hx0 hx1 hy0 hy1
      obtain ⟨vs, r, hvs, hr, hin, hall⟩ := hval x y hx0 hx1 hy0 hy1
      refine ⟨vs, r, hvs, ?_, hin, hall⟩
      rw [← hpt x y hx0 hx1 hy0 hy1]
      exact hr
  obtain ⟨M, hM⟩ := collect_range_exists first.length (fun (pyramidTier : Nat) => do
      let image0 ← index first (pyramidTier : Int)
      let pixels ← makeGrid image0.Height image0.Width fun x y =>
        maxResponseLoop (pyramidTier : Int) y x (first :: rest) 0
      pure ({ Width := image0.Width, Height := image0.Height,
              Pixels := pixels } : LaplacianImage))
    (fun i hi => by
      obtain ⟨_, m, _, hm, _⟩ := hstep i hi
      exact ⟨m, hm⟩)
  obtain ⟨hlen, hidx⟩ := (collect_range_eq_ok_iff _ _ _).mp hM
  refine ⟨M, ?_, hlen, fun i hi => ?_⟩
  · unfold createMaxLaplacianPyramid
    simp only [h0, ok_bind]
    exact hM
  · obtain ⟨a, m, ha, hm, h1, h2, h3, h4⟩ := hstep i hi
    refine ⟨a, m, ha, ?_, h1, h2, h3, h4⟩
    rw [← hidx i hi]
    exact hm

/-- C2 (amended). Max-abs selection: for a non-empty stack `first :: rest` of
detail pyramids of identical shape (every member has the first one's level
count and, level by level, a well-formed image of the first one's declared
size) whose values have magnitude at most `2^53`, `createMaxLaplacianPyramid`
returns one well-formed image per level, of that level's size, and the value it
stores at every position of every level is the value of one of the stack
members at that position and is at least as large in magnitude as every
member's value there. -/
theorem createMaxLaplacianPyramid_selects (first : List LaplacianImage)
    (rest : List (List LaplacianImage))
    (hshape : ∀ pyramid ∈ first :: rest, ∀ i : Nat, i < first.length →
      ∃ a b, index first (i : Int) = .ok a ∧ index pyramid (i : Int) = .ok b ∧ b.WF ∧
        b.Width = a.Width ∧ b.Height = a.Height)
    (hbound : ∀ pyramid ∈ first :: rest, ∀ image ∈ pyramid, ∀ row ∈ image.Pixels,
      ∀ p ∈ row, |p| ≤ 2 ^ 53) :
    ∃ M, createMaxLaplacianPyramid (first :: rest) = .ok M ∧ M.length = first.length ∧
      ∀ i : Nat, i < first.length →
        ∃ a m, index first (i : Int) = .ok a ∧ index M (i : Int) = .ok m ∧
          m.Width = a.Width ∧ m.Height = a.Height ∧ m.WF ∧
          ∀ x y : Int, 0 ≤ x → x < a.Width → 0 ≤ y → y < a.Height →
            ∃ (vs : List Int) (r : Int),
              List.Forall₂ (fun (pyramid : List LaplacianImage) v =>
                ∃ image, index pyramid (i : Int) = .ok image ∧
                  pixelAt image.Pixels y x = .ok v) (first :: rest) vs ∧
              pixelAt m.Pixels y x = .ok r ∧ r ∈ vs ∧ ∀ v ∈ vs, |v| ≤ |r| := by
  obtain ⟨M, hM, hlen, hlev⟩ := createMaxLaplacianPyramid_spec first rest hshape hbound
  refine ⟨M, hM, hlen, fun i hi => ?_⟩
  obtain ⟨a, m, ha, hm, hw, hh, hwf, hpt⟩ := hlev i hi
  exact ⟨a, m, ha, hm, hw, hh, hwf, hpt⟩

theorem createMaxLaplacianPyramid_selects_witness :
    (∀ pyramid ∈ [sampleDetailA] :: [[sampleDetailB]], ∀ i : Nat, i < [sampleDetailA].length →
      ∃ a b, index [sampleDetailA] (i : Int) = .ok a ∧ index pyramid (i : Int) = .ok b ∧ b.WF ∧
        b.Width = a.Width ∧ b.Height = a.Height) ∧
    (∀ pyramid ∈ [sampleDetailA] :: [[sampleDetailB]], ∀ image ∈ pyramid,
      ∀ row ∈ image.Pixels, ∀ p ∈ row, |p| ≤ 2 ^ 53) ∧
    ∃ M m, createMaxLaplacianPyramid ([sampleDetailA] :: [[sampleDetailB]]) = .ok M ∧
      index M 0 = .ok m ∧ pixelAt m.Pixels 0 0 = .ok (-30) := by
  have h1 : ∀ pyramid ∈ [sampleDetailA] :: [[sampleDetailB]], ∀ i : Nat,
      i < [sampleDetailA].length →
      ∃ a b, index [sampleDetailA] (i : Int) = .ok a ∧ index pyramid (i : Int) = .ok b ∧ b.WF ∧
        b.Width = a.Width ∧ b.Height = a.Height := by
    intro pyramid hp i hi
    have hi0 : i = 0 := by simpa using hi
    subst hi0
    simp only [List.mem_cons, List.mem_singleton, List.not_mem_nil, or_false] at hp
    rcases hp with rfl | rfl
    · exact ⟨sampleDetailA, sampleDetailA, rfl, rfl, by decide, rfl, rfl⟩
    · exact ⟨sampleDetailA, sampleDetailB, rfl, rfl, by decide, rfl, rfl⟩
  have h2 : ∀ pyramid ∈ [sampleDetailA] :: [[sampleDetailB]], ∀ image ∈ pyramid,
      ∀ row ∈ image.Pixels, ∀ p ∈ row, |p| ≤ 2 ^ 53 := by decide
  obtain ⟨M, hM, _, hlev⟩ :=
    createMaxLaplacianPyramid_selects [sampleDetailA] [[sampleDetailB]] h1 h2
  obtain ⟨a, m, ha, hm, _, _, _, hpt⟩ := hlev 0 (by decide)
  have ea : index [sampleDetailA] ((0 : Nat) : Int) = .ok sampleDetailA := rfl
  rw [ea] at ha
  cases ha
  obtain ⟨vs, r, hvs, hr, hin, hall⟩ := hpt 0 0 (by decide) (by decide) (by decide) (by decide)
  refine ⟨h1, h2, M, m, hM, hm, ?_⟩
  cases hvs with
  | cons hA hrest =>
    cases hrest with
    | cons hB hnil =>
      cases hnil
      obtain ⟨iA, hiA, hpA⟩ := hA
      obtain ⟨iB, hiB, hpB⟩ := hB
      have e1 : index [sampleDetailA] ((0 : Nat) : Int) = .ok sampleDetailA := rfl
      have e2 : index [sampleDetailB] ((0 : Nat) : Int) = .ok sampleDetailB := rfl
      rw [e1] at hiA; cases hiA
      rw [e2] at hiB; cases hiB
      have p1 : pixelAt sampleDetailA.Pixels 0 0 = .ok (-30) := rfl
      have p2 : pixelAt sampleDetailB.Pixels 0 0 = .ok 20 := rfl
      rw [p1] at hpA; cases hpA
      rw [p2] at hpB; cases hpB
      have hmax := hall (-30) (by simp)
      simp only [List.mem_cons, List.mem_singleton, List.not_mem_nil, or_false] at hin
      rcases hin with rfl | rfl
      · exact hr
      · norm_num at hmax

/-- C2 (counterexample). Two one-level pyramids whose single pixels are `2^53`
and `2^53 + 1`: the fused value is `2^53`, of smaller magnitude than the second
member's value (both convert to the same float64). -/
theorem createMaxLaplacianPyramid_huge_values :
    createMaxLaplacianPyramid [[evenHugeImage], [hugePixelImage]] =
      .ok [{ Width := 1, Height := 1, Pixels := [[9007199254740992]] }] ∧
    pixelAt hugePixelImage.Pixels 0 0 = .ok 9007199254740993 ∧
    ¬ |(9007199254740993 : Int)| ≤ |(9007199254740992 : Int)| := by
  refine ⟨?_, rfl, by norm_num⟩
  have h0 : index [[evenHugeImage], [hugePixelImage]] 0 = .ok [evenHugeImage] := rfl
  have hloop : maxResponseLoop 0 0 0 [[evenHugeImage], [hugePixelImage]] 0 =
      .ok 9007199254740992 := by
    have i1 : index [evenHugeImage] 0 = .ok evenHugeImage := rfl
    have i2 : index [hugePixelImage] 0 = .ok hugePixelImage := rfl
    have p1 : pixelAt evenHugeImage.Pixels 0 0 = .ok 9007199254740992 := rfl
    have p2 : pixelAt hugePixelImage.Pixels 0 0 = .ok 9007199254740993 := rfl
    have f0 : fl (((0 : Int)) : ℚ) = 0 := by simp [fl_zero]
    have f1 : fl (((9007199254740992 : Int)) : ℚ) = 9007199254740992 := by
      have := fl_two_pow_53; simpa using this
    have f2 : fl (((9007199254740993 : Int)) : ℚ) = 9007199254740992 := by
      have := fl_two_pow_53_succ; simpa using this
    unfold maxResponseLoop
    simp only [i1, p1, ok_bind, f0, f1]
    rw [if_pos (by norm_num)]
    unfold maxResponseLoop
    simp only [i2, p2, ok_bind, f1, f2]
    rw [if_neg (by norm_num)]
    rfl
  unfold createMaxLaplacianPyramid
  simp only [h0, ok_bind]
  rw [collect_range_eq_ok_iff]
  refine ⟨rfl, fun i hi => ?_⟩
  have hi0 : i = 0 := by simpa using hi
  subst hi0
  have i1 : index [evenHugeImage] ((0 : Nat) : Int) = .ok evenHugeImage := rfl
  simp only [i1, ok_bind]
  refine bind_eq_ok_of (a := [[9007199254740992]]) ?_ rfl
  rw [makeGrid_eq_ok_iff]
  refine ⟨by decide, fun x y hx0 hx1 hy0 hy1 => ?_⟩
  have hx : x = 0 := by
    have : x < 1 := hx1
    omega
  have hy : y = 0 := by
    have : y < 1 := hy1
    omega
  subst hx hy
  exact hloop

/-! ## The image pyramid -/

theorem fl_two_pow (i : Nat) : fl ((2 : ℚ) ^ i) = (2 : ℚ) ^ i := by
  have := fl_natCast_mul_zpow 1 (i : ℤ) (by norm_num)
  simpa using this

/-- the level size computed by `createImagePyramid`: the integer quotient -/
theorem target_dim (W : Int) (i : Nat) (h0 : 0 ≤ W) (h1 : W < 2 ^ 53) :
    toIntOpt (fdiv (fl (W : ℚ)) (fl ((2 : ℚ) ^ i))) = W / 2 ^ i := by
  have hW : fl (W : ℚ) = W := fl_intCast W (by rw [abs_of_nonneg h0]; omega)
  have hne : (2 : ℚ) ^ i ≠ 0 := pow_ne_zero _ (by norm_num)
  obtain ⟨m, rfl⟩ := Int.eq_ofNat_of_zero_le h0
  have hm : m < 2 ^ 53 := by exact_mod_cast h1
  have hex : fl (((m : Int) : ℚ) / (2 : ℚ) ^ i) = ((m : Int) : ℚ) / (2 : ℚ) ^ i := by
    have := fl_natCast_mul_zpow m (-(i : ℤ)) hm
    rw [zpow_neg, zpow_natCast, ← div_eq_mul_inv] at this
    simpa using this
  rw [hW, fl_two_pow]
  unfold fdiv
  rw [if_neg hne, hex]
  have hq0 : (0 : ℚ) ≤ ((m : Int) : ℚ) / (2 : ℚ) ^ i := by positivity
  have hfloor : ⌊((m : Int) : ℚ) / (2 : ℚ) ^ i⌋ = (m : Int) / 2 ^ i := by
    have := Rat.floor_intCast_div_natCast (m : Int) (2 ^ i)
    push_cast at this
    exact this
  have hk0 : 0 ≤ (m : Int) / 2 ^ i := Int.ediv_nonneg (by omega) (by positivity)
  have hk1 : (m : Int) / 2 ^ i ≤ m := Int.ediv_le_self _ (by omega)
  show toInt _ = _
  unfold toInt truncQ
  rw [if_pos hq0, hfloor, if_pos ⟨by omega, by omega⟩]

/-- The pyramid of a well-formed image when every resampled level is at least
2 by 2: `D + 1` levels, level 0 the image itself, level `i` the image resampled
by `resizeImage` to the integer quotients of its width and height by `2^i`. -/
theorem createImagePyramid_spec (image : PGMImage) (D : Nat) (hWF : image.WF)
    (hW : image.Width < 2 ^ 53) (hH : image.Height < 2 ^ 53)
    (hlev : ∀ i : Nat, 1 ≤ i → i ≤ D → 2 ≤ image.Width / 2 ^ i ∧ 2 ≤ image.Height / 2 ^ i) :
    ∃ P, createImagePyramid image (D : Int) 2 = .ok P ∧ P.length = D + 1 ∧
      index P 0 = .ok image ∧
      ∀ i : Nat, 1 ≤ i → i ≤ D →
        ∃ L, index P (i : Int) = .ok L ∧
          resizeImage image (image.Width / 2 ^ i) (image.Height / 2 ^ i) = .ok L ∧
          L.Width = image.Width / 2 ^ i ∧ L.Height = image.Height / 2 ^ i ∧ L.MaxVal = 255 ∧
          L.WF := by
  have hdims : ∀ i : Nat, 1 ≤ i → i ≤ D → 4 ≤ image.Width ∧ 4 ≤ image.Height := by
    intro i h1 h2
    obtain ⟨a, b⟩ := hlev i h1 h2
    have hp : (2 : Int) ≤ 2 ^ i := by
      calc (2 : Int) = 2 ^ 1 := by norm_num
        _ ≤ 2 ^ i := pow_le_pow_right₀ (by norm_num) h1
    have hpos : (0 : Int) < 2 ^ i := by positivity
    have ha := (Int.le_ediv_iff_mul_le hpos).mp a
    have hb := (Int.le_ediv_iff_mul_le hpos).mp b
    constructor <;> omega
  have hstep : ∀ k : Nat, k < D →
      ∃ L, resizeImage image
          (toIntOpt (fdiv (fl (image.Width : ℚ)) (fl ((2 : ℚ) ^ (k + 1)))))
          (toIntOpt (fdiv (fl (image.Height : ℚ)) (fl ((2 : ℚ) ^ (k + 1))))) = .ok L ∧
        resizeImage image (image.Width / 2 ^ (k + 1)) (image.Height / 2 ^ (k + 1)) = .ok L ∧
        L.Width = image.Width / 2 ^ (k + 1) ∧ L.Height = image.Height / 2 ^ (k + 1) ∧
        L.MaxVal = 255 ∧ L.WF := by
    intro k hk
    obtain ⟨hw4, hh4⟩ := hdims (k + 1) (by omega) (by omega)
    obtain ⟨a, b⟩ := hlev (k + 1) (by omega) (by omega)
    rw [target_dim image.Width (k + 1) (by omega) hW,
      target_dim image.Height (k + 1) (by omega) hH]
    obtain ⟨R, hR, h1, h2, h3, h4, _⟩ := resizeImage_spec image hWF (by omega) (by omega)
      (by omega) (by omega) _ _ a b
    exact ⟨R, hR, hR, h1, h2, h3, h4⟩
  obtain ⟨rest, hrest⟩ := collect_range_exists D (fun (k : Nat) =>
      resizeImage image
        (toIntOpt (fdiv (fl (image.Width : ℚ)) (fl ((2 : ℚ) ^ (k + 1)))))
        (toIntOpt (fdiv (fl (image.Height : ℚ)) (fl ((2 : ℚ) ^ (k + 1))))))
    (fun k hk => by
      obtain ⟨L, hL, _⟩ := hstep k hk
      exact ⟨L, hL⟩)
  obtain ⟨hlen, hidx⟩ := (collect_range_eq_ok_iff _ _ _).mp hrest
  refine ⟨image :: rest, ?_, by simp [hlen], ?_, ?_⟩
  · unfold createImagePyramid
    rw [if_neg (by omega)]
    simp only [Int.toNat_ofNat]
    exact bind_eq_ok_of (a := rest) hrest rfl
  · rw [index_eq_ok_iff]; simp
  · intro i h1 h2
    obtain ⟨k, rfl⟩ : ∃ k, i = k + 1 := ⟨i - 1, by omega⟩
    obtain ⟨L, hL, hL2, r1, r2, r3, r4⟩ := hstep k (by omega)
    refine ⟨L, ?_, hL2, r1, r2, r3, r4⟩
    have hk : index rest (k : Int) = .ok L := by
      rw [← hidx k (by omega)]; exact hL
    rw [index_eq_ok_iff] at hk ⊢
    refine ⟨by omega, ?_⟩
    have e1 : ((k : Int)).toNat = k := by simp
    have e2 : (((k + 1 : Nat) : Int)).toNat = k + 1 := by simp
    rw [e1] at hk
    rw [e2, List.getElem?_cons_succ]
    exact hk.2

/-! ## C5: pyramid shape -/

theorem flatImage_WF (w h v : Nat) (hv : v < 256) : (flatImage w h v).WF := by
  refine ⟨⟨by simp [flatImage], ?_⟩, ?_⟩
  · intro row hrow
    have := List.eq_of_mem_replicate hrow
    simp [flatImage, this]
  · intro row hrow p hp
    have hr := List.eq_of_mem_replicate hrow
    rw [hr] at hp
    rw [List.eq_of_mem_replicate hp]
    exact hv

/-- C5 (amended). Pyramid shape: for a well-formed image of width `W` and height
`H` below `2^53` and a division count `D` for which every level `1..D` has
width `floor(W / 2^i)` and height `floor(H / 2^i)` at least 2,
`createImagePyramid image D 2` returns exactly `D + 1` levels, level 0 is the
input image unchanged, and every level `i` in `1..D` is the original image
resampled by `resizeImage` to `floor(W / 2^i)` by `floor(H / 2^i)`, with those
declared dimensions. -/
theorem createImagePyramid_levels (image : PGMImage) (D : Nat) (hWF : image.WF)
    (hW : image.Width < 2 ^ 53) (hH : image.Height < 2 ^ 53)
    (hlev : ∀ i : Nat, 1 ≤ i → i ≤ D → 2 ≤ image.Width / 2 ^ i ∧ 2 ≤ image.Height / 2 ^ i) :
    ∃ P, createImagePyramid image (D : Int) 2 = .ok P ∧ P.length = D + 1 ∧
      index P 0 = .ok image ∧
      ∀ i : Nat, 1 ≤ i → i ≤ D →
        ∃ L, index P (i : Int) = .ok L ∧
          resizeImage image (image.Width / 2 ^ i) (image.Height / 2 ^ i) = .ok L ∧
          L.Width = image.Width / 2 ^ i ∧ L.Height = image.Height / 2 ^ i := by
  obtain ⟨P, hP, hlen, h0, hlv⟩ := createImagePyramid_spec image D hWF hW hH hlev
  refine ⟨P, hP, hlen, h0, fun i h1 h2 => ?_⟩
  obtain ⟨L, hL, hR, hw, hh, _⟩ := hlv i h1 h2
  exact ⟨L, hL, hR, hw, hh⟩

theorem createImagePyramid_levels_witness :
    (flatImage 320 320 0).WF ∧ (flatImage 320 320 0).Width < 2 ^ 53 ∧
    (flatImage 320 320 0).Height < 2 ^ 53 ∧
    (∀ i : Nat, 1 ≤ i → i ≤ 3 →
      2 ≤ (flatImage 320 320 0).Width / 2 ^ i ∧ 2 ≤ (flatImage 320 320 0).Height / 2 ^ i) ∧
    ∃ P L1 L2 L3, createImagePyramid (flatImage 320 320 0) ((3 : Nat) : Int) 2 = .ok P ∧
      P.length = 4 ∧ index P 0 = .ok (flatImage 320 320 0) ∧
      index P 1 = .ok L1 ∧ L1.Width = 160 ∧ L1.Height = 160 ∧
      index P 2 = .ok L2 ∧ L2.Width = 80 ∧ L2.Height = 80 ∧
      index P 3 = .ok L3 ∧ L3.Width = 40 ∧ L3.Height = 40 := by
  have hWF : (flatImage 320 320 0).WF := flatImage_WF 320 320 0 (by decide)
  have hW : (flatImage 320 320 0).Width < 2 ^ 53 := by decide
  have hH : (flatImage 320 320 0).Height < 2 ^ 53 := by decide
  have hlev : ∀ i : Nat, 1 ≤ i → i ≤ 3 →
      2 ≤ (flatImage 320 320 0).Width / 2 ^ i ∧ 2 ≤ (flatImage 320 320 0).Height / 2 ^ i := by
    intro i h1 h2
    have e1 : (flatImage 320 320 0).Width = 320 := rfl
    have e2 : (flatImage 320 320 0).Height = 320 := rfl
    rw [e1, e2]
    interval_cases i <;> decide
  obtain ⟨P, hP, hlen, h0, hlv⟩ :=
    createImagePyramid_levels (flatImage 320 320 0) 3 hWF hW hH hlev
  obtain ⟨L1, i1, _, w1, g1⟩ := hlv 1 (by decide) (by decide)
  obtain ⟨L2, i2, _, w2, g2⟩ := hlv 2 (by decide) (by decide)
  obtain ⟨L3, i3, _, w3, g3⟩ := hlv 3 (by decide) (by decide)
  have e1 : (flatImage 320 320 0).Width = 320 := rfl
  have e2 : (flatImage 320 320 0).Height = 320 := rfl
  rw [e1] at w1 w2 w3
  rw [e2] at g1 g2 g3
  exact ⟨hWF, hW, hH, hlev, P, L1, L2, L3, hP, hlen, h0, i1, by rw [w1]; decide,
    by rw [g1]; decide, i2, by rw [w2]; decide, by rw [g2]; decide, i3, by rw [w3]; decide,
    by rw [g3]; decide⟩

theorem makeGrid_one_one {α : Type} (f : Int → Int → Except Fault α) :
    makeGrid 1 1 f = (f 0 0 >>= fun v => pure [[v]]) := by
  unfold makeGrid
  rw [if_neg (by decide), if_neg (by decide)]
  have e : (1 : Int).toNat = 1 := rfl
  rw [e]
  simp only [List.range_succ, List.range_zero, List.nil_append, List.map_cons, List.map_nil]
  show collect [collect [f 0 0]] = _
  cases f 0 0 <;> rfl

/-- C5 (counterexample). For the well-formed 2 by 2 image and one division the
only resampled level is 1 by 1: both ratios divide by zero and the call aborts
instead of returning 2 levels. -/
theorem createImagePyramid_tiny_level :
    tinyImage.WF ∧ createImagePyramid tinyImage 1 2 = .error .crash := by
  refine ⟨by decide, ?_⟩
  have ht : toIntOpt (fdiv (fl ((2 : Int) : ℚ)) (fl ((2 : ℚ) ^ (0 + 1)))) = 1 := by
    rw [target_dim 2 (0 + 1) (by norm_num) (by norm_num)]
    decide
  have hr : resizeImage tinyImage 1 1 = .error .crash := by
    have hz : fl ((((1 : Int) - 1 : Int)) : ℚ) = 0 := by
      simp [fl_zero]
    have hnone : fdiv (fl (((tinyImage.Width - 1 : Int)) : ℚ)) (fl ((((1 : Int) - 1 : Int)) : ℚ)) =
        none := by
      rw [hz]; simp [fdiv]
    unfold resizeImage
    simp only [makeGrid_one_one, hnone]
    rfl
  unfold createImagePyramid
  rw [if_neg (by decide)]
  have e : (1 : Int).toNat = 1 := rfl
  have ew : tinyImage.Width = 2 := rfl
  have eh : tinyImage.Height = 2 := rfl
  rw [e]
  simp only [List.range_succ, List.range_zero, List.nil_append, List.map_cons, List.map_nil,
    ew, eh, ht, hr]
  rfl

/-! ## C6 and C7: the division count of main -/

theorem fl_forty : fl (((40 : Int)) : ℚ) = 40 := by
  have := fl_intCast 40 (by norm_num)
  simpa using this

theorem fl_half : fl (1 / 2 : ℚ) = 1 / 2 := by
  have := fl_natCast_mul_zpow 1 (-1) (by norm_num)
  norm_num at this
  exact this

/-- the logarithm argument of main for a dimension below `2^53` -/
theorem sizeRatio_eq (W : Int) (h0 : 0 ≤ W) (h53 : W < 2 ^ 53) :
    sizeRatio W = fl ((W : ℚ) / 40) := by
  have hW : fl (W : ℚ) = W := fl_intCast W (by rw [abs_of_nonneg h0]; omega)
  unfold sizeRatio
  simp only [hW, fl_forty]

theorem floorLog2_eq (log : ℚ → ℚ) (q : ℚ) (hq : 0 < q) (h2 : log 2 ≠ 0) :
    floorLog2 log q = some ((⌊fl (log q / log 2)⌋ : Int) : ℚ) := by
  unfold floorLog2 fdiv
  rw [if_pos hq, if_neg h2]
  rfl

/-- the division count of main from the two floors -/
theorem maxDivisions_eval (log : ℚ → ℚ) (W H a b : Int) (hw : 0 < sizeRatio W)
    (hh : 0 < sizeRatio H) (h2 : log 2 ≠ 0)
    (ha : ⌊fl (log (sizeRatio W) / log 2)⌋ = a) (hb : ⌊fl (log (sizeRatio H) / log 2)⌋ = b)
    (h1 : -(2 ^ 63) ≤ min a b) (h3 : min a b < 2 ^ 63) :
    maxDivisions log W H = min a b := by
  unfold maxDivisions
  simp only [floorLog2_eq log _ hw h2, floorLog2_eq log _ hh h2, ha, hb]
  have e : min (((a : Int)) : ℚ) (((b : Int)) : ℚ) = (((min a b : Int)) : ℚ) := by
    push_cast; rfl
  rw [e]
  exact toInt_intCast _ h1 h3

/-- the division count of main for a 20 by 20 first image -/
theorem maxDivisions_twenty (log : ℚ → ℚ) (hhalf : log (1 / 2) = -(log 2)) (hpos : log 2 ≠ 0) :
    maxDivisions log 20 20 = -1 := by
  have hq : sizeRatio 20 = 1 / 2 := by
    rw [sizeRatio_eq 20 (by norm_num) (by norm_num)]
    rw [show (((20 : Int)) : ℚ) / 40 = 1 / 2 by norm_num]
    exact fl_half
  have hfl : ⌊fl (log (sizeRatio 20) / log 2)⌋ = -1 := by
    rw [hq, hhalf, neg_div, div_self hpos, fl_neg, fl_one]
    norm_num
  have := maxDivisions_eval log 20 20 (-1) (-1) (by rw [hq]; norm_num) (by rw [hq]; norm_num)
    hpos hfl hfl (by norm_num) (by norm_num)
  simpa using this

/-- C6 (code at the failing input). For a 20 by 20 first image the division
count computed by main is -1, not 0, whenever `math.Log(0.5)` is the negation of
the non-zero `math.Log(2)`; `createImagePyramid` called with it aborts for every
image: it allocates no level and then stores level 0. -/
theorem maxDivisions_small_image (log : ℚ → ℚ) (hhalf : log (1 / 2) = -(log 2))
    (hpos : log 2 ≠ 0) :
    maxDivisions log 20 20 = -1 ∧
    ∀ image : PGMImage,
      createImagePyramid image (maxDivisions log 20 20) 2 = .error .crash := by
  have hval := maxDivisions_twenty log hhalf hpos
  refine ⟨hval, fun image => ?_⟩
  rw [hval]
  unfold createImagePyramid
  rw [if_pos (by decide)]

theorem maxDivisions_small_image_witness :
    sampleLog (1 / 2) = -(sampleLog 2) ∧ sampleLog 2 ≠ 0 ∧
    maxDivisions sampleLog 20 20 = -1 ∧
    ∀ image : PGMImage,
      createImagePyramid image (maxDivisions sampleLog 20 20) 2 = .error .crash := by
  have h1 : sampleLog (1 / 2) = -(sampleLog 2) := by
    unfold sampleLog; norm_num
  have h2 : sampleLog 2 ≠ 0 := by
    unfold sampleLog; norm_num
  exact ⟨h1, h2, maxDivisions_small_image sampleLog h1 h2⟩

/-- the value of `math.Log(2)` is positive, and the quotient of the logarithms
is not negative for an argument of at least 1 -/
theorem quotient_nonneg (log : ℚ → ℚ) (q : ℚ) (hq1 : 1 ≤ q) (hq : LogAccurateAt log q)
    (h2 : LogAccurateAt log 2) : 0 < log 2 ∧ 0 ≤ log q / log 2 := by
  unfold LogAccurateAt at hq h2
  have hL1 := Real.log_two_gt_d9
  have c2 : ((2 : ℚ) : ℝ) = 2 := by norm_num
  rw [c2] at h2
  have hLpos : (0 : ℝ) < Real.log 2 := by linarith
  rw [abs_of_pos hLpos] at h2
  have hb := abs_le.mp h2
  have hbpos : (0 : ℝ) < ((log 2 : ℚ) : ℝ) := by linarith [hb.1]
  have hX : 0 ≤ Real.log (q : ℝ) := Real.log_nonneg (by exact_mod_cast hq1)
  rw [abs_of_nonneg hX] at hq
  have ha := abs_le.mp hq
  have hapos : (0 : ℝ) ≤ ((log q : ℚ) : ℝ) := by linarith [ha.1]
  have hb0 : 0 < log 2 := by exact_mod_cast hbpos
  have ha0 : 0 ≤ log q := by exact_mod_cast hapos
  exact ⟨hb0, div_nonneg ha0 hb0.le⟩

/-- the quotient of the logarithms stays below `N` for an argument of at most
`2^N - 1/41`, up to `N = 19` -/
theorem quotient_lt (log : ℚ → ℚ) (q : ℚ) (N : ℕ) (hN : N ≤ 19) (hN1 : 1 ≤ N) (hq1 : 1 ≤ q)
    (hq2 : q ≤ 2 ^ N - 1 / 41) (hq : LogAccurateAt log q) (h2 : LogAccurateAt log 2) :
    log q / log 2 ≤ (N : ℚ) - 1 / 2 ^ 30 := by
  unfold LogAccurateAt at hq h2
  have hL1 := Real.log_two_gt_d9
  have hL2 := Real.log_two_lt_d9
  have c2 : ((2 : ℚ) : ℝ) = 2 := by norm_num
  rw [c2] at h2
  have hLpos : (0 : ℝ) < Real.log 2 := by linarith
  rw [abs_of_pos hLpos] at h2
  have hb := abs_le.mp h2
  have hbpos : (0 : ℝ) < ((log 2 : ℚ) : ℝ) := by linarith [hb.1]
  have hq1R : (1 : ℝ) ≤ (q : ℝ) := by exact_mod_cast hq1
  have hX : 0 ≤ Real.log (q : ℝ) := Real.log_nonneg hq1R
  rw [abs_of_nonneg hX] at hq
  have ha := abs_le.mp hq
  have hpowN : (2 : ℝ) ^ N ≤ 2 ^ 19 := pow_le_pow_right₀ (by norm_num) hN
  have hpow1 : (2 : ℝ) ^ 1 ≤ 2 ^ N := pow_le_pow_right₀ (by norm_num) hN1
  have hpowpos : (0 : ℝ) < 2 ^ N := by positivity
  have hqR : (q : ℝ) ≤ 2 ^ N - 1 / 41 := by
    have : ((q : ℚ) : ℝ) ≤ ((((2 : ℚ) ^ N - 1 / 41 : ℚ)) : ℝ) := Rat.cast_le.mpr hq2
    push_cast at this
    exact this
  have hqpos : (0 : ℝ) < (q : ℝ) := by linarith
  obtain ⟨g, hg⟩ : ∃ g : ℝ, g = 1 / (41 * 2 ^ N) := ⟨_, rfl⟩
  have hg1 : 1 / (41 * 2 ^ 19) ≤ g := by
    rw [hg]
    apply one_div_le_one_div_of_le (by positivity)
    linarith
  have hg2 : g ≤ 1 / (41 * 2 ^ 1) := by
    rw [hg]
    apply one_div_le_one_div_of_le (by positivity)
    linarith
  have hfac : (2 : ℝ) ^ N - 1 / 41 = 2 ^ N * (1 - g) := by
    rw [hg]; field_simp; ring
  have hg3 : (0 : ℝ) < 1 - g := by
    have : (1 : ℝ) / (41 * 2 ^ 1) < 1 := by norm_num
    linarith
  have hX2 : Real.log (q : ℝ) ≤ (N : ℝ) * Real.log 2 - g := by
    have s1 : Real.log (q : ℝ) ≤ Real.log (2 ^ N * (1 - g)) :=
      Real.log_le_log hqpos (by rw [← hfac]; exact hqR)
    have s2 : Real.log ((2 : ℝ) ^ N * (1 - g)) = Real.log ((2 : ℝ) ^ N) + Real.log (1 - g) :=
      Real.log_mul hpowpos.ne' hg3.ne'
    have s3 : Real.log ((2 : ℝ) ^ N) = (N : ℝ) * Real.log 2 := Real.log_pow _ _
    have s4 := Real.log_le_sub_one_of_pos hg3
    linarith
  have hN1R : (1 : ℝ) ≤ (N : ℝ) := by exact_mod_cast hN1
  have hNR : (N : ℝ) ≤ 19 := by exact_mod_cast hN
  obtain ⟨P, hP⟩ : ∃ P : ℝ, P = (N : ℝ) * Real.log 2 := ⟨_, rfl⟩
  have hNL : P ≤ 19 * 0.6931471808 := by
    rw [hP]; exact mul_le_mul hNR hL2.le hLpos.le (by norm_num)
  rw [← hP] at hX2
  have key : ((log q : ℚ) : ℝ) ≤ ((N : ℝ) - 1 / 2 ^ 30) * ((log 2 : ℚ) : ℝ) := by
    have h1 : ((log q : ℚ) : ℝ) ≤ (1 + 1 / 1000000000) * (P - g) := by linarith [ha.2]
    have h3 : ((N : ℝ) - 1 / 2 ^ 30) * ((1 - 1 / 1000000000) * Real.log 2) ≤
        ((N : ℝ) - 1 / 2 ^ 30) * ((log 2 : ℚ) : ℝ) :=
      mul_le_mul_of_nonneg_left (by linarith [hb.1]) (by norm_num; linarith)
    have h4 : ((N : ℝ) - 1 / 2 ^ 30) * ((1 - 1 / 1000000000) * Real.log 2) =
        (1 - 1 / 1000000000) * (P - 1 / 2 ^ 30 * Real.log 2) := by
      rw [hP]; ring
    rw [h4] at h3
    have hgn : (1 : ℝ) / (41 * 2 ^ 19) = 1 / 21495808 := by norm_num
    rw [hgn] at hg1
    have hd : (1 : ℝ) / 2 ^ 30 = 1 / 1073741824 := by norm_num
    rw [hd] at h3 ⊢
    linarith
  have hdiv : ((log q : ℚ) : ℝ) / ((log 2 : ℚ) : ℝ) ≤ (N : ℝ) - 1 / 2 ^ 30 := by
    rw [div_le_iff₀ hbpos]; exact key
  have hcast : (((log q / log 2 : ℚ)) : ℝ) ≤ ((((N : ℚ) - 1 / 2 ^ 30 : ℚ)) : ℝ) := by
    push_cast; exact hdiv
  exact_mod_cast hcast

/-- the floor of the quotient of logarithms in main for a dimension in `[40, 2^53)` is
not negative -/
theorem dimension_count_nonneg (log : ℚ → ℚ) (W : Int) (h40 : 40 ≤ W) (h53 : W < 2 ^ 53)
    (hq : LogAccurateAt log (sizeRatio W)) (h2 : LogAccurateAt log 2) :
    0 < sizeRatio W ∧ log 2 ≠ 0 ∧ 0 ≤ ⌊fl (log (sizeRatio W) / log 2)⌋ := by
  have hr := sizeRatio_eq W (by omega) h53
  have hWq : (40 : ℚ) ≤ W := by exact_mod_cast h40
  have hq1 : (1 : ℚ) ≤ (W : ℚ) / 40 := by
    rw [le_div_iff₀ (by norm_num)]; linarith
  have ha1 : (1 : ℚ) ≤ sizeRatio W := by
    have := fl_mono hq1
    rwa [fl_one, ← hr] at this
  obtain ⟨hb, hx⟩ := quotient_nonneg log _ ha1 hq h2
  exact ⟨by linarith, hb.ne', Int.floor_nonneg.mpr (fl_nonneg hx)⟩

/-- the floor of the quotient of logarithms in main for a dimension in
`[40, 40 * 2^19)`: a number `k` of halvings with `40 * 2^k` at most the dimension -/
theorem dimension_count (log : ℚ → ℚ) (W : Int) (h40 : 40 ≤ W) (hlt : W < 40 * 2 ^ 19)
    (hq : LogAccurateAt log (sizeRatio W)) (h2 : LogAccurateAt log 2) :
    ∃ k : Nat, ⌊fl (log (sizeRatio W) / log 2)⌋ = (k : Int) ∧ 40 * 2 ^ k ≤ W ∧ k < 19 ∧
      (W < 80 → k = 0) := by
  have h53 : W < 2 ^ 53 := by
    have : (40 : Int) * 2 ^ 19 < 2 ^ 53 := by norm_num
    omega
  obtain ⟨hpos, hne, hfl0⟩ := dimension_count_nonneg log W h40 h53 hq h2
  have hr := sizeRatio_eq W (by omega) h53
  -- the exact number of halvings
  obtain ⟨x, hx⟩ : ∃ x : Nat, (x : Int) = W / 40 := ⟨(W / 40).toNat, by omega⟩
  have hx1 : 1 ≤ x := by omega
  have hlo : 2 ^ Nat.log 2 x ≤ x := Nat.pow_log_le_self 2 (by omega)
  have hhi : x < 2 ^ (Nat.log 2 x + 1) := Nat.lt_pow_succ_log_self (by norm_num) x
  obtain ⟨n, hn⟩ : ∃ n : Nat, n = Nat.log 2 x := ⟨_, rfl⟩
  rw [← hn] at hlo hhi
  have hloZ : (2 : Int) ^ n ≤ W / 40 := by rw [← hx]; exact_mod_cast hlo
  have hhiZ : W / 40 < (2 : Int) ^ (n + 1) := by rw [← hx]; exact_mod_cast hhi
  have hn19 : n < 19 := by
    by_contra hc
    have : (2 : Int) ^ 19 ≤ 2 ^ n := pow_le_pow_right₀ (by norm_num) (by omega)
    have e19 : (2 : Int) ^ 19 = 524288 := by norm_num
    omega
  have hWn : 40 * 2 ^ n ≤ W := by omega
  have hWn1 : W + 1 ≤ 40 * 2 ^ (n + 1) := by omega
  -- the float argument
  have hWq : (40 : ℚ) ≤ W := by exact_mod_cast h40
  have hq1 : (1 : ℚ) ≤ (W : ℚ) / 40 := by
    rw [le_div_iff₀ (by norm_num)]; linarith
  have ha1 : (1 : ℚ) ≤ sizeRatio W := by
    have := fl_mono hq1
    rwa [fl_one, ← hr] at this
  have hWn1q : (W : ℚ) + 1 ≤ 40 * 2 ^ (n + 1) := by exact_mod_cast hWn1
  have hltq : (W : ℚ) < 40 * 524288 := by
    have e19 : (40 : Int) * 2 ^ 19 = 40 * 524288 := by norm_num
    have : W < 40 * 524288 := by omega
    exact_mod_cast this
  have hup : sizeRatio W ≤ 2 ^ (n + 1) - 1 / 41 := by
    have herr := (abs_le.mp (fl_err ((W : ℚ) / 40))).2
    rw [abs_of_nonneg (by linarith), ← hr] at herr
    have e53 : (2 : ℚ) ^ (53 : ℤ) = 9007199254740992 := by norm_num
    rw [e53] at herr
    have h1 : (W : ℚ) / 40 ≤ 2 ^ (n + 1) - 1 / 40 := by
      rw [div_le_iff₀ (by norm_num)]; linarith
    have h3 : (W : ℚ) / 40 / 9007199254740992 ≤ 524288 / 9007199254740992 := by
      apply div_le_div_of_nonneg_right _ (by norm_num)
      rw [div_le_iff₀ (by norm_num)]; linarith
    have h4 : (524288 : ℚ) / 9007199254740992 ≤ 1 / 40 - 1 / 41 := by norm_num
    linarith
  have hquot := quotient_lt log (sizeRatio W) (n + 1) (by omega) (by omega) ha1
    (by exact_mod_cast hup) hq h2
  obtain ⟨_, hquot0⟩ := quotient_nonneg log _ ha1 hq h2
  have hfllt : fl (log (sizeRatio W) / log 2) < ((n + 1 : Nat) : ℚ) := by
    have herr := (abs_le.mp (fl_err (log (sizeRatio W) / log 2))).2
    rw [abs_of_nonneg hquot0] at herr
    have e53 : (2 : ℚ) ^ (53 : ℤ) = 9007199254740992 := by norm_num
    rw [e53] at herr
    have hn1 : (((n + 1 : Nat)) : ℚ) ≤ 19 := by exact_mod_cast (by omega : n + 1 ≤ 19)
    have hd : (1 : ℚ) / 2 ^ 30 = 1 / 1073741824 := by norm_num
    rw [hd] at hquot
    have h5 : log (sizeRatio W) / log 2 / 9007199254740992 ≤ 19 / 9007199254740992 :=
      div_le_div_of_nonneg_right (by linarith) (by norm_num)
    have h6 : (19 : ℚ) / 9007199254740992 < 1 / 1073741824 := by norm_num
    linarith
  have hfloorlt : ⌊fl (log (sizeRatio W) / log 2)⌋ < ((n + 1 : Nat) : Int) := by
    rw [Int.floor_lt]; exact_mod_cast hfllt
  obtain ⟨k, hk⟩ := Int.eq_ofNat_of_zero_le hfl0
  have hkn : k ≤ n := by
    rw [hk] at hfloorlt
    have : (k : Int) < (n : Int) + 1 := by exact_mod_cast hfloorlt
    omega
  refine ⟨k, hk, ?_, by omega, ?_⟩
  · have : (2 : Int) ^ k ≤ 2 ^ n := pow_le_pow_right₀ (by norm_num) hkn
    omega
  · intro h80
    have hn0 : n = 0 := by
      by_contra hc
      have : (2 : Int) ^ 1 ≤ 2 ^ n := pow_le_pow_right₀ (by norm_num) (by omega)
      omega
    omega

/-- the values taken for `math.Log(2)` and `math.Log(4)` are accurate -/
theorem sampleLog_accurate : LogAccurateAt sampleLog 2 ∧ LogAccurateAt sampleLog 4 := by
  have hL1 := Real.log_two_gt_d9
  have hL2 := Real.log_two_lt_d9
  have hLpos : (0 : ℝ) < Real.log 2 := by linarith
  have h4 : Real.log 4 = 2 * Real.log 2 := by
    have := Real.log_pow 2 2
    rw [show ((2 : ℝ)) ^ 2 = 4 by norm_num] at this
    rw [this]; norm_num
  have v2 : sampleLog 2 = 6243314768165359 / 9007199254740992 := by
    unfold sampleLog; norm_num
  have v4 : sampleLog 4 = 6243314768165359 / 4503599627370496 := by
    unfold sampleLog; norm_num
  constructor
  · unfold LogAccurateAt
    rw [v2]
    push_cast
    rw [abs_of_pos hLpos, abs_le]
    constructor <;> linarith
  · unfold LogAccurateAt
    rw [v4]
    push_cast
    rw [h4, abs_of_pos (show (0 : ℝ) < 2 * Real.log 2 by linarith), abs_le]
    constructor <;> linarith

theorem mem_index {α : Type} {l : List α} {a : α} (h : a ∈ l) :
    ∃ i : Nat, i < l.length ∧ index l (i : Int) = .ok a := by
  obtain ⟨⟨i, hi⟩, rfl⟩ := List.mem_iff_get.mp h
  exact ⟨i, hi, index_natCast_of_lt l i hi⟩

theorem list_ext_index {α : Type} {l1 l2 : List α} (hlen : l1.length = l2.length)
    (h : ∀ i : Nat, i < l1.length → index l1 (i : Int) = index l2 (i : Int)) : l1 = l2 := by
  apply List.ext_get hlen
  intro i h1 h2
  have := h i h1
  rw [index_natCast_of_lt l1 i h1, index_natCast_of_lt l2 i h2] at this
  exact Except.ok.inj this

theorem collect_map_exists {α β : Type} (l : List α) (f : α → Except Fault β)
    (Q : α → β → Prop) (h : ∀ a ∈ l, ∃ b, f a = .ok b ∧ Q a b) :
    ∃ bs, collect (l.map f) = .ok bs ∧ List.Forall₂ Q l bs := by
  induction l with
  | nil => exact ⟨[], rfl, List.Forall₂.nil⟩
  | cons a rest ih =>
    obtain ⟨bs, hbs, hq⟩ := ih (fun x hx => h x (List.mem_cons_of_mem _ hx))
    obtain ⟨b, hb, hqb⟩ := h a (List.mem_cons_self _ _)
    refine ⟨b :: bs, ?_, List.Forall₂.cons hqb hq⟩
    rw [List.map_cons, hb, collect_cons_ok, hbs]
    rfl

theorem exitOnError_ok {α : Type} (a : α) :
    exitOnError (Except.ok a : Except Fault α) = .ok a := rfl

/-- The approximations of a pyramid whose levels are well-formed and at least
2 by 2: one per level but the last, each the next level resampled to the level's
declared size; the signed resampler gives the same pixels. -/
theorem createGaussianPyramid_spec (P : List PGMImage) (hne : 1 ≤ P.length)
    (hP : ∀ A ∈ P, A.WF ∧ 2 ≤ A.Width ∧ A.Width ≤ 2 ^ 53 ∧ 2 ≤ A.Height ∧ A.Height ≤ 2 ^ 53) :
    ∃ G, createGaussianPyramid P = .ok G ∧ G.length = P.length - 1 ∧
      ∀ i : Nat, i < P.length - 1 →
        ∃ A B g, index P (i : Int) = .ok A ∧ index P ((i : Int) + 1) = .ok B ∧
          index G (i : Int) = .ok g ∧ resizeImage B A.Width A.Height = .ok g ∧
          g.Width = A.Width ∧ g.Height = A.Height ∧ g.WF ∧
          resizeImageLaplacian B.toLaplacian A.Width A.Height = .ok g.toLaplacian := by
  have hstep : ∀ i : Nat, i < P.length - 1 →
      ∃ A B g, index P (i : Int) = .ok A ∧ index P ((i : Int) + 1) = .ok B ∧
        (do
          let coarser ← index P ((i : Int) + 1)
          let level ← index P (i : Int)
          resizeImage coarser level.Width level.Height) = Except.ok g ∧
        resizeImage B A.Width A.Height = .ok g ∧
        g.Width = A.Width ∧ g.Height = A.Height ∧ g.WF ∧
        resizeImageLaplacian B.toLaplacian A.Width A.Height = .ok g.toLaplacian := by
    intro i hi
    obtain ⟨A, hA, hAm⟩ := index_ok_of_lt P (i : Int) (by omega) (by omega)
    obtain ⟨B, hB, hBm⟩ := index_ok_of_lt P ((i : Int) + 1) (by omega) (by omega)
    obtain ⟨_, a1, a2, a3, a4⟩ := hP A hAm
    obtain ⟨bWF, b1, b2, b3, b4⟩ := hP B hBm
    obtain ⟨g, hg, g1, g2, _, g4, g5⟩ :=
      resizeImage_spec B bWF (by omega) b2 (by omega) b4 A.Width A.Height a1 a3
    refine ⟨A, B, g, hA, hB, ?_, hg, g1, g2, g4, g5⟩
    simp only [hA, hB, ok_bind]
    exact hg
  obtain ⟨G, hG⟩ := collect_range_exists (P.length - 1) (fun (i : Nat) => do
      let coarser ← index P ((i : Int) + 1)
      let level ← index P (i : Int)
      resizeImage coarser level.Width level.Height)
    (fun i hi => by
      obtain ⟨_, _, g, _, _, hg, _⟩ := hstep i hi
      exact ⟨g, hg⟩)
  obtain ⟨hlen, hidx⟩ := (collect_range_eq_ok_iff _ _ _).mp hG
  refine ⟨G, ?_, hlen, fun i hi => ?_⟩
  · unfold createGaussianPyramid
    rw [if_neg (by omega)]
    exact hG
  · obtain ⟨A, B, g, hA, hB, hg, r1, r2, r3, r4, r5⟩ := hstep i hi
    refine ⟨A, B, g, hA, hB, ?_, r1, r2, r3, r4, r5⟩
    rw [← hidx i hi]
    exact hg

/-- What one iteration of the per-image loop of main builds for a well-formed
image whose levels `0..D` are all at least 2 by 2. -/
theorem buildPyramids_spec (image : PGMImage) (D : Nat) (hWF : image.WF)
    (hW : image.Width < 2 ^ 53) (hH : image.Height < 2 ^ 53)
    (hlev : ∀ i : Nat, i ≤ D → 2 ≤ image.Width / 2 ^ i ∧ 2 ≤ image.Height / 2 ^ i) :
    ∃ P G L, buildPyramids (D : Int) image = .ok (P, G, L) ∧ P.length = D + 1 ∧
      L.length = D ∧ index P 0 = .ok image ∧
      (∀ i : Nat, i ≤ D → ∃ A, index P (i : Int) = .ok A ∧ A.WF ∧
        A.Width = image.Width / 2 ^ i ∧ A.Height = image.Height / 2 ^ i) ∧
      ∀ i : Nat, i < D →
        ∃ (A B g : PGMImage) (l : LaplacianImage), index P (i : Int) = .ok A ∧
          index P ((i : Int) + 1) = .ok B ∧
          index L (i : Int) = .ok l ∧ g.WF ∧ g.Width = A.Width ∧ g.Height = A.Height ∧
          resizeImageLaplacian B.toLaplacian A.Width A.Height = .ok g.toLaplacian ∧
          l.WF ∧ l.Width = A.Width ∧ l.Height = A.Height ∧
          ∀ x y : Int, 0 ≤ x → x < A.Width → 0 ≤ y → y < A.Height →
            ∃ a b : Nat, pixelAt A.Pixels y x = .ok a ∧ pixelAt g.Pixels y x = .ok b ∧
              pixelAt l.Pixels y x = .ok ((a : Int) - (b : Int)) ∧ a < 256 ∧ b < 256 := by
  obtain ⟨hw0, hh0⟩ := hlev 0 (by omega)
  simp only [pow_zero, Int.ediv_one] at hw0 hh0
  obtain ⟨P, hP, hlen, h0, hlv⟩ := createImagePyramid_spec image D hWF hW hH
    (fun i _ h2 => hlev i h2)
  have hlevels : ∀ i : Nat, i ≤ D → ∃ A, index P (i : Int) = .ok A ∧ A.WF ∧
      A.Width = image.Width / 2 ^ i ∧ A.Height = image.Height / 2 ^ i := by
    intro i hi
    rcases Nat.eq_zero_or_pos i with hz | hpos
    · subst hz
      exact ⟨image, h0, hWF, by simp, by simp⟩
    · obtain ⟨A, hA, _, a1, a2, _, a4⟩ := hlv i hpos hi
      exact ⟨A, hA, a4, a1, a2⟩
  have hmem : ∀ A ∈ P,
      A.WF ∧ 2 ≤ A.Width ∧ A.Width ≤ 2 ^ 53 ∧ 2 ≤ A.Height ∧ A.Height ≤ 2 ^ 53 := by
    intro A hA
    obtain ⟨i, hi, hidx⟩ := mem_index hA
    obtain ⟨A2, hA2, wf, w, h⟩ := hlevels i (by omega)
    rw [hidx] at hA2
    cases hA2
    obtain ⟨l1, l2⟩ := hlev i (by omega)
    have hpos : (0 : Int) < 2 ^ i := by positivity
    have u1 : image.Width / 2 ^ i ≤ image.Width := Int.ediv_le_self _ (by omega)
    have u2 : image.Height / 2 ^ i ≤ image.Height := Int.ediv_le_self _ (by omega)
    exact ⟨wf, by omega, by omega, by omega, by omega⟩
  obtain ⟨G, hG, hGlen, hGl⟩ := createGaussianPyramid_spec P (by omega) hmem
  have hcompat : ∀ i : Nat, i < G.length →
      ∃ level approx, index P (i : Int) = .ok level ∧ index G (i : Int) = .ok approx ∧
        level.WF ∧ approx.WF ∧ approx.Width = level.Width ∧ approx.Height = level.Height ∧
        1 ≤ level.Height := by
    intro i hi
    obtain ⟨A, B, g, hA, hB, hg, _, g1, g2, g3, _⟩ := hGl i (by omega)
    obtain ⟨awf, _, _, a3, _⟩ := hmem A (index_eq_ok_lt hA).2.2
    exact ⟨A, g, hA, hg, awf, g3, g1, g2, by omega⟩
  obtain ⟨L, hL, hLlen, hLl⟩ := createLaplacianPyramid_spec P G hcompat
  refine ⟨P, G, L, ?_, hlen, by omega, h0, hlevels, fun i hi => ?_⟩
  · unfold buildPyramids
    simp only [hP, hG, hL, ok_bind, exitOnError_ok, pure_eq_ok]
  · obtain ⟨A, B, g, hA, hB, hg, _, g1, g2, g3, g4⟩ := hGl i (by omega)
    obtain ⟨A2, g2', l, hA2, hg2, hl, l1, l2, l3, lpt⟩ := hLl i (by omega)
    rw [hA] at hA2; cases hA2
    rw [hg] at hg2; cases hg2
    obtain ⟨awf, _⟩ := hmem A (index_eq_ok_lt hA).2.2
    refine ⟨A, B, g, l, hA, hB, hl, g3, g1, g2, g4, l3, l1, l2, ?_⟩
    intro x y hx0 hx1 hy0 hy1
    obtain ⟨a, b, pa, pb, pl, _, _⟩ := lpt x y hx0 hx1 hy0 hy1
    obtain ⟨a2, ha2, ha256⟩ := awf.pixel hx0 hx1 hy0 hy1
    obtain ⟨b2, hb2, hb256⟩ := g3.pixel hx0 (g1 ▸ hx1) hy0 (g2 ▸ hy1)
    rw [pa] at ha2; cases ha2
    rw [pb] at hb2; cases hb2
    exact ⟨a, b, pa, pb, pl, ha256, hb256⟩

/-! ## C3: the size of the fused image -/

theorem grid_all_of_pointwise {α : Type} {G : List (List α)} {h w : Int} (Q : α → Prop)
    (hS : Shape G h w)
    (hpt : ∀ x y : Int, 0 ≤ x → x < w → 0 ≤ y → y < h → ∃ v, pixelAt G y x = .ok v ∧ Q v) :
    ∀ row ∈ G, ∀ p ∈ row, Q p := by
  intro row hrow p hp
  obtain ⟨y, x, hy0, hy1, hx0, hx1, hpx⟩ := mem_grid_pixelAt hrow hp
  obtain ⟨v, hv, hq⟩ := hpt x y hx0 (by rw [← hS.2 row hrow]; exact hx1) hy0
    (by rw [← hS.1]; exact hy1)
  rw [hpx] at hv
  cases hv
  exact hq

theorem sumPixels_exists (y x : Int) (images : List LaplacianImage) (H W : Int)
    (hS : ∀ image ∈ images, Shape image.Pixels H W) (hx0 : 0 ≤ x) (hx1 : x < W)
    (hy0 : 0 ≤ y) (hy1 : y < H) (total : Int) :
    ∃ t, sumPixels y x images total = .ok t := by
  induction images generalizing total with
  | nil => exact ⟨total, rfl⟩
  | cons image rest ih =>
    obtain ⟨v, hv, _⟩ := pixelAt_ok_of_shape (hS image (List.mem_cons_self _ _)) hx0 hx1 hy0 hy1
    unfold sumPixels
    rw [hv]
    exact ih (fun im him => hS im (List.mem_cons_of_mem _ him)) _

/-- On well-formed images of one size `meanImages` returns a well-formed image
of that size. -/
theorem meanImages_shape (first : LaplacianImage) (rest : List LaplacianImage) (H W : Int)
    (hWF : ∀ image ∈ first :: rest, image.WF ∧ image.Width = W ∧ image.Height = H) :
    ∃ out, meanImages (first :: rest) = .ok out ∧ out.Width = W ∧ out.Height = H ∧ out.WF := by
  have hS : ∀ image ∈ first :: rest, Shape image.Pixels H W := by
    intro image him
    obtain ⟨h1, h2, h3⟩ := hWF image him
    have h1 : Shape image.Pixels image.Height image.Width := h1
    rwa [h2, h3] at h1
  obtain ⟨_, fw, fh⟩ := hWF first (List.mem_cons_self _ _)
  have hS0 := hS first (List.mem_cons_self _ _)
  have h0 : index (first :: rest) 0 = .ok first := by
    rw [index_eq_ok_iff]; simp
  have hany : ¬ ((rest.any fun image =>
      decide (image.Height ≠ first.Height ∨ image.Width ≠ first.Width)) = true) := by
    intro h
    obtain ⟨image, hmem, hd⟩ := List.any_eq_true.mp h
    have := of_decide_eq_true hd
    obtain ⟨_, h2, h3⟩ := hWF image (List.mem_cons_of_mem _ hmem)
    rw [h2, h3, fw, fh] at this
    tauto
  obtain ⟨G, hG⟩ := makeGrid_exists H W (fun x y => do
      let total ← sumPixels y x (first :: rest) 0
      pure (toInt (fl (fl (total : ℚ) /
        fl ((((first :: rest).length : Nat) : Int) : ℚ))))) hS0.nonneg.1 hS0.nonneg.2
    (fun x y hx0 hx1 hy0 hy1 => by
      obtain ⟨t, ht⟩ := sumPixels_exists y x (first :: rest) H W hS hx0 hx1 hy0 hy1 0
      refine ⟨toInt (fl (fl (t : ℚ) / fl ((((first :: rest).length : Nat) : Int) : ℚ))), ?_⟩
      simp only [ht, ok_bind, pure_eq_ok])
  obtain ⟨hshape, _⟩ := (makeGrid_eq_ok_iff _ _ _ _).mp hG
  refine ⟨{ Width := W, Height := H, Pixels := G }, ?_, rfl, rfl, hshape⟩
  unfold meanImages
  simp only [h0, ok_bind, List.tail_cons]
  rw [if_neg hany, fw, fh]
  exact bind_eq_ok_of (a := G) hG rfl

/-- Reconstruction from a well-formed seed through well-formed levels that are
at least 2 by 2 returns a well-formed image of the first level's size (the
seed itself when there is no level). -/
theorem reconstructImage_shape (seed : LaplacianImage) (hs : seed.WF) (sw1 : 1 ≤ seed.Width)
    (sw2 : seed.Width ≤ 2 ^ 53) (sh1 : 1 ≤ seed.Height) (sh2 : seed.Height ≤ 2 ^ 53)
    (M : List LaplacianImage)
    (hM : ∀ m ∈ M, m.WF ∧ 2 ≤ m.Width ∧ m.Width ≤ 2 ^ 53 ∧ 2 ≤ m.Height ∧ m.Height ≤ 2 ^ 53) :
    ∃ R, reconstructImage seed M = .ok R ∧ R.WF ∧ 1 ≤ R.Width ∧ R.Width ≤ 2 ^ 53 ∧
      1 ≤ R.Height ∧ R.Height ≤ 2 ^ 53 ∧ (M = [] → R = seed) ∧
      ∀ m rest, M = m :: rest → R.Width = m.Width ∧ R.Height = m.Height := by
  induction M with
  | nil =>
    exact ⟨seed, rfl, hs, sw1, sw2, sh1, sh2, fun _ => rfl, fun m rest h => by cases h⟩
  | cons level coarser ih =>
    obtain ⟨R0, hR0, wf0, a1, a2, a3, a4, _, _⟩ :=
      ih (fun m hm => hM m (List.mem_cons_of_mem _ hm))
    obtain ⟨lwf, l1, l2, l3, l4⟩ := hM level (List.mem_cons_self _ _)
    obtain ⟨U, hU, u1, u2, uwf⟩ :=
      resizeImageLaplacian_shape R0 wf0 a1 a2 a3 a4 level.Width level.Height l1 l3
    obtain ⟨R, hR, r1, r2, rwf, _⟩ := addImagesLaplacian_spec U level uwf lwf u1 u2
    refine ⟨R, ?_, rwf, by omega, by omega, by omega, by omega,
      fun h => absurd h (List.cons_ne_nil _ _), ?_⟩
    · unfold reconstructImage
      simp only [hR0, hU, hR, ok_bind, exitOnError_ok]
    · intro m rest h
      cases h
      exact ⟨r1, r2⟩

theorem forall₂_map_right {α β γ : Type} {Q : α → γ → Prop} (g : β → γ) {l : List α}
    {bs : List β} (h : List.Forall₂ (fun a b => Q a (g b)) l bs) :
    List.Forall₂ Q l (bs.map g) := by
  induction h with
  | nil => exact List.Forall₂.nil
  | cons h1 _ ih => exact List.Forall₂.cons h1 ih

theorem forall₂_mem_right {α β : Type} {Q : α → β → Prop} {l : List α} {bs : List β}
    (h : List.Forall₂ Q l bs) {b : β} (hb : b ∈ bs) : ∃ a ∈ l, Q a b := by
  induction h with
  | nil => cases hb
  | cons h1 _ ih =>
    rcases List.mem_cons.mp hb with rfl | hb
    · exact ⟨_, List.mem_cons_self _ _, h1⟩
    · obtain ⟨a, ha, hq⟩ := ih hb
      exact ⟨a, List.mem_cons_of_mem _ ha, hq⟩

/-- What the per-image loop of main delivers for a stack of well-formed images
of one size `W` by `H`: per image a pyramid of `D + 1` well-formed levels of the
sizes `floor(W / 2^i)` by `floor(H / 2^i)` and `D` well-formed detail images of
the sizes of levels `0..D-1`, with values in `[-255, 255]`. -/
theorem built_stack (stack : List PGMImage) (D : Nat) (W H : Int)
    (hWF : ∀ image ∈ stack, image.WF ∧ image.Width = W ∧ image.Height = H)
    (hW : W < 2 ^ 53) (hH : H < 2 ^ 53)
    (hlev : ∀ i : Nat, i ≤ D → 2 ≤ W / 2 ^ i ∧ 2 ≤ H / 2 ^ i) :
    ∃ built, collect (stack.map (buildPyramids (D : Int))) = .ok built ∧
      built.length = stack.length ∧
      ∀ t ∈ built, t.1.length = D + 1 ∧ t.2.2.length = D ∧
        (∀ i : Nat, i ≤ D → ∃ A, index t.1 (i : Int) = .ok A ∧ A.WF ∧
          A.Width = W / 2 ^ i ∧ A.Height = H / 2 ^ i) ∧
        ∀ i : Nat, i < D → ∃ l, index t.2.2 (i : Int) = .ok l ∧ l.WF ∧
          l.Width = W / 2 ^ i ∧ l.Height = H / 2 ^ i ∧
          ∀ row ∈ l.Pixels, ∀ p ∈ row, |p| ≤ 2 ^ 53 := by
  obtain ⟨built, hbuilt, hQ⟩ := collect_map_exists stack (buildPyramids (D : Int))
    (fun _ t => t.1.length = D + 1 ∧ t.2.2.length = D ∧
        (∀ i : Nat, i ≤ D → ∃ A, index t.1 (i : Int) = .ok A ∧ A.WF ∧
          A.Width = W / 2 ^ i ∧ A.Height = H / 2 ^ i) ∧
        ∀ i : Nat, i < D → ∃ l, index t.2.2 (i : Int) = .ok l ∧ l.WF ∧
          l.Width = W / 2 ^ i ∧ l.Height = H / 2 ^ i ∧
          ∀ row ∈ l.Pixels, ∀ p ∈ row, |p| ≤ 2 ^ 53)
    (fun image him => by
      obtain ⟨wf, ew, eh⟩ := hWF image him
      obtain ⟨P, G, L, hb, hlen, hLlen, _, hlevels, hdet⟩ :=
        buildPyramids_spec image D wf (by rw [ew]; exact hW) (by rw [eh]; exact hH)
          (fun i hi => by rw [ew, eh]; exact hlev i hi)
      refine ⟨(P, G, L), hb, hlen, hLlen, ?_, ?_⟩
      · intro i hi
        obtain ⟨A, hA, awf, a1, a2⟩ := hlevels i hi
        exact ⟨A, hA, awf, by rw [a1, ew], by rw [a2, eh]⟩
      · intro i hi
        obtain ⟨A, B, g, l, hA, _, hl, _, _, _, _, lwf, l1, l2, lpt⟩ := hdet i hi
        obtain ⟨A2, hA2, _, a1, a2⟩ := hlevels i (by omega)
        rw [hA] at hA2
        cases hA2
        refine ⟨l, hl, lwf, by rw [l1, a1, ew], by rw [l2, a2, eh], ?_⟩
        have lS : Shape l.Pixels A.Height A.Width := by
          have : Shape l.Pixels l.Height l.Width := lwf
          rwa [l1, l2] at this
        apply grid_all_of_pointwise (fun v => |v| ≤ 2 ^ 53) lS
        intro x y hx0 hx1 hy0 hy1
        obtain ⟨a, b, _, _, pl, ha, hb⟩ := lpt x y hx0 hx1 hy0 hy1
        refine ⟨_, pl, ?_⟩
        rw [abs_le]
        constructor <;> omega)
  refine ⟨built, hbuilt, hQ.length_eq.symm, fun t ht => ?_⟩
  obtain ⟨_, _, hq⟩ := forall₂_mem_right hQ ht
  exact hq

/-- C3. Output size: for every non-empty stack (in particular every stack
of at least 2) of well-formed images that all have width `W` and height `H`
below `2^53`, and every division count `D ≥ 0` for which the levels `0..D`
all have width `floor(W / 2^i)` and height `floor(H / 2^i)` at least 2, the
pipeline of main (pyramids, mean of the coarsest levels, max-abs fusion,
`reconstructImage`, `clampImage 0 255`) returns an image with `Width = W`,
`Height = H`, exactly `H` rows of `W` pixels and `MaxVal = 255`; `D = 0`, where
the fused detail pyramid is empty, is included. -/
theorem fuse_output_size (first : PGMImage) (rest : List PGMImage) (D : Nat) (W H : Int)
    (hWF : ∀ image ∈ first :: rest, image.WF ∧ image.Width = W ∧ image.Height = H)
    (hW : W < 2 ^ 53) (hH : H < 2 ^ 53)
    (hlev : ∀ i : Nat, i ≤ D → 2 ≤ W / 2 ^ i ∧ 2 ≤ H / 2 ^ i) :
    ∃ out, fuse (first :: rest) (D : Int) = .ok out ∧ out.Width = W ∧ out.Height = H ∧
      out.MaxVal = 255 ∧ Shape out.Pixels H W := by
  have hbounds : ∀ i : Nat, i ≤ D →
      2 ≤ W / 2 ^ i ∧ W / 2 ^ i ≤ 2 ^ 53 ∧ 2 ≤ H / 2 ^ i ∧ H / 2 ^ i ≤ 2 ^ 53 := by
    intro i hi
    obtain ⟨a, b⟩ := hlev i hi
    obtain ⟨a0, b0⟩ := hlev 0 (by omega)
    simp only [pow_zero, Int.ediv_one] at a0 b0
    have u1 : W / 2 ^ i ≤ W := Int.ediv_le_self _ (by omega)
    have u2 : H / 2 ^ i ≤ H := Int.ediv_le_self _ (by omega)
    exact ⟨a, by omega, b, by omega⟩
  obtain ⟨built, hbuilt, hblen, hB⟩ := built_stack (first :: rest) D W H hWF hW hH hlev
  obtain ⟨b0, brest, hb⟩ : ∃ b0 brest, built = b0 :: brest := by
    cases built with
    | nil => simp at hblen
    | cons b0 brest => exact ⟨b0, brest, rfl⟩
  have hb0 := hB b0 (by rw [hb]; exact List.mem_cons_self _ _)
  -- the coarsest levels
  have hps0 : index (built.map fun t => t.1) 0 = .ok b0.1 := by
    rw [hb, index_eq_ok_iff]; simp
  obtain ⟨cs, hcs, hcQ⟩ := collect_map_exists (built.map fun t => t.1)
    (fun pyramid => do
      let first ← index (built.map fun t => t.1) 0
      let coarsest ← index pyramid ((first.length : Int) - 1)
      pgmToLaplacianImageType coarsest)
    (fun _ (c : LaplacianImage) => c.WF ∧ c.Width = W / 2 ^ D ∧ c.Height = H / 2 ^ D)
    (fun pyramid hp => by
      obtain ⟨t, ht, rfl⟩ := List.mem_map.mp hp
      obtain ⟨tlen, _, tlev, _⟩ := hB t ht
      obtain ⟨A, hA, awf, a1, a2⟩ := tlev D (le_refl _)
      have e : ((b0.1.length : Int) - 1) = (D : Int) := by
        rw [hb0.1]; push_cast; ring
      refine ⟨A.toLaplacian, ?_, PGMImage.toLaplacian_WF awf, a1, a2⟩
      simp only [hps0, ok_bind, e, hA]
      exact pgmToLaplacianImageType_eq A awf)
  obtain ⟨c0, crest, hc⟩ : ∃ c0 crest, cs = c0 :: crest := by
    have hl := hcQ.length_eq
    cases cs with
    | nil => rw [hb] at hl; simp at hl
    | cons c0 crest => exact ⟨c0, crest, rfl⟩
  obtain ⟨mean, hmean, mw, mh, mwf⟩ := meanImages_shape c0 crest (H / 2 ^ D) (W / 2 ^ D)
    (fun c hcm => by
      obtain ⟨_, _, hq⟩ := forall₂_mem_right hcQ (hc ▸ hcm)
      exact hq)
  rw [← hc] at hmean
  -- the fused detail pyramid
  have hls : (built.map fun t => t.2.2) = b0.2.2 :: brest.map fun t => t.2.2 := by
    rw [hb]; rfl
  obtain ⟨M, hM, hMlen, hMl⟩ := createMaxLaplacianPyramid_spec b0.2.2
    (brest.map fun t => t.2.2)
    (fun pyramid hp i hi => by
      rw [← hls] at hp
      obtain ⟨t, ht, rfl⟩ := List.mem_map.mp hp
      obtain ⟨_, _, _, tdet⟩ := hB t ht
      obtain ⟨a, ha, _, a1, a2, _⟩ := hb0.2.2.2 i (by rw [← hb0.2.1]; exact hi)
      obtain ⟨l, hl, lwf, l1, l2, _⟩ := tdet i (by rw [← hb0.2.1]; exact hi)
      exact ⟨a, l, ha, hl, lwf, by rw [l1, a1], by rw [l2, a2]⟩)
    (fun pyramid hp image him row hrow p hpr => by
      rw [← hls] at hp
      obtain ⟨t, ht, rfl⟩ := List.mem_map.mp hp
      obtain ⟨_, tlen, _, tdet⟩ := hB t ht
      obtain ⟨i, hi, hidx⟩ := mem_index him
      obtain ⟨l, hl, _, _, _, lb⟩ := tdet i (by omega)
      rw [hidx] at hl
      cases hl
      exact lb row hrow p hpr)
  rw [← hls] at hM
  have hMmem : ∀ m ∈ M,
      m.WF ∧ 2 ≤ m.Width ∧ m.Width ≤ 2 ^ 53 ∧ 2 ≤ m.Height ∧ m.Height ≤ 2 ^ 53 := by
    intro m hm
    obtain ⟨i, hi, hidx⟩ := mem_index hm
    have hiD : i < D := by rw [hMlen, hb0.2.1] at hi; exact hi
    obtain ⟨a, m2, ha, hm2, m1, m3, mwf2, _⟩ := hMl i (by rw [hb0.2.1]; exact hiD)
    rw [hidx] at hm2
    cases hm2
    obtain ⟨a2, ha2, _, a1, a3, _⟩ := hb0.2.2.2 i hiD
    rw [ha] at ha2
    cases ha2
    obtain ⟨q1, q2, q3, q4⟩ := hbounds i (by omega)
    exact ⟨mwf2, by rw [m1, a1]; exact q1, by rw [m1, a1]; exact q2, by rw [m3, a3]; exact q3,
      by rw [m3, a3]; exact q4⟩
  obtain ⟨q1, q2, q3, q4⟩ := hbounds D (le_refl _)
  obtain ⟨R, hR, rwf, _, _, _, _, rnil, rcons⟩ := reconstructImage_shape mean mwf
    (by rw [mw]; omega) (by rw [mw]; exact q2) (by rw [mh]; omega) (by rw [mh]; exact q4)
    M hMmem
  have hRdims : R.Width = W ∧ R.Height = H := by
    cases hMc : M with
    | nil =>
      have hD0 : D = 0 := by
        rw [hMc] at hMlen
        have := hb0.2.1
        simp at hMlen
        omega
      rw [rnil hMc, mw, mh, hD0]
      simp
    | cons m mrest =>
      obtain ⟨r1, r2⟩ := rcons m mrest hMc
      have hDpos : 0 < D := by
        rw [hMc] at hMlen
        have := hb0.2.1
        simp at hMlen
        omega
      obtain ⟨a, m2, ha, hm2, m1, m3, _⟩ := hMl 0 (by rw [hb0.2.1]; exact hDpos)
      have hm0 : index M ((0 : Nat) : Int) = .ok m := by
        rw [hMc, index_eq_ok_iff]; simp
      rw [hm0] at hm2
      cases hm2
      obtain ⟨a2, ha2, _, a1, a3, _⟩ := hb0.2.2.2 0 hDpos
      rw [ha] at ha2
      cases ha2
      rw [r1, r2, m1, m3, a1, a3]
      simp
  obtain ⟨out, hout, ow, oh, oshape, _⟩ := clampImage_spec R rwf
  have hmax : out.MaxVal = 255 := by
    unfold clampImage at hout
    obtain ⟨G, _, hG⟩ := (bind_eq_ok_iff _ _ _).mp hout
    cases hG
    rfl
  refine ⟨out, ?_, by rw [ow, hRdims.1], by rw [oh, hRdims.2], hmax,
    by rw [← hRdims.1, ← hRdims.2]; exact oshape⟩
  unfold fuse
  refine bind_eq_ok_of hbuilt ?_
  refine bind_eq_ok_of hcs ?_
  refine bind_eq_ok_of (a := mean) (by rw [hmean]; rfl) ?_
  refine bind_eq_ok_of hM ?_
  exact bind_eq_ok_of hR hout

theorem fuse_output_size_witness :
    (∀ image ∈ blockA :: [blockB], image.WF ∧ image.Width = 4 ∧ image.Height = 4) ∧
    ((4 : Int) < 2 ^ 53) ∧
    (∀ i : Nat, i ≤ 1 → (2 : Int) ≤ 4 / 2 ^ i ∧ (2 : Int) ≤ 4 / 2 ^ i) ∧
    ∃ out, fuse (blockA :: [blockB]) ((1 : Nat) : Int) = .ok out ∧ out.Width = 4 ∧
      out.Height = 4 ∧ out.MaxVal = 255 ∧ Shape out.Pixels 4 4 := by
  have h1 : ∀ image ∈ blockA :: [blockB], image.WF ∧ image.Width = 4 ∧ image.Height = 4 := by
    decide
  have h2 : (4 : Int) < 2 ^ 53 := by decide
  have h3 : ∀ i : Nat, i ≤ 1 → (2 : Int) ≤ 4 / 2 ^ i ∧ (2 : Int) ≤ 4 / 2 ^ i := by
    intro i hi
    interval_cases i <;> decide
  exact ⟨h1, h2, h3, fuse_output_size blockA [blockB] 1 4 4 h1 h2 h2 h3⟩

/-! ## C1: detail round-trip -/

theorem laplacianImage_ext {a b : LaplacianImage} (hw : a.Width = b.Width)
    (hh : a.Height = b.Height) (hp : a.Pixels = b.Pixels) : a = b := by
  cases a; cases b
  simp only at hw hh hp
  subst hw hh hp
  rfl

theorem toLaplacian_pixel {A : PGMImage} (hWF : A.WF) {x y : Int} (hx0 : 0 ≤ x)
    (hx1 : x < A.Width) (hy0 : 0 ≤ y) (hy1 : y < A.Height) :
    ∃ a : Nat, pixelAt A.Pixels y x = .ok a ∧ a < 256 ∧
      pixelAt A.toLaplacian.Pixels y x = .ok (a : Int) := by
  obtain ⟨a, ha, h256⟩ := hWF.pixel hx0 hx1 hy0 hy1
  refine ⟨a, ha, h256, ?_⟩
  show pixelAt (A.Pixels.map (List.map fun (p : Nat) => (p : Int))) y x = _
  rw [pixelAt_map, ha]
  rfl

/-- a signed image of the size of a well-formed 8-bit image whose pixels are
that image's pixels is its widening -/
theorem eq_toLaplacian {R : LaplacianImage} {A : PGMImage} (hA : A.WF) (hR : R.WF)
    (hw : R.Width = A.Width) (hh : R.Height = A.Height)
    (hpt : ∀ x y : Int, 0 ≤ x → x < A.Width → 0 ≤ y → y < A.Height →
      ∀ a : Nat, pixelAt A.Pixels y x = .ok a → pixelAt R.Pixels y x = .ok (a : Int)) :
    R = A.toLaplacian := by
  apply laplacianImage_ext hw hh
  have hRS : Shape R.Pixels A.Height A.Width := by
    have : Shape R.Pixels R.Height R.Width := hR
    rwa [hw, hh] at this
  have hTS : Shape A.toLaplacian.Pixels A.Height A.Width := PGMImage.toLaplacian_WF hA
  apply grid_ext hRS hTS
  intro x y hx0 hx1 hy0 hy1
  obtain ⟨a, ha, _, hT⟩ := toLaplacian_pixel hA hx0 hx1 hy0 hy1
  rw [hT]
  exact hpt x y hx0 hx1 hy0 hy1 a ha

theorem toLaplacian_bound {A : PGMImage} (hWF : A.WF) :
    ∀ row ∈ A.toLaplacian.Pixels, ∀ p ∈ row, |p| ≤ 255 := by
  intro row hrow p hp
  obtain ⟨r, hr, rfl⟩ := List.mem_map.mp hrow
  obtain ⟨n, hn, rfl⟩ := List.mem_map.mp hp
  have := hWF.2 r hr n hn
  rw [abs_le]
  constructor <;> omega

/-- the mean of a widened well-formed 8-bit image with itself is that image -/
theorem meanImages_pair (A : PGMImage) (hWF : A.WF) :
    meanImages [A.toLaplacian, A.toLaplacian] = .ok A.toLaplacian := by
  have hT := PGMImage.toLaplacian_WF hWF
  obtain ⟨out, hout, ow, oh, owf, hpt⟩ := meanImages_spec A.toLaplacian [A.toLaplacian] 255
    (fun image him => by
      simp only [List.mem_cons, List.mem_singleton, List.not_mem_nil, or_false, or_self] at him
      subst him
      exact ⟨hT, rfl, rfl⟩)
    (fun image him => by
      simp only [List.mem_cons, List.mem_singleton, List.not_mem_nil, or_false, or_self] at him
      subst him
      exact toLaplacian_bound hWF)
    (by simp only [List.length_singleton]; norm_num)
  rw [hout]
  congr 1
  apply eq_toLaplacian hWF owf ow oh
  intro x y hx0 hx1 hy0 hy1 a ha
  obtain ⟨vs, hvs, hv⟩ := hpt x y hx0 hx1 hy0 hy1
  obtain ⟨a2, ha2, _, hT2⟩ := toLaplacian_pixel hWF hx0 hx1 hy0 hy1
  rw [ha] at ha2
  cases ha2
  cases hvs with
  | cons h1 hrest =>
    cases hrest with
    | cons h2 hnil =>
      cases hnil
      rw [hT2] at h1 h2
      cases h1
      cases h2
      rw [hv]
      congr 1
      have e : ((a : Int)) + ((a : Int) + 0) = (a : Int) * 2 := by ring
      simp only [List.sum_cons, List.sum_nil, List.length_singleton]
      rw [e]
      exact Int.mul_tdiv_cancel _ (by decide)

/-- fusing a detail pyramid with itself returns it -/
theorem createMaxLaplacianPyramid_pair (L : List LaplacianImage)
    (hL : ∀ l ∈ L, l.WF ∧ ∀ row ∈ l.Pixels, ∀ p ∈ row, |p| ≤ 2 ^ 53) :
    createMaxLaplacianPyramid [L, L] = .ok L := by
  obtain ⟨M, hM, hlen, hlev⟩ := createMaxLaplacianPyramid_spec L [L]
    (fun pyramid hp i hi => by
      simp only [List.mem_cons, List.mem_singleton, List.not_mem_nil, or_false, or_self] at hp
      subst hp
      obtain ⟨a, ha, ham⟩ := index_ok_of_lt pyramid (i : Int) (by omega) (by omega)
      exact ⟨a, a, ha, ha, (hL a ham).1, rfl, rfl⟩)
    (fun pyramid hp image him => by
      simp only [List.mem_cons, List.mem_singleton, List.not_mem_nil, or_false, or_self] at hp
      subst hp
      exact (hL image him).2)
  rw [hM]
  congr 1
  apply list_ext_index hlen
  intro i hi
  obtain ⟨a, m, ha, hm, mw, mh, mwf, hpt⟩ := hlev i (by omega)
  rw [hm, ha]
  congr 1
  apply laplacianImage_ext mw mh
  have haS : Shape a.Pixels a.Height a.Width := (hL a (index_eq_ok_lt ha).2.2).1
  have hmS : Shape m.Pixels a.Height a.Width := by
    have : Shape m.Pixels m.Height m.Width := mwf
    rwa [mw, mh] at this
  apply grid_ext hmS haS
  intro x y hx0 hx1 hy0 hy1
  obtain ⟨vs, r, hvs, hr, hin, _⟩ := hpt x y hx0 hx1 hy0 hy1
  cases hvs with
  | cons h1 hrest =>
    cases hrest with
    | cons h2 hnil =>
      cases hnil
      obtain ⟨i1, hi1, hp1⟩ := h1
      obtain ⟨i2, hi2, hp2⟩ := h2
      rw [ha] at hi1 hi2
      cases hi1
      cases hi2
      rw [hp1] at hp2
      cases hp2
      simp only [List.mem_cons, List.mem_singleton, List.not_mem_nil, or_false, or_self] at hin
      rw [hr, hp1, hin]

/-- adding the detail `level - approximation` to the widened approximation
gives the widened level -/
theorem add_detail (A g : PGMImage) (l : LaplacianImage) (hA : A.WF) (hg : g.WF) (hl : l.WF)
    (gw : g.Width = A.Width) (gh : g.Height = A.Height) (lw : l.Width = A.Width)
    (lh : l.Height = A.Height)
    (hpt : ∀ x y : Int, 0 ≤ x → x < A.Width → 0 ≤ y → y < A.Height →
      ∃ a b : Nat, pixelAt A.Pixels y x = .ok a ∧ pixelAt g.Pixels y x = .ok b ∧
        pixelAt l.Pixels y x = .ok ((a : Int) - (b : Int)) ∧ a < 256 ∧ b < 256) :
    addImagesLaplacian g.toLaplacian l = .ok A.toLaplacian := by
  obtain ⟨R, hR, rw1, rh1, rwf, rpt⟩ := addImagesLaplacian_spec g.toLaplacian l
    (PGMImage.toLaplacian_WF hg) hl (by rw [lw]; exact gw) (by rw [lh]; exact gh)
  rw [hR]
  congr 1
  apply eq_toLaplacian hA rwf (by rw [rw1, lw]) (by rw [rh1, lh])
  intro x y hx0 hx1 hy0 hy1 a ha
  obtain ⟨a2, b, pa, pb, pl, ha256, hb256⟩ := hpt x y hx0 hx1 hy0 hy1
  rw [ha] at pa
  cases pa
  obtain ⟨u, v, hu, hv, hr⟩ := rpt x y hx0 (by rw [lw]; exact hx1) hy0 (by rw [lh]; exact hy1)
  obtain ⟨b2, pb2, _, hgT⟩ := toLaplacian_pixel hg hx0 (by rw [gw]; exact hx1) hy0
    (by rw [gh]; exact hy1)
  rw [pb] at pb2
  cases pb2
  rw [hgT] at hu
  cases hu
  rw [pl] at hv
  cases hv
  rw [hr]
  congr 1
  have e : ((b : Int)) + ((a : Int) - (b : Int)) = (a : Int) := by ring
  rw [e]
  exact wrapInt_of_range _ (by omega) (by omega)

/-- clamping the widened well-formed 8-bit image returns its pixels -/
theorem clampImage_toLaplacian (A : PGMImage) (hWF : A.WF) :
    clampImage A.toLaplacian 0 255 =
      .ok { Width := A.Width, Height := A.Height, MaxVal := 255, Pixels := A.Pixels } := by
  obtain ⟨out, hout, ow, oh, oshape, hpt⟩ := clampImage_spec A.toLaplacian
    (PGMImage.toLaplacian_WF hWF)
  have hmax : out.MaxVal = 255 := by
    unfold clampImage at hout
    obtain ⟨G, _, hG⟩ := (bind_eq_ok_iff _ _ _).mp hout
    cases hG
    rfl
  have hpx : out.Pixels = A.Pixels := by
    apply grid_ext (h := A.Height) (w := A.Width) oshape hWF.1
    intro x y hx0 hx1 hy0 hy1
    obtain ⟨v, p, hv, hp, hmm, _⟩ := hpt x y hx0 hx1 hy0 hy1
    obtain ⟨a, ha, h256, hT⟩ := toLaplacian_pixel hWF hx0 hx1 hy0 hy1
    rw [hT] at hv
    cases hv
    rw [hp, ha]
    congr 1
    rw [max_eq_left (by omega), min_eq_left (by omega)] at hmm
    exact_mod_cast hmm
  rw [hout]
  congr 1
  cases out
  simp only at ow oh hmax hpx
  subst ow oh hmax hpx
  rfl

/-- Reconstruction from the widened coarsest level through the detail images
of levels `j..D-1` returns the widened level `j`. -/
theorem reconstruct_levels (P : List PGMImage) (L : List LaplacianImage) (D : Nat)
    (hLlen : L.length = D)
    (hlevels : ∀ i : Nat, i ≤ D → ∃ A, index P (i : Int) = .ok A ∧ A.WF)
    (hdet : ∀ i : Nat, i < D →
      ∃ (A B g : PGMImage) (l : LaplacianImage), index P (i : Int) = .ok A ∧
        index P ((i : Int) + 1) = .ok B ∧
        index L (i : Int) = .ok l ∧ g.WF ∧ g.Width = A.Width ∧ g.Height = A.Height ∧
        resizeImageLaplacian B.toLaplacian A.Width A.Height = .ok g.toLaplacian ∧
        l.WF ∧ l.Width = A.Width ∧ l.Height = A.Height ∧
        ∀ x y : Int, 0 ≤ x → x < A.Width → 0 ≤ y → y < A.Height →
          ∃ a b : Nat, pixelAt A.Pixels y x = .ok a ∧ pixelAt g.Pixels y x = .ok b ∧
            pixelAt l.Pixels y x = .ok ((a : Int) - (b : Int)) ∧ a < 256 ∧ b < 256)
    (seed : PGMImage) (hseed : index P (D : Int) = .ok seed) :
    ∀ k : Nat, k ≤ D → ∃ A, index P ((D - k : Nat) : Int) = .ok A ∧
      reconstructImage seed.toLaplacian (L.drop (D - k)) = .ok A.toLaplacian := by
  intro k
  induction k with
  | zero =>
    intro _
    refine ⟨seed, hseed, ?_⟩
    rw [Nat.sub_zero, List.drop_eq_nil_of_le (by omega)]
    rfl
  | succ k ih =>
    intro hk
    obtain ⟨B2, hB2, hrec⟩ := ih (by omega)
    obtain ⟨A, B, g, l, hA, hB, hl, gwf, gw, gh, hres, lwf, lw, lh, lpt⟩ :=
      hdet (D - (k + 1)) (by omega)
    have ej : (((D - (k + 1) : Nat) : Int)) + 1 = ((D - k : Nat) : Int) := by omega
    rw [ej, hB2] at hB
    cases hB
    have awf : A.WF := by
      obtain ⟨A2, hA2, wf⟩ := hlevels (D - (k + 1)) (by omega)
      rw [hA] at hA2
      cases hA2
      exact wf
    have hjlt : D - (k + 1) < L.length := by omega
    have hget : L[D - (k + 1)] = l := by
      have := (index_eq_ok_iff L _ l).mp hl
      simp only [Int.toNat_ofNat] at this
      rw [List.getElem?_eq_getElem hjlt] at this
      exact Option.some.inj this.2
    have hdrop : L.drop (D - (k + 1)) = l :: L.drop (D - k) := by
      rw [List.drop_eq_getElem_cons hjlt, hget]
      congr 2
      omega
    refine ⟨A, hA, ?_⟩
    rw [hdrop]
    unfold reconstructImage
    rw [hrec]
    simp only [ok_bind, lw, lh, hres]
    rw [add_detail A g l awf gwf lwf gw gh lw lh lpt]
    rfl

/-- C1. Detail round-trip: for every well-formed 8-bit image (width and height
below `2^53`) and every division count `D ≥ 0` for which every pyramid level
`0..D` has width and height at least 2, the pipeline of main on the stack
`[image, image]` (pyramids per member, mean of the coarsest levels, max-abs
fusion, reconstruction, clamping to `[0, 255]`) returns an image of the same
width and height whose rows of pixels are exactly those of `image`. -/
theorem detail_roundtrip (image : PGMImage) (D : Nat) (hWF : image.WF)
    (hW : image.Width < 2 ^ 53) (hH : image.Height < 2 ^ 53)
    (hlev : ∀ i : Nat, i ≤ D → 2 ≤ image.Width / 2 ^ i ∧ 2 ≤ image.Height / 2 ^ i) :
    ∃ out, fuse [image, image] (D : Int) = .ok out ∧ out.Width = image.Width ∧
      out.Height = image.Height ∧ out.Pixels = image.Pixels := by
  obtain ⟨P, G, L, hb, hPlen, hLlen, hP0, hlevels, hdet⟩ :=
    buildPyramids_spec image D hWF hW hH hlev
  obtain ⟨seed, hseed, swf, _, _⟩ := hlevels D (le_refl _)
  have hLb : ∀ l ∈ L, l.WF ∧ ∀ row ∈ l.Pixels, ∀ p ∈ row, |p| ≤ 2 ^ 53 := by
    intro l hl
    obtain ⟨i, hi, hidx⟩ := mem_index hl
    obtain ⟨A, B, g, l2, hA, _, hl2, _, _, _, _, lwf, lw, lh, lpt⟩ := hdet i (by omega)
    rw [hidx] at hl2
    cases hl2
    refine ⟨lwf, ?_⟩
    have lS : Shape l.Pixels A.Height A.Width := by
      have : Shape l.Pixels l.Height l.Width := lwf
      rwa [lw, lh] at this
    apply grid_all_of_pointwise (fun v => |v| ≤ 2 ^ 53) lS
    intro x y hx0 hx1 hy0 hy1
    obtain ⟨a, b, _, _, pl, ha, hb⟩ := lpt x y hx0 hx1 hy0 hy1
    refine ⟨_, pl, ?_⟩
    rw [abs_le]
    constructor <;> omega
  obtain ⟨A0, hA0, hrec⟩ := reconstruct_levels P L D hLlen
    (fun i hi => by
      obtain ⟨A, hA, awf, _⟩ := hlevels i hi
      exact ⟨A, hA, awf⟩)
    hdet seed hseed D (le_refl _)
  rw [Nat.sub_self] at hA0 hrec
  rw [List.drop_zero] at hrec
  have e0 : (((0 : Nat) : Int)) = 0 := rfl
  rw [e0, hP0] at hA0
  cases hA0
  have hbuilt : collect ([image, image].map (buildPyramids (D : Int))) =
      .ok [(P, G, L), (P, G, L)] := by
    simp only [List.map_cons, List.map_nil, hb]
    rfl
  have hcoarse : collect (([(P, G, L), (P, G, L)].map fun t => t.1).map fun pyramid => do
      let first ← index ([(P, G, L), (P, G, L)].map fun t => t.1) 0
      let coarsest ← index pyramid ((first.length : Int) - 1)
      pgmToLaplacianImageType coarsest) = .ok [seed.toLaplacian, seed.toLaplacian] := by
    have i0 : index [P, P] 0 = .ok P := rfl
    have e : ((P.length : Int) - 1) = (D : Int) := by
      rw [hPlen]; push_cast; ring
    simp only [List.map_cons, List.map_nil, i0, ok_bind, e, hseed,
      pgmToLaplacianImageType_eq seed swf]
    rfl
  have hmax : createMaxLaplacianPyramid ([(P, G, L), (P, G, L)].map fun t => t.2.2) =
      .ok L := createMaxLaplacianPyramid_pair L hLb
  refine ⟨{ Width := image.Width, Height := image.Height, MaxVal := 255,
            Pixels := image.Pixels }, ?_, rfl, rfl, rfl⟩
  unfold fuse
  refine bind_eq_ok_of hbuilt ?_
  refine bind_eq_ok_of hcoarse ?_
  refine bind_eq_ok_of (a := seed.toLaplacian) (by rw [meanImages_pair seed swf]; rfl) ?_
  refine bind_eq_ok_of hmax ?_
  exact bind_eq_ok_of hrec (clampImage_toLaplacian image hWF)

theorem detail_roundtrip_witness :
    blockA.WF ∧ blockA.Width < 2 ^ 53 ∧ blockA.Height < 2 ^ 53 ∧
    (∀ i : Nat, i ≤ 1 → 2 ≤ blockA.Width / 2 ^ i ∧ 2 ≤ blockA.Height / 2 ^ i) ∧
    ∃ out, fuse [blockA, blockA] ((1 : Nat) : Int) = .ok out ∧ out.Width = blockA.Width ∧
      out.Height = blockA.Height ∧ out.Pixels = blockA.Pixels := by
  have h3 : ∀ i : Nat, i ≤ 1 → 2 ≤ blockA.Width / 2 ^ i ∧ 2 ≤ blockA.Height / 2 ^ i := by
    intro i hi
    interval_cases i <;> decide
  exact ⟨by decide, by decide, by decide, h3,
    detail_roundtrip blockA 1 (by decide) (by decide) (by decide) h3⟩

/-! ## The resamplers: agreement and index safety -/

/-- The four pixel indices a resampler derives from a coordinate clamped into
`[0, n-1]` lie in `[0, n-1]`. -/
theorem read_indices_range (c : ℚ) (n : Int) (h1 : 1 ≤ n) (h2 : n ≤ 2 ^ 53) :
    0 ≤ toInt ((⌊max 0 (min c (fl ((n - 1 : Int) : ℚ)))⌋ : Int) : ℚ) ∧
      toInt ((⌊max 0 (min c (fl ((n - 1 : Int) : ℚ)))⌋ : Int) : ℚ) ≤ n - 1 ∧
      0 ≤ toInt ((⌈max 0 (min c (fl ((n - 1 : Int) : ℚ)))⌉ : Int) : ℚ) ∧
      toInt ((⌈max 0 (min c (fl ((n - 1 : Int) : ℚ)))⌉ : Int) : ℚ) ≤ n - 1 := by
  obtain ⟨c0, c1⟩ := clampCoord_range c n h1 h2
  obtain ⟨f, f0, f1⟩ := toInt_floor_range c0 c1 h2
  obtain ⟨g, g0, g1⟩ := toInt_ceil_range c0 c1 h2
  rw [f, g]
  omega

/-- C18. For a well-formed 8-bit image (sides between 1 and 2^53) and a target of
at least 2 by 2, `resizeImage` followed by `pgmToLaplacianImageType` and
`pgmToLaplacianImageType` followed by `resizeImageLaplacian` both return, and
return the same signed image: the pixels of the 8-bit result, widened. -/
theorem resamplers_agree (image : PGMImage) (hWF : image.WF) (hW1 : 1 ≤ image.Width)
    (hW2 : image.Width ≤ 2 ^ 53) (hH1 : 1 ≤ image.Height) (hH2 : image.Height ≤ 2 ^ 53)
    (w h : Int) (hw : 2 ≤ w) (hh : 2 ≤ h) :
    ∃ (R : PGMImage) (L : LaplacianImage), resizeImage image w h = .ok R ∧
      (resizeImage image w h >>= pgmToLaplacianImageType) = .ok L ∧
      (pgmToLaplacianImageType image >>= fun B => resizeImageLaplacian B w h) = .ok L ∧
      L.Width = w ∧ L.Height = h ∧
      L.Pixels = R.Pixels.map (List.map (fun (p : Nat) => (p : Int))) := by
  obtain ⟨R, hR, rw1, rh1, _, rwf, hL⟩ := resizeImage_spec image hWF hW1 hW2 hH1 hH2 w h hw hh
  refine ⟨R, R.toLaplacian, hR, ?_, ?_, rw1, rh1, rfl⟩
  · exact bind_eq_ok_of hR (pgmToLaplacianImageType_eq R rwf)
  · exact bind_eq_ok_of (pgmToLaplacianImageType_eq image hWF) hL

theorem resamplers_agree_witness :
    tinyImage.WF ∧
    ∃ (R : PGMImage) (L : LaplacianImage), resizeImage tinyImage 3 3 = .ok R ∧
      (resizeImage tinyImage 3 3 >>= pgmToLaplacianImageType) = .ok L ∧
      (pgmToLaplacianImageType tinyImage >>= fun B => resizeImageLaplacian B 3 3) = .ok L ∧
      L.Width = 3 ∧ L.Height = 3 ∧
      L.Pixels = R.Pixels.map (List.map (fun (p : Nat) => (p : Int))) :=
  ⟨by decide, resamplers_agree tinyImage (by decide) (by decide) (by decide) (by decide)
    (by decide) 3 3 (by decide) (by decide)⟩

/-- C20. For a well-formed 8-bit image `A` and a well-formed signed image `B`
(sides between 1 and 2^53) and a target of at least 2 by 2: whatever the mapped
coordinate, the row indices `int(floor y)`, `int(ceil y)` and the column indices
`int(floor x)`, `int(ceil x)` of the clamped coordinate lie in
`[0, height-1]` and `[0, width-1]`; so no read aborts, both resamplers return,
and each result has exactly `targetHeight` rows of `targetWidth` pixels. -/
theorem resize_reads_in_bounds (A : PGMImage) (B : LaplacianImage) (hA : A.WF) (hB : B.WF)
    (aW1 : 1 ≤ A.Width) (aW2 : A.Width ≤ 2 ^ 53) (aH1 : 1 ≤ A.Height) (aH2 : A.Height ≤ 2 ^ 53)
    (bW1 : 1 ≤ B.Width) (bW2 : B.Width ≤ 2 ^ 53) (bH1 : 1 ≤ B.Height) (bH2 : B.Height ≤ 2 ^ 53)
    (tw th : Int) (htw : 2 ≤ tw) (hth : 2 ≤ th) :
    (∀ c : ℚ, ∀ n ∈ [A.Width, A.Height, B.Width, B.Height],
      0 ≤ toInt ((⌊max 0 (min c (fl ((n - 1 : Int) : ℚ)))⌋ : Int) : ℚ) ∧
      toInt ((⌊max 0 (min c (fl ((n - 1 : Int) : ℚ)))⌋ : Int) : ℚ) ≤ n - 1 ∧
      0 ≤ toInt ((⌈max 0 (min c (fl ((n - 1 : Int) : ℚ)))⌉ : Int) : ℚ) ∧
      toInt ((⌈max 0 (min c (fl ((n - 1 : Int) : ℚ)))⌉ : Int) : ℚ) ≤ n - 1) ∧
    (∀ x y : ℚ, (∃ v, interpolateLinear A x y = .ok v) ∧
      ∃ v, interpolateLinearLaplacian B x y = .ok v) ∧
    (∃ R, resizeImage A tw th = .ok R ∧ R.Width = tw ∧ R.Height = th ∧
      Shape R.Pixels th tw) ∧
    ∃ R, resizeImageLaplacian B tw th = .ok R ∧ R.Width = tw ∧ R.Height = th ∧
      Shape R.Pixels th tw := by
  refine ⟨?_, ?_, ?_, ?_⟩
  · intro c n hn
    simp only [List.mem_cons, List.mem_singleton, List.not_mem_nil, or_false] at hn
    rcases hn with rfl | rfl | rfl | rfl
    · exact read_indices_range c _ aW1 aW2
    · exact read_indices_range c _ aH1 aH2
    · exact read_indices_range c _ bW1 bW2
    · exact read_indices_range c _ bH1 bH2
  · intro x y
    obtain ⟨v, hv, _⟩ := interpolate_agree A hA aW1 aW2 aH1 aH2 x y
    exact ⟨⟨v, hv⟩, interpolateLaplacian_ok B hB bW1 bW2 bH1 bH2 x y⟩
  · obtain ⟨R, hR, rw1, rh1, _, rwf, _⟩ := resizeImage_spec A hA aW1 aW2 aH1 aH2 tw th htw hth
    refine ⟨R, hR, rw1, rh1, ?_⟩
    have := rwf.1
    rwa [rw1, rh1] at this
  · obtain ⟨R, hR, rw1, rh1, rwf⟩ :=
      resizeImageLaplacian_shape B hB bW1 bW2 bH1 bH2 tw th htw hth
    refine ⟨R, hR, rw1, rh1, ?_⟩
    have : Shape R.Pixels R.Height R.Width := rwf
    rwa [rw1, rh1] at this

theorem resize_reads_in_bounds_witness :
    tinyImage.WF ∧ smallGrid.WF ∧
    (∃ R, resizeImage tinyImage 3 5 = .ok R ∧ R.Width = 3 ∧ R.Height = 5 ∧
      Shape R.Pixels 5 3) ∧
    ∃ R, resizeImageLaplacian smallGrid 3 5 = .ok R ∧ R.Width = 3 ∧ R.Height = 5 ∧
      Shape R.Pixels 5 3 :=
  ⟨by decide, by decide,
    (resize_reads_in_bounds tinyImage smallGrid (by decide) (by decide) (by decide) (by decide)
      (by decide) (by decide) (by decide) (by decide) (by decide) (by decide) 3 5 (by decide)
      (by decide)).2.2⟩

/-! ## The approximation pyramid and the mismatch error -/

/-- A 1 by 1 target makes both ratios of `resizeImage` non-finite: the call aborts. -/
theorem resizeImage_unit_target (A : PGMImage) : resizeImage A 1 1 = .error .crash := by
  have hz : fl ((((1 : Int) - 1 : Int)) : ℚ) = 0 := by
    simp [fl_zero]
  have hnone : fdiv (fl (((A.Width - 1 : Int)) : ℚ)) (fl ((((1 : Int) - 1 : Int)) : ℚ)) =
      none := by
    rw [hz]; simp [fdiv]
  unfold resizeImage
  simp only [makeGrid_one_one, hnone]
  rfl

/-- What a returning `resizeImage` returns has the target size. -/
theorem resizeImage_ok_shape {A R : PGMImage} {tw th : Int} (h : resizeImage A tw th = .ok R) :
    R.Width = tw ∧ R.Height = th ∧ Shape R.Pixels th tw := by
  unfold resizeImage at h
  obtain ⟨G, hG, hR⟩ := (bind_eq_ok_iff _ _ _).mp h
  have hS := ((makeGrid_eq_ok_iff _ _ _ _).mp hG).1
  have e : R = { Width := tw, Height := th, MaxVal := 255, Pixels := G } :=
    (Except.ok.inj hR).symm
  subst e
  exact ⟨rfl, rfl, hS⟩

/-- What a returning `createGaussianPyramid` returns: one image per level but
the last, of the size of that level. -/
theorem createGaussianPyramid_ok {P G : List PGMImage} (h : createGaussianPyramid P = .ok G) :
    G.length = P.length - 1 ∧
      ∀ i : Nat, i < G.length → ∃ A g, index P (i : Int) = .ok A ∧ index G (i : Int) = .ok g ∧
        g.Width = A.Width ∧ g.Height = A.Height ∧ Shape g.Pixels A.Height A.Width := by
  unfold createGaussianPyramid at h
  split_ifs at h with hlen
  obtain ⟨hl, hf⟩ := (collect_range_eq_ok_iff _ _ _).mp h
  refine ⟨hl, fun i hi => ?_⟩
  have hfi := hf i (by omega)
  rw [index_natCast_of_lt G i hi] at hfi
  obtain ⟨coarser, _, hfi⟩ := (bind_eq_ok_iff _ _ _).mp hfi
  obtain ⟨level, hlevel, hfi⟩ := (bind_eq_ok_iff _ _ _).mp hfi
  obtain ⟨e1, e2, e3⟩ := resizeImage_ok_shape hfi
  exact ⟨level, _, hlevel, index_natCast_of_lt G i hi, e1, e2, e3⟩

theorem subtractImages_ne_mismatch (P G : List (List Nat)) (h w : Int) (hP : Shape P h w)
    (hG : Shape G h w) : subtractImages P G ≠ .error .mismatch := by
  intro hm
  have hlen : P.length = G.length := by
    have := hP.1.trans hG.1.symm
    exact_mod_cast this
  unfold subtractImages at hm
  rw [if_neg (fun hne => hne hlen)] at hm
  rcases (bind_eq_error_iff _ _ _).mp hm with h1 | ⟨row1, h1, hm⟩
  · rcases index_crash_or_ok P 0 with hc | ⟨a, ha⟩
    · rw [hc] at h1; cases h1
    · rw [ha] at h1; cases h1
  rcases (bind_eq_error_iff _ _ _).mp hm with h2 | ⟨row2, h2, hm⟩
  · rcases index_crash_or_ok G 0 with hc | ⟨a, ha⟩
    · rw [hc] at h2; cases h2
    · rw [ha] at h2; cases h2
  have hrl : row1.length = row2.length := by
    have e1 := hP.2 row1 (index_eq_ok_lt h1).2.2
    have e2 := hG.2 row2 (index_eq_ok_lt h2).2.2
    have := e1.trans e2.symm
    exact_mod_cast this
  rw [if_neg (fun hne => hne hrl)] at hm
  rcases makeGrid_eq_error hm with hc | ⟨x, y, hxy⟩
  · cases hc
  · rcases (bind_eq_error_iff _ _ _).mp hxy with ha | ⟨a, _, hxy⟩
    · rcases pixelAt_crash_or_ok P y x with hc | ⟨v, hv⟩
      · rw [hc] at ha; cases ha
      · rw [hv] at ha; cases ha
    · rcases (bind_eq_error_iff _ _ _).mp hxy with hb | ⟨b, _, hxy⟩
      · rcases pixelAt_crash_or_ok G y x with hc | ⟨v, hv⟩
        · rw [hc] at hb; cases hb
        · rw [hv] at hb; cases hb
      · cases hxy

/-- The extractor never returns the mismatch error when each approximation has
the rows and row length of its well-formed level. -/
theorem createLaplacianPyramid_ne_mismatch (P G : List PGMImage)
    (hcompat : ∀ i : Nat, i < G.length → ∀ A g, index P (i : Int) = .ok A →
      index G (i : Int) = .ok g → A.WF ∧ Shape g.Pixels A.Height A.Width) :
    createLaplacianPyramid P G ≠ .error .mismatch := by
  intro hm
  unfold createLaplacianPyramid at hm
  obtain ⟨r, hr, hre⟩ := collect_eq_error hm
  obtain ⟨i, hi, rfl⟩ := List.mem_map.mp hr
  have hi : i < G.length := List.mem_range.mp hi
  rcases (bind_eq_error_iff _ _ _).mp hre with h1 | ⟨A, hA, hre⟩
  · rcases index_crash_or_ok P (i : Int) with hc | ⟨a, ha⟩
    · rw [hc] at h1; cases h1
    · rw [ha] at h1; cases h1
  rcases (bind_eq_error_iff _ _ _).mp hre with h2 | ⟨g, hg, hre⟩
  · rcases index_crash_or_ok G (i : Int) with hc | ⟨a, ha⟩
    · rw [hc] at h2; cases h2
    · rw [ha] at h2; cases h2
  obtain ⟨hwf, hS⟩ := hcompat i hi A g hA hg
  rcases (bind_eq_error_iff _ _ _).mp hre with h3 | ⟨d, _, hre⟩
  · exact subtractImages_ne_mismatch _ _ _ _ hwf.1 hS h3
  · cases hre

/-- On well-formed levels of any size the approximation builder followed by the
extractor never ends in the mismatch error. -/
theorem extractor_ne_mismatch (P : List PGMImage) (hP : ∀ A ∈ P, A.WF) :
    (createGaussianPyramid P >>= createLaplacianPyramid P) ≠ .error .mismatch := by
  intro hm
  rcases (bind_eq_error_iff _ _ _).mp hm with h1 | ⟨G, hG, hm⟩
  · unfold createGaussianPyramid at h1
    split_ifs at h1 with hlen
    · cases h1
    obtain ⟨r, hr, hre⟩ := collect_eq_error h1
    obtain ⟨i, _, rfl⟩ := List.mem_map.mp hr
    rcases (bind_eq_error_iff _ _ _).mp hre with h2 | ⟨B, _, hre⟩
    · rcases index_crash_or_ok P ((i : Int) + 1) with hc | ⟨a, ha⟩
      · rw [hc] at h2; cases h2
      · rw [ha] at h2; cases h2
    rcases (bind_eq_error_iff _ _ _).mp hre with h3 | ⟨A, _, hre⟩
    · rcases index_crash_or_ok P (i : Int) with hc | ⟨a, ha⟩
      · rw [hc] at h3; cases h3
      · rw [ha] at h3; cases h3
    unfold resizeImage at hre
    rcases (bind_eq_error_iff _ _ _).mp hre with h4 | ⟨_, _, h4⟩
    · rcases makeGrid_eq_error h4 with hc | ⟨x, y, hxy⟩
      · cases hc
      · rcases (bind_eq_error_iff _ _ _).mp hxy with h5 | ⟨sx, _, hxy⟩
        · cases hr1 : fdiv (fl ((B.Width - 1 : Int) : ℚ)) (fl ((A.Width - 1 : Int) : ℚ)) with
          | none => rw [hr1] at h5; cases h5
          | some r => rw [hr1] at h5; cases h5
        rcases (bind_eq_error_iff _ _ _).mp hxy with h6 | ⟨sy, _, hxy⟩
        · cases hr2 : fdiv (fl ((B.Height - 1 : Int) : ℚ)) (fl ((A.Height - 1 : Int) : ℚ)) with
          | none => rw [hr2] at h6; cases h6
          | some r => rw [hr2] at h6; cases h6
        unfold interpolateLinear at hxy
        simp only [bind_eq_error_iff] at hxy
        have hpx : ∀ (G : List (List Nat)) (y x : Int), pixelAt G y x ≠ .error .mismatch := by
          intro G y x hx
          rcases pixelAt_crash_or_ok G y x with hc | ⟨v, hv⟩
          · rw [hc] at hx; cases hx
          · rw [hv] at hx; cases hx
        rcases hxy with h | ⟨_, _, h | ⟨_, _, h | ⟨_, _, h | ⟨_, _, h⟩⟩⟩⟩
        · exact hpx _ _ _ h
        · exact hpx _ _ _ h
        · exact hpx _ _ _ h
        · exact hpx _ _ _ h
        · cases h
    · cases h4
  · obtain ⟨_, hlev⟩ := createGaussianPyramid_ok hG
    refine createLaplacianPyramid_ne_mismatch P G (fun i hi A g hA hg => ?_) hm
    obtain ⟨A1, g1, hA1, hg1, _, _, hS⟩ := hlev i hi
    rw [hA] at hA1
    rw [hg] at hg1
    cases hA1
    cases hg1
    exact ⟨hP A (index_eq_ok_lt hA).2.2, hS⟩

/-- C11 (amended). For every pyramid of well-formed images the approximation
builder followed by the extractor never ends in the dimension-mismatch error;
and when the pyramid is non-empty and every side is at least 2 (and at most
2^53), `createGaussianPyramid` returns exactly `len(pyramid) - 1` well-formed
images, image `i` has the width and height of pyramid level `i`, and
`createLaplacianPyramid` on the pyramid and these images returns. -/
theorem extractor_mismatch_unreachable (pyramid : List PGMImage)
    (hWF : ∀ A ∈ pyramid, A.WF) :
    (createGaussianPyramid pyramid >>= createLaplacianPyramid pyramid) ≠ .error .mismatch ∧
    (1 ≤ pyramid.length →
      (∀ A ∈ pyramid, 2 ≤ A.Width ∧ A.Width ≤ 2 ^ 53 ∧ 2 ≤ A.Height ∧ A.Height ≤ 2 ^ 53) →
      ∃ G L, createGaussianPyramid pyramid = .ok G ∧ G.length = pyramid.length - 1 ∧
        (∀ i : Nat, i < pyramid.length - 1 →
          ∃ A g, index pyramid (i : Int) = .ok A ∧ index G (i : Int) = .ok g ∧
            g.Width = A.Width ∧ g.Height = A.Height ∧ g.WF) ∧
        createLaplacianPyramid pyramid G = .ok L ∧ L.length = pyramid.length - 1) := by
  refine ⟨extractor_ne_mismatch pyramid hWF, fun hne hdim => ?_⟩
  obtain ⟨G, hG, hlen, hlev⟩ := createGaussianPyramid_spec pyramid hne
    (fun A hA => ⟨hWF A hA, hdim A hA⟩)
  obtain ⟨L, hL, hLlen, _⟩ := createLaplacianPyramid_spec pyramid G (fun i hi => by
    obtain ⟨A, B, g, hA, _, hg, _, gw, gh, gwf, _⟩ := hlev i (by omega)
    have hmem := (index_eq_ok_lt hA).2.2
    exact ⟨A, g, hA, hg, hWF A hmem, gwf, gw, gh, by have := (hdim A hmem).2.2.1; omega⟩)
  refine ⟨G, L, hG, hlen, fun i hi => ?_, hL, by omega⟩
  obtain ⟨A, B, g, hA, _, hg, _, gw, gh, gwf, _⟩ := hlev i hi
  exact ⟨A, g, hA, hg, gw, gh, gwf⟩

theorem extractor_mismatch_unreachable_witness :
    (∀ A ∈ [blockA, tinyImage], A.WF) ∧
    (createGaussianPyramid [blockA, tinyImage] >>= createLaplacianPyramid [blockA, tinyImage]) ≠
      .error .mismatch ∧
    ∃ G L, createGaussianPyramid [blockA, tinyImage] = .ok G ∧ G.length = 1 ∧
      createLaplacianPyramid [blockA, tinyImage] G = .ok L ∧ L.length = 1 := by
  have h := extractor_mismatch_unreachable [blockA, tinyImage] (by decide)
  obtain ⟨G, L, hG, hlen, _, hL, hLlen⟩ := h.2 (by decide) (by decide)
  exact ⟨by decide, h.1, G, L, hG, hlen, hL, hLlen⟩

/-- C11 (counterexample). A pyramid of two well-formed 1 by 1 images: the
approximation of level 0 is a resampling to 1 by 1, whose ratios divide by
zero, and `createGaussianPyramid` aborts instead of returning one image. -/
theorem createGaussianPyramid_unit_level :
    (∀ A ∈ [dotImage, dotImage], A.WF ∧ 1 ≤ A.Width ∧ 1 ≤ A.Height) ∧
    createGaussianPyramid [dotImage, dotImage] = .error .crash := by
  refine ⟨by decide, ?_⟩
  have i1 : index [dotImage, dotImage] (((0 : Nat) : Int) + 1) = .ok dotImage := rfl
  have i0 : index [dotImage, dotImage] ((0 : Nat) : Int) = .ok dotImage := rfl
  have ew : dotImage.Width = 1 := rfl
  have eh : dotImage.Height = 1 := rfl
  unfold createGaussianPyramid
  rw [if_neg (by decide)]
  have e : [dotImage, dotImage].length - 1 = 1 := rfl
  rw [e]
  simp only [List.range_succ, List.range_zero, List.nil_append, List.map_cons, List.map_nil,
    i1, i0, ok_bind, ew, eh, resizeImage_unit_target]
  rfl

/-! ## Strictly shrinking levels -/

theorem halving_le (W : Int) (i D : Nat) (hi : i ≤ D) (h : 2 ≤ W / 2 ^ D) : 2 ≤ W / 2 ^ i := by
  have hD : (0 : Int) < 2 ^ D := by positivity
  have hI : (0 : Int) < 2 ^ i := by positivity
  rw [Int.le_ediv_iff_mul_le hD] at h
  rw [Int.le_ediv_iff_mul_le hI]
  have hpow : (2 : Int) ^ i ≤ 2 ^ D := pow_le_pow_right₀ (by norm_num) hi
  linarith

theorem halving_lt (W : Int) (i : Nat) (h : 2 ≤ W / 2 ^ i) : W / 2 ^ (i + 1) < W / 2 ^ i := by
  have hI : (0 : Int) < 2 ^ i := by positivity
  have h1 := Int.lt_ediv_add_one_mul_self W hI
  rw [pow_succ, Int.ediv_lt_iff_lt_mul (by positivity)]
  nlinarith

/-- C17 (amended). For a well-formed image of width W and height H (below 2^53)
and every D >= 0 with floor(W / 2^D) >= 2 and floor(H / 2^D) >= 2,
`createImagePyramid(image, D, 2)` returns D+1 levels and every level i+1
(0 <= i < D) has a strictly smaller width and a strictly smaller height than
level i. -/
theorem pyramid_levels_shrink (image : PGMImage) (D : Nat) (hWF : image.WF)
    (hW : image.Width < 2 ^ 53) (hH : image.Height < 2 ^ 53)
    (hcoarse : 2 ≤ image.Width / 2 ^ D ∧ 2 ≤ image.Height / 2 ^ D) :
    ∃ P, createImagePyramid image (D : Int) 2 = .ok P ∧ P.length = D + 1 ∧
      ∀ i : Nat, i < D → ∃ A B, index P (i : Int) = .ok A ∧ index P ((i : Int) + 1) = .ok B ∧
        B.Width < A.Width ∧ B.Height < A.Height := by
  have hlev : ∀ i : Nat, i ≤ D → 2 ≤ image.Width / 2 ^ i ∧ 2 ≤ image.Height / 2 ^ i :=
    fun i hi => ⟨halving_le _ i D hi hcoarse.1, halving_le _ i D hi hcoarse.2⟩
  obtain ⟨P, hP, hlen, h0, hlv⟩ := createImagePyramid_spec image D hWF hW hH
    (fun i _ hi => hlev i hi)
  have hall : ∀ i : Nat, i ≤ D → ∃ A, index P (i : Int) = .ok A ∧
      A.Width = image.Width / 2 ^ i ∧ A.Height = image.Height / 2 ^ i := by
    intro i hi
    rcases Nat.eq_zero_or_pos i with rfl | hpos
    · exact ⟨image, h0, by simp, by simp⟩
    · obtain ⟨L, hL, _, lw, lh, _⟩ := hlv i hpos hi
      exact ⟨L, hL, lw, lh⟩
  refine ⟨P, hP, hlen, fun i hi => ?_⟩
  obtain ⟨A, hA, aw, ah⟩ := hall i (by omega)
  obtain ⟨B, hB, bw, bh⟩ := hall (i + 1) (by omega)
  refine ⟨A, B, hA, by exact_mod_cast hB, ?_, ?_⟩
  · rw [aw, bw]; exact halving_lt _ i (hlev i (by omega)).1
  · rw [ah, bh]; exact halving_lt _ i (hlev i (by omega)).2

theorem pyramid_levels_shrink_witness :
    blockA.WF ∧ (2 ≤ blockA.Width / 2 ^ 1 ∧ 2 ≤ blockA.Height / 2 ^ 1) ∧
    ∃ P, createImagePyramid blockA ((1 : Nat) : Int) 2 = .ok P ∧ P.length = 1 + 1 ∧
      ∀ i : Nat, i < 1 → ∃ A B, index P (i : Int) = .ok A ∧ index P ((i : Int) + 1) = .ok B ∧
        B.Width < A.Width ∧ B.Height < A.Height :=
  ⟨by decide, by decide,
    pyramid_levels_shrink blockA 1 (by decide) (by decide) (by decide) (by decide)⟩

/-- C17 (counterexample). The well-formed 3 by 3 image with D = 1 has
floor(3 / 2) = 1 >= 1, yet `createImagePyramid` does not return a pyramid: its
level 1 is 1 by 1, the ratios of the resampler divide by zero and the call
aborts. -/
theorem createImagePyramid_three_by_three :
    threeImage.WF ∧ 1 ≤ threeImage.Width / 2 ^ 1 ∧ 1 ≤ threeImage.Height / 2 ^ 1 ∧
    createImagePyramid threeImage 1 2 = .error .crash := by
  refine ⟨by decide, by decide, by decide, ?_⟩
  have ht : toIntOpt (fdiv (fl ((3 : Int) : ℚ)) (fl ((2 : ℚ) ^ (0 + 1)))) = 1 := by
    rw [target_dim 3 (0 + 1) (by norm_num) (by norm_num)]
    decide
  unfold createImagePyramid
  rw [if_neg (by decide)]
  have e : (1 : Int).toNat = 1 := rfl
  have ew : threeImage.Width = 3 := rfl
  have eh : threeImage.Height = 3 := rfl
  rw [e]
  simp only [List.range_succ, List.range_zero, List.nil_append, List.map_cons, List.map_nil,
    ew, eh, ht, resizeImage_unit_target]
  rfl

/-! ## The validation of main -/

theorem validateStack_eq (first second : PGMImage) (rest : List PGMImage) :
    validateStack (first :: second :: rest) =
      if (second :: rest).any
          (fun image => image.Width ≠ first.Width ∨ image.Height ≠ first.Height) then
        .error .osExit
      else .ok () := by
  have h0 : index (first :: second :: rest) 0 = .ok first := rfl
  have hlen : ¬ (first :: second :: rest).length < 2 := by
    simp only [List.length_cons]; omega
  unfold validateStack
  rw [if_neg hlen]
  simp only [h0, ok_bind, List.tail_cons]
  rfl

theorem any_differs_iff (first : PGMImage) (l : List PGMImage) :
    l.any (fun image => image.Width ≠ first.Width ∨ image.Height ≠ first.Height) = true ↔
      ∃ image ∈ l, image.Width ≠ first.Width ∨ image.Height ≠ first.Height := by
  simp [List.any_eq_true]

theorem main_eq (log : ℚ → ℚ) (first second : PGMImage) (rest : List PGMImage) :
    main log (first :: second :: rest) =
      (validateStack (first :: second :: rest) >>= fun _ =>
        fuse (first :: second :: rest) (maxDivisions log first.Width first.Height)) := by
  have h0 : index (first :: second :: rest) 0 = .ok first := rfl
  unfold main
  simp only [h0, ok_bind]

/-- C15. For a stack of at least two decoded images the validation of main ends
the process if and only if some image after the first has a width or height
different from the first image's.  main runs the pipeline only after the
validation has passed: on a mismatch the run ends with the error exit whatever
the pipeline would do, and otherwise the pipeline receives the whole stack,
unchanged, with the division count of the first image's size.  This holds
whatever `math.Log` returns. -/
theorem validation_rejects_mismatch (log : ℚ → ℚ) (first second : PGMImage)
    (rest : List PGMImage) :
    (validateStack (first :: second :: rest) = .error .osExit ↔
      ∃ image ∈ second :: rest, image.Width ≠ first.Width ∨ image.Height ≠ first.Height) ∧
    main log (first :: second :: rest) =
      (validateStack (first :: second :: rest) >>= fun _ =>
        fuse (first :: second :: rest) (maxDivisions log first.Width first.Height)) ∧
    ((∃ image ∈ second :: rest, image.Width ≠ first.Width ∨ image.Height ≠ first.Height) →
      main log (first :: second :: rest) = .error .osExit) ∧
    ((∀ image ∈ second :: rest, image.Width = first.Width ∧ image.Height = first.Height) →
      validateStack (first :: second :: rest) = .ok () ∧
      main log (first :: second :: rest) =
        fuse (first :: second :: rest) (maxDivisions log first.Width first.Height)) := by
  have hiff : validateStack (first :: second :: rest) = .error .osExit ↔
      ∃ image ∈ second :: rest, image.Width ≠ first.Width ∨ image.Height ≠ first.Height := by
    rw [validateStack_eq, ← any_differs_iff]
    by_cases hany : (second :: rest).any
        (fun image => image.Width ≠ first.Width ∨ image.Height ≠ first.Height) = true
    · rw [if_pos hany]; exact ⟨fun _ => hany, fun _ => rfl⟩
    · rw [if_neg hany]; exact ⟨fun h => (by cases h), fun h => absurd h hany⟩
  refine ⟨hiff, main_eq log first second rest, fun hex => ?_, fun hall => ?_⟩
  · rw [main_eq, hiff.mpr hex]
    rfl
  · have hno : ¬ (second :: rest).any
        (fun image => image.Width ≠ first.Width ∨ image.Height ≠ first.Height) = true := by
      rw [any_differs_iff]
      rintro ⟨image, hmem, hne⟩
      obtain ⟨hw, hh⟩ := hall image hmem
      rcases hne with hne | hne
      · exact hne hw
      · exact hne hh
    have hv : validateStack (first :: second :: rest) = .ok () := by
      rw [validateStack_eq, if_neg hno]
    refine ⟨hv, ?_⟩
    rw [main_eq, hv]
    rfl

theorem validation_rejects_mismatch_witness :
    (∃ image ∈ [tinyImage, blockB], image.Width ≠ blockA.Width ∨ image.Height ≠ blockA.Height) ∧
    validateStack [blockA, tinyImage, blockB] = .error .osExit ∧
    main sampleLog [blockA, tinyImage, blockB] = .error .osExit ∧
    validateStack [blockA, blockB] = .ok () :=
  ⟨by decide,
    (validation_rejects_mismatch sampleLog blockA tinyImage [blockB]).1.mpr (by decide),
    (validation_rejects_mismatch sampleLog blockA tinyImage [blockB]).2.2.1 (by decide),
    ((validation_rejects_mismatch sampleLog blockA blockB []).2.2.2 (by decide)).1⟩

/-! ## The tie-break of the fusion -/

/-- The selection loop keeps the start value when no member exceeds it in
magnitude; otherwise it returns the value of the first member of greatest
magnitude: every member is at most as large, every earlier member strictly
smaller. -/
theorem maxResponseLoop_first (tier y x : Int) (stack : List (List LaplacianImage))
    (vs : List Int)
    (h : List.Forall₂ (fun (pyramid : List LaplacianImage) v =>
      ∃ image, index pyramid tier = .ok image ∧ pixelAt image.Pixels y x = .ok v) stack vs)
    (hb : ∀ v ∈ vs, |v| ≤ 2 ^ 53) (m0 : Int) (hm0 : |m0| ≤ 2 ^ 53) :
    ∃ r, maxResponseLoop tier y x stack m0 = .ok r ∧
      ((r = m0 ∧ ∀ v ∈ vs, |v| ≤ |m0|) ∨
        ∃ j : Nat, vs[j]? = some r ∧ |m0| < |r| ∧ (∀ v ∈ vs, |v| ≤ |r|) ∧
          ∀ k : Nat, k < j → ∀ v, vs[k]? = some v → |v| < |r|) := by
  induction h generalizing m0 with
  | nil => exact ⟨m0, rfl, Or.inl ⟨rfl, by simp⟩⟩
  | @cons pyramid v rest vrest hv _ ih =>
    obtain ⟨image, hi, hp⟩ := hv
    have hvb : |v| ≤ 2 ^ 53 := hb v (List.mem_cons_self _ _)
    have hrestb : ∀ u ∈ vrest, |u| ≤ 2 ^ 53 := fun u hu => hb u (List.mem_cons_of_mem _ hu)
    unfold maxResponseLoop
    simp only [hi, hp, ok_bind]
    by_cases hgt : |fl (v : ℚ)| > |fl (m0 : ℚ)|
    · rw [if_pos hgt]
      have hgt2 : |v| > |m0| := (abs_fl_gt_iff v m0 hvb hm0).mp hgt
      obtain ⟨r, hr, hcase⟩ := ih hrestb v hvb
      refine ⟨r, hr, Or.inr ?_⟩
      rcases hcase with ⟨hrv, hall⟩ | ⟨j, hj, hlt, hall, hbefore⟩
      · subst hrv
        refine ⟨0, by simp, hgt2, ?_, fun k hk => absurd hk (Nat.not_lt_zero k)⟩
        intro u hu
        rcases List.mem_cons.mp hu with rfl | hu
        · exact le_refl _
        · exact hall u hu
      · refine ⟨j + 1, by simpa using hj, by omega, ?_, ?_⟩
        · intro u hu
          rcases List.mem_cons.mp hu with rfl | hu
          · omega
          · exact hall u hu
        · intro k hk u hu
          cases k with
          | zero =>
            have : u = v := by simpa using hu.symm
            subst this
            exact hlt
          | succ k => exact hbefore k (by omega) u (by simpa using hu)
    · rw [if_neg hgt]
      have hle : ¬ |v| > |m0| := fun hc => hgt ((abs_fl_gt_iff v m0 hvb hm0).mpr hc)
      obtain ⟨r, hr, hcase⟩ := ih hrestb m0 hm0
      refine ⟨r, hr, ?_⟩
      rcases hcase with ⟨hrm, hall⟩ | ⟨j, hj, hlt, hall, hbefore⟩
      · refine Or.inl ⟨hrm, ?_⟩
        intro u hu
        rcases List.mem_cons.mp hu with rfl | hu
        · omega
        · exact hall u hu
      · refine Or.inr ⟨j + 1, by simpa using hj, hlt, ?_, ?_⟩
        · intro u hu
          rcases List.mem_cons.mp hu with rfl | hu
          · omega
          · exact hall u hu
        · intro k hk u hu
          cases k with
          | zero =>
            have : u = v := by simpa using hu.symm
            subst this
            omega
          | succ k => exact hbefore k (by omega) u (by simpa using hu)

/-- What a returning `createMaxLaplacianPyramid` stores: per level and position
the result of the selection loop over the stack, started at 0. -/
theorem createMaxLaplacianPyramid_ok_pixel {first : List LaplacianImage}
    {rest : List (List LaplacianImage)} {M : List LaplacianImage}
    (h : createMaxLaplacianPyramid (first :: rest) = .ok M) (i : Nat) (hi : i < first.length) :
    ∃ a m, index first (i : Int) = .ok a ∧ index M (i : Int) = .ok m ∧
      ∀ x y : Int, 0 ≤ x → x < a.Width → 0 ≤ y → y < a.Height →
        maxResponseLoop (i : Int) y x (first :: rest) 0 = pixelAt m.Pixels y x := by
  have h0 : index (first :: rest) 0 = .ok first := by
    rw [index_eq_ok_iff]; simp
  unfold createMaxLaplacianPyramid at h
  simp only [h0, ok_bind] at h
  obtain ⟨hlen, hf⟩ := (collect_range_eq_ok_iff _ _ _).mp h
  have hfi := hf i hi
  have hiM : i < M.length := by omega
  rw [index_natCast_of_lt M i hiM] at hfi
  obtain ⟨a, ha, hfi⟩ := (bind_eq_ok_iff _ _ _).mp hfi
  obtain ⟨G, hG, hfi⟩ := (bind_eq_ok_iff _ _ _).mp hfi
  have hm : M.get ⟨i, hiM⟩ = { Width := a.Width, Height := a.Height, Pixels := G } :=
    (Except.ok.inj hfi).symm
  refine ⟨a, M.get ⟨i, hiM⟩, ha, index_natCast_of_lt M i hiM, ?_⟩
  rw [hm]
  exact ((makeGrid_eq_ok_iff _ _ _ _).mp hG).2

/-- C14 (amended). Fusion tie-break: for a non-empty stack `first :: rest` of
detail pyramids of identical shape whose values have magnitude at most `2^53`,
at every level and position the value `createMaxLaplacianPyramid` stores is the
value of the stack member with index `j`, where every member's value is at most
as large in magnitude and every member before `j` has a strictly smaller
magnitude: among the members attaining the greatest absolute value the one with
the lowest stack index wins. -/
theorem createMaxLaplacianPyramid_tie_break (first : List LaplacianImage)
    (rest : List (List LaplacianImage))
    (hshape : ∀ pyramid ∈ first :: rest, ∀ i : Nat, i < first.length →
      ∃ a b, index first (i : Int) = .ok a ∧ index pyramid (i : Int) = .ok b ∧ b.WF ∧
        b.Width = a.Width ∧ b.Height = a.Height)
    (hbound : ∀ pyramid ∈ first :: rest, ∀ image ∈ pyramid, ∀ row ∈ image.Pixels,
      ∀ p ∈ row, |p| ≤ 2 ^ 53) :
    ∃ M, createMaxLaplacianPyramid (first :: rest) = .ok M ∧ M.length = first.length ∧
      ∀ i : Nat, i < first.length →
        ∃ a m, index first (i : Int) = .ok a ∧ index M (i : Int) = .ok m ∧
          ∀ x y : Int, 0 ≤ x → x < a.Width → 0 ≤ y → y < a.Height →
            ∃ (vs : List Int) (r : Int) (j : Nat),
              List.Forall₂ (fun (pyramid : List LaplacianImage) v =>
                ∃ image, index pyramid (i : Int) = .ok image ∧
                  pixelAt image.Pixels y x = .ok v) (first :: rest) vs ∧
              pixelAt m.Pixels y x = .ok r ∧ vs[j]? = some r ∧ (∀ v ∈ vs, |v| ≤ |r|) ∧
              ∀ k : Nat, k < j → ∀ v, vs[k]? = some v → |v| < |r| := by
  obtain ⟨M, hM, hlen, _⟩ := createMaxLaplacianPyramid_spec first rest hshape hbound
  refine ⟨M, hM, hlen, fun i hi => ?_⟩
  obtain ⟨a, m, ha, hm, hpix⟩ := createMaxLaplacianPyramid_ok_pixel hM i hi
  refine ⟨a, m, ha, hm, fun x y hx0 hx1 hy0 hy1 => ?_⟩
  have hS : ∀ pyramid ∈ first :: rest, ∃ image, index pyramid (i : Int) = .ok image ∧
      Shape image.Pixels a.Height a.Width := by
    intro pyramid hp
    obtain ⟨a1, b1, h1, h2, h3, h4, h5⟩ := hshape pyramid hp i hi
    rw [ha] at h1; cases h1
    have h3 : Shape b1.Pixels b1.Height b1.Width := h3
    rw [h4, h5] at h3
    exact ⟨b1, h2, h3⟩
  obtain ⟨vs, hvs, hmem⟩ := stack_values_exist (first :: rest) i _ _ hS hx0 hx1 hy0 hy1
  have hb : ∀ v ∈ vs, |v| ≤ 2 ^ 53 := by
    intro v hv
    obtain ⟨p, hp, im, him, row, hrow, hvr⟩ := hmem v hv
    exact hbound p hp im him row hrow v hvr
  obtain ⟨r, hr, hcase⟩ :=
    maxResponseLoop_first (i : Int) y x (first :: rest) vs hvs hb 0 (by norm_num)
  rw [hpix x y hx0 hx1 hy0 hy1] at hr
  rcases hcase with ⟨hr0, hall⟩ | ⟨j, hj, _, hall, hbefore⟩
  · subst hr0
    cases hvs with
    | cons hv0 hrest =>
      rename_i v0 vrest
      have h0 := hall v0 (List.mem_cons_self _ _)
      rw [abs_zero] at h0
      have hv00 : v0 = 0 := abs_eq_zero.mp (le_antisymm h0 (abs_nonneg _))
      subst hv00
      exact ⟨_, 0, 0, List.Forall₂.cons hv0 hrest, hr, by simp, hall,
        fun k hk => absurd hk (Nat.not_lt_zero k)⟩
  · exact ⟨vs, r, j, hvs, hr, hj, hall, hbefore⟩

theorem createMaxLaplacianPyramid_tie_break_witness :
    (∀ pyramid ∈ [detailMinus] :: [[detailPlus]], ∀ i : Nat, i < [detailMinus].length →
      ∃ a b, index [detailMinus] (i : Int) = .ok a ∧ index pyramid (i : Int) = .ok b ∧ b.WF ∧
        b.Width = a.Width ∧ b.Height = a.Height) ∧
    (∀ pyramid ∈ [detailMinus] :: [[detailPlus]], ∀ image ∈ pyramid,
      ∀ row ∈ image.Pixels, ∀ p ∈ row, |p| ≤ 2 ^ 53) ∧
    ∃ M m, createMaxLaplacianPyramid ([detailMinus] :: [[detailPlus]]) = .ok M ∧
      index M 0 = .ok m ∧ pixelAt m.Pixels 0 0 = .ok (-30) := by
  have h1 : ∀ pyramid ∈ [detailMinus] :: [[detailPlus]], ∀ i : Nat,
      i < [detailMinus].length →
      ∃ a b, index [detailMinus] (i : Int) = .ok a ∧ index pyramid (i : Int) = .ok b ∧ b.WF ∧
        b.Width = a.Width ∧ b.Height = a.Height := by
    intro pyramid hp i hi
    have hi0 : i = 0 := by simpa using hi
    subst hi0
    simp only [List.mem_cons, List.mem_singleton, List.not_mem_nil, or_false] at hp
    rcases hp with rfl | rfl
    · exact ⟨detailMinus, detailMinus, rfl, rfl, by decide, rfl, rfl⟩
    · exact ⟨detailMinus, detailPlus, rfl, rfl, by decide, rfl, rfl⟩
  have h2 : ∀ pyramid ∈ [detailMinus] :: [[detailPlus]], ∀ image ∈ pyramid,
      ∀ row ∈ image.Pixels, ∀ p ∈ row, |p| ≤ 2 ^ 53 := by decide
  obtain ⟨M, hM, _, hlev⟩ :=
    createMaxLaplacianPyramid_tie_break [detailMinus] [[detailPlus]] h1 h2
  obtain ⟨a, m, ha, hm, hpt⟩ := hlev 0 (by decide)
  have ea : index [detailMinus] ((0 : Nat) : Int) = .ok detailMinus := rfl
  rw [ea] at ha
  cases ha
  obtain ⟨vs, r, j, hvs, hr, hj, hall, hbefore⟩ :=
    hpt 0 0 (by decide) (by decide) (by decide) (by decide)
  refine ⟨h1, h2, M, m, hM, hm, ?_⟩
  cases hvs with
  | cons hA hrest =>
    cases hrest with
    | cons hB hnil =>
      cases hnil
      obtain ⟨iA, hiA, hpA⟩ := hA
      obtain ⟨iB, hiB, hpB⟩ := hB
      have e1 : index [detailMinus] ((0 : Nat) : Int) = .ok detailMinus := rfl
      have e2 : index [detailPlus] ((0 : Nat) : Int) = .ok detailPlus := rfl
      rw [e1] at hiA; cases hiA
      rw [e2] at hiB; cases hiB
      have p1 : pixelAt detailMinus.Pixels 0 0 = .ok (-30) := rfl
      have p2 : pixelAt detailPlus.Pixels 0 0 = .ok 30 := rfl
      rw [p1] at hpA; cases hpA
      rw [p2] at hpB; cases hpB
      match j, hj, hbefore with
      | 0, hj, _ =>
        have : r = -30 := by simpa using hj.symm
        rw [← this]; exact hr
      | 1, hj, hbefore =>
        have hr30 : r = 30 := by simpa using hj.symm
        have := hbefore 0 (by decide) (-30) (by simp)
        rw [hr30] at this
        norm_num at this
      | (k + 2), hj, _ => simp at hj

/-- C14 (counterexample). Three one-level pyramids whose single pixels are
`2^53`, `2^53 + 1` and `-(2^53 + 1)`: the greatest absolute value, `2^53 + 1`,
is attained by the members 1 and 2, yet the fused value is `2^53`, the value of
member 0 (all three convert to float64 values of one magnitude). -/
theorem createMaxLaplacianPyramid_huge_tie :
    createMaxLaplacianPyramid [[evenHugeImage], [hugePixelImage], [negHugeImage]] =
      .ok [{ Width := 1, Height := 1, Pixels := [[9007199254740992]] }] ∧
    pixelAt evenHugeImage.Pixels 0 0 = .ok 9007199254740992 ∧
    pixelAt hugePixelImage.Pixels 0 0 = .ok 9007199254740993 ∧
    pixelAt negHugeImage.Pixels 0 0 = .ok (-9007199254740993) ∧
    |(9007199254740992 : Int)| < |(9007199254740993 : Int)| ∧
    |(-9007199254740993 : Int)| = |(9007199254740993 : Int)| := by
  refine ⟨?_, rfl, rfl, rfl, by norm_num, by norm_num⟩
  have h0 : index [[evenHugeImage], [hugePixelImage], [negHugeImage]] 0 =
      .ok [evenHugeImage] := rfl
  have hloop : maxResponseLoop 0 0 0 [[evenHugeImage], [hugePixelImage], [negHugeImage]] 0 =
      .ok 9007199254740992 := by
    have i1 : index [evenHugeImage] 0 = .ok evenHugeImage := rfl
    have i2 : index [hugePixelImage] 0 = .ok hugePixelImage := rfl
    have i3 : index [negHugeImage] 0 = .ok negHugeImage := rfl
    have p1 : pixelAt evenHugeImage.Pixels 0 0 = .ok 9007199254740992 := rfl
    have p2 : pixelAt hugePixelImage.Pixels 0 0 = .ok 9007199254740993 := rfl
    have p3 : pixelAt negHugeImage.Pixels 0 0 = .ok (-9007199254740993) := rfl
    have f0 : fl (((0 : Int)) : ℚ) = 0 := by simp [fl_zero]
    have f1 : fl (((9007199254740992 : Int)) : ℚ) = 9007199254740992 := by
      have := fl_two_pow_53; simpa using this
    have f2 : fl (((9007199254740993 : Int)) : ℚ) = 9007199254740992 := by
      have := fl_two_pow_53_succ; simpa using this
    have f3 : fl (((-9007199254740993 : Int)) : ℚ) = -9007199254740992 := by
      have := fl_neg 9007199254740993
      rw [fl_two_pow_53_succ] at this
      simpa using this
    unfold maxResponseLoop
    simp only [i1, p1, ok_bind, f0, f1]
    rw [if_pos (by norm_num)]
    unfold maxResponseLoop
    simp only [i2, p2, ok_bind, f1, f2]
    rw [if_neg (by norm_num)]
    unfold maxResponseLoop
    simp only [i3, p3, ok_bind, f1, f3]
    rw [if_neg (by norm_num)]
    rfl
  unfold createMaxLaplacianPyramid
  simp only [h0, ok_bind]
  rw [collect_range_eq_ok_iff]
  refine ⟨rfl, fun i hi => ?_⟩
  have hi0 : i = 0 := by simpa using hi
  subst hi0
  have i1 : index [evenHugeImage] ((0 : Nat) : Int) = .ok evenHugeImage := rfl
  simp only [i1, ok_bind]
  refine bind_eq_ok_of (a := [[9007199254740992]]) ?_ rfl
  rw [makeGrid_eq_ok_iff]
  refine ⟨by decide, fun x y hx0 hx1 hy0 hy1 => ?_⟩
  have hx : x = 0 := by
    have : x < 1 := hx1
    omega
  have hy : y = 0 := by
    have : y < 1 := hy1
    omega
  subst hx hy
  exact hloop

/-! ## Small images end to end -/

/-- the logarithm argument of main for the dimension 4 -/
theorem sizeRatio_four : sizeRatio 4 = 3602879701896397 / 36028797018963968 := by
  rw [sizeRatio_eq 4 (by norm_num) (by norm_num)]
  have := fl_eval ((((4 : Int)) : ℚ) / 40) (-56) 7205759403792794
    (by norm_num) (by norm_num) (by rw [abs_lt]; constructor <;> norm_num)
  rw [this]; norm_num

theorem maxDivisions_four : maxDivisions sampleLog 4 4 = -4 := by
  have v2 : sampleLog 2 = 6243314768165359 / 9007199254740992 := by
    unfold sampleLog; norm_num
  have vq : sampleLog (3602879701896397 / 36028797018963968) =
      -(5184960683398421 / 2251799813685248) := by
    unfold sampleLog; norm_num
  have hne : sampleLog 2 ≠ 0 := by rw [v2]; norm_num
  have hfl : ⌊fl (sampleLog (sizeRatio 4) / sampleLog 2)⌋ = -4 := by
    rw [sizeRatio_four, vq, v2]
    obtain ⟨x, hx⟩ : ∃ x : ℚ, x = -(5184960683398421 / 2251799813685248) /
        (6243314768165359 / 9007199254740992) := ⟨_, rfl⟩
    rw [← hx]
    have hx1 : -(333 / 100 : ℚ) < x := by rw [hx]; norm_num
    have hx2 : x < -(332 / 100 : ℚ) := by rw [hx]; norm_num
    have hc := abs_le.mp (fl_close x)
    rw [abs_of_neg (by linarith)] at hc
    rw [Int.floor_eq_iff]
    constructor
    · push_cast; linarith [hc.1]
    · push_cast; linarith [hc.2]
  have hpos : 0 < sizeRatio 4 := by rw [sizeRatio_four]; norm_num
  have := maxDivisions_eval sampleLog 4 4 (-4) (-4) hpos hpos hne hfl hfl (by norm_num)
    (by norm_num)
  simpa using this

/-- main on a stack of two 4 by 4 images: the division count is -4 and the
allocation of the first pyramid aborts. -/
theorem main_four_by_four (a b : PGMImage) (haw : a.Width = 4) (hah : a.Height = 4)
    (hbw : b.Width = 4) (hbh : b.Height = 4) : main sampleLog [a, b] = .error .crash := by
  have hv : validateStack [a, b] = .ok () := by
    rw [validateStack_eq]
    simp [haw, hah, hbw, hbh]
  have hp : createImagePyramid a (-4) 2 = .error .crash := by
    unfold createImagePyramid
    rw [if_pos (by decide)]
  rw [main_eq, hv, haw, hah, maxDivisions_four]
  simp only [ok_bind]
  unfold fuse buildPyramids
  simp only [List.map_cons, hp, error_bind, collect_cons_error]

theorem buildPyramids_zero (image : PGMImage) :
    buildPyramids 0 image = .ok ([image], [], []) := rfl

/-- With division count 0 the pipeline returns the truncated mean of the two
images at every pixel. -/
theorem fuse_zero_spec (A B : PGMImage) (hA : A.WF) (hB : B.WF) (hw : B.Width = A.Width)
    (hh : B.Height = A.Height) :
    ∃ out, fuse [A, B] 0 = .ok out ∧ out.Width = A.Width ∧ out.Height = A.Height ∧
      Shape out.Pixels A.Height A.Width ∧
      ∀ x y : Int, 0 ≤ x → x < A.Width → 0 ≤ y → y < A.Height →
        ∃ a b p : Nat, pixelAt A.Pixels y x = .ok a ∧ pixelAt B.Pixels y x = .ok b ∧
          pixelAt out.Pixels y x = .ok p ∧ p = (a + b) / 2 := by
  have hALw : A.toLaplacian.Width = A.Width := rfl
  have hALh : A.toLaplacian.Height = A.Height := rfl
  obtain ⟨mean, hmean, mw, mh, mwf, mpix⟩ :=
    meanImages_spec A.toLaplacian [B.toLaplacian] 255
      (by
        intro image himage
        simp only [List.mem_cons, List.mem_singleton, List.not_mem_nil, or_false] at himage
        rcases himage with rfl | rfl
        · exact ⟨PGMImage.toLaplacian_WF hA, rfl, rfl⟩
        · exact ⟨PGMImage.toLaplacian_WF hB, hw, hh⟩)
      (by
        intro image himage
        simp only [List.mem_cons, List.mem_singleton, List.not_mem_nil, or_false] at himage
        rcases himage with rfl | rfl
        · exact toLaplacian_bound hA
        · exact toLaplacian_bound hB)
      (by norm_num)
  rw [hALw] at mw
  rw [hALh] at mh
  obtain ⟨out, hout, ow, oh, oS, opix⟩ := clampImage_spec mean mwf
  rw [mw] at ow
  rw [mh] at oh
  rw [mw, mh] at oS
  refine ⟨out, ?_, ow, oh, oS, fun x y hx0 hx1 hy0 hy1 => ?_⟩
  · unfold fuse
    simp only [List.map_cons, List.map_nil, buildPyramids_zero]
    refine bind_eq_ok_of (a := [([A], [], []), ([B], [], [])]) rfl ?_
    simp only [List.map_cons, List.map_nil]
    have i0 : index [[A], [B]] 0 = .ok [A] := rfl
    have iA : index [A] ((([A].length : Nat) : Int) - 1) = .ok A := rfl
    have iB : index [B] ((([A].length : Nat) : Int) - 1) = .ok B := rfl
    simp only [i0, ok_bind, iA, iB, pgmToLaplacianImageType_eq A hA,
      pgmToLaplacianImageType_eq B hB]
    refine bind_eq_ok_of (a := [A.toLaplacian, B.toLaplacian]) rfl ?_
    rw [hmean]
    refine bind_eq_ok_of (a := mean) rfl ?_
    refine bind_eq_ok_of (a := []) rfl ?_
    exact bind_eq_ok_of (a := mean) rfl hout
  · obtain ⟨a, ha, ha256, haL⟩ := toLaplacian_pixel hA hx0 hx1 hy0 hy1
    obtain ⟨b, hb, hb256, hbL⟩ := toLaplacian_pixel hB hx0 (hw ▸ hx1) hy0 (hh ▸ hy1)
    obtain ⟨vs, hvs, hm⟩ := mpix x y hx0 hx1 hy0 hy1
    obtain ⟨v, p, hv, hp, _, _, _, hpv⟩ :=
      opix x y hx0 (by rw [mw]; exact hx1) hy0 (by rw [mh]; exact hy1)
    cases hvs with
    | cons h1 hrest =>
      cases hrest with
      | cons h2 hnil =>
        cases hnil
        rw [haL] at h1
        rw [hbL] at h2
        cases h1
        cases h2
        rw [hm] at hv
        have hsum : ([(a : Int), (b : Int)].sum) = (a : Int) + (b : Int) := by simp
        have hdiv : Int.tdiv ((a : Int) + (b : Int)) (((([B.toLaplacian].length + 1 : Nat)) : Int))
            = (((a + b) / 2 : Nat) : Int) := by
          rw [Int.tdiv_eq_ediv (by omega) (by simp)]
          simp
        rw [hsum, hdiv] at hv
        cases hv
        refine ⟨a, b, p, ha, hb, hp, ?_⟩
        have := hpv (by omega) (by omega)
        exact_mod_cast this

/-- the division count of main for an image at least 40 by 40 with a side below 80 -/
theorem maxDivisions_zero (log : ℚ → ℚ) (W H : Int) (hW : 40 ≤ W) (hH : 40 ≤ H)
    (hW2 : W < 2 ^ 53) (hH2 : H < 2 ^ 53) (hsmall : W < 80 ∨ H < 80)
    (hlw : LogAccurateAt log (sizeRatio W)) (hlh : LogAccurateAt log (sizeRatio H))
    (hl2 : LogAccurateAt log 2) : maxDivisions log W H = 0 := by
  obtain ⟨a0, hne, hwn⟩ := dimension_count_nonneg log W hW hW2 hlw hl2
  obtain ⟨b0, _, hhn⟩ := dimension_count_nonneg log H hH hH2 hlh hl2
  have e19 : (40 : Int) * 2 ^ 19 = 20971520 := by norm_num
  rcases hsmall with h | h
  · obtain ⟨k, hk, _, _, hk0⟩ := dimension_count log W hW (by omega) hlw hl2
    rw [hk0 h] at hk
    have := maxDivisions_eval log W H _ _ a0 b0 hne hk rfl (by simp; omega) (by simp)
    rw [this]
    simpa using hhn
  · obtain ⟨k, hk, _, _, hk0⟩ := dimension_count log H hH (by omega) hlh hl2
    rw [hk0 h] at hk
    have := maxDivisions_eval log W H _ _ a0 b0 hne rfl hk (by simp; omega) (by simp)
    rw [this]
    simpa using hwn

/-- the value taken for `math.Log(1)` is accurate -/
theorem sampleLog_accurate_one : LogAccurateAt sampleLog 1 := by
  have v1 : sampleLog 1 = 0 := by
    unfold sampleLog; norm_num
  unfold LogAccurateAt
  rw [v1]
  simp

/-- C16 (amended). For every pair of well-formed 8-bit images of one size the
pipeline run with division count 0 (pyramids, mean of the coarsest level,
max-abs fusion, reconstruction, clamping) returns an output of that size whose
pixel at every position is the truncated mean of the two inputs; and for sizes
with 40 <= width, height and a side below 80 this is what main returns,
`math.Log` being accurate to a relative error of `10^-9` at the two arguments
main passes and at 2. -/
theorem fusion_without_levels (log : ℚ → ℚ) (A B : PGMImage) (hA : A.WF) (hB : B.WF)
    (hw : B.Width = A.Width) (hh : B.Height = A.Height) :
    (∃ out, fuse [A, B] 0 = .ok out ∧ out.Width = A.Width ∧ out.Height = A.Height ∧
      Shape out.Pixels A.Height A.Width ∧
      ∀ x y : Int, 0 ≤ x → x < A.Width → 0 ≤ y → y < A.Height →
        ∃ a b p : Nat, pixelAt A.Pixels y x = .ok a ∧ pixelAt B.Pixels y x = .ok b ∧
          pixelAt out.Pixels y x = .ok p ∧ p = (a + b) / 2) ∧
    (40 ≤ A.Width → 40 ≤ A.Height → A.Width < 2 ^ 53 → A.Height < 2 ^ 53 →
      (A.Width < 80 ∨ A.Height < 80) → LogAccurateAt log (sizeRatio A.Width) →
      LogAccurateAt log (sizeRatio A.Height) → LogAccurateAt log 2 →
      main log [A, B] = fuse [A, B] 0) := by
  refine ⟨fuse_zero_spec A B hA hB hw hh, fun h1 h2 h3 h4 h5 h6 h7 h8 => ?_⟩
  have hv : validateStack [A, B] = .ok () := by
    rw [validateStack_eq]
    simp [hw, hh]
  rw [main_eq, hv, maxDivisions_zero log _ _ h1 h2 h3 h4 h5 h6 h7 h8]
  rfl

theorem fusion_without_levels_witness :
    blockA.WF ∧ blockB.WF ∧ blockB.Width = blockA.Width ∧ blockB.Height = blockA.Height ∧
    (∃ out, fuse [blockA, blockB] 0 = .ok out ∧ out.Width = 4 ∧ out.Height = 4 ∧
      Shape out.Pixels 4 4) ∧
    LogAccurateAt sampleLog (sizeRatio (flatImage 40 40 7).Width) ∧
    LogAccurateAt sampleLog 2 ∧
    main sampleLog [flatImage 40 40 7, flatImage 40 40 9] =
      fuse [flatImage 40 40 7, flatImage 40 40 9] 0 := by
  have hr : sizeRatio (flatImage 40 40 7).Width = 1 := by
    show sizeRatio 40 = 1
    rw [sizeRatio_eq 40 (by norm_num) (by norm_num)]
    rw [show (((40 : Int)) : ℚ) / 40 = 1 by norm_num]
    exact fl_one
  have a1 : LogAccurateAt sampleLog (sizeRatio (flatImage 40 40 7).Width) := by
    rw [hr]; exact sampleLog_accurate_one
  exact ⟨by decide, by decide, rfl, rfl,
    (fusion_without_levels sampleLog blockA blockB (by decide) (by decide) rfl rfl).1.imp
      fun _ h => ⟨h.1, h.2.1, h.2.2.1, h.2.2.2.1⟩,
    a1, sampleLog_accurate.1,
    (fusion_without_levels sampleLog (flatImage 40 40 7) (flatImage 40 40 9)
      (flatImage_WF 40 40 7 (by decide)) (flatImage_WF 40 40 9 (by decide)) rfl rfl).2
      (by decide) (by decide) (by decide) (by decide) (Or.inl (by decide)) a1 a1
      sampleLog_accurate.1⟩

/-- C16 (counterexample). The 4 by 4 images `blockA` and `blockB` are well
formed and differ only in the middle 2 by 2 block, where `blockB` is brighter.
main computes the division count -4 for them (with the float64 values of
`math.Log`) and aborts in the allocation of the first pyramid: there is no
output.  Run with division count 0 the pipeline
stores 130 at position (1, 1) of the block, the mean of 60 and 200, not the
brighter value 200. -/
theorem scenario_four_by_four :
    blockA.WF ∧ blockB.WF ∧ blockA.Width = 4 ∧ blockA.Height = 4 ∧ blockB.Width = 4 ∧
    blockB.Height = 4 ∧
    (∀ x y : Int, 0 ≤ x → x < 4 → 0 ≤ y → y < 4 → ¬ ((1 ≤ x ∧ x ≤ 2) ∧ (1 ≤ y ∧ y ≤ 2)) →
      pixelAt blockA.Pixels y x = pixelAt blockB.Pixels y x) ∧
    maxDivisions sampleLog 4 4 = -4 ∧
    main sampleLog [blockA, blockB] = .error .crash ∧
    pixelAt blockA.Pixels 1 1 = .ok 60 ∧ pixelAt blockB.Pixels 1 1 = .ok 200 ∧
    ∃ out, fuse [blockA, blockB] 0 = .ok out ∧ pixelAt out.Pixels 1 1 = .ok 130 := by
  refine ⟨by decide, by decide, rfl, rfl, rfl, rfl, ?_, maxDivisions_four,
    main_four_by_four blockA blockB rfl rfl rfl rfl, rfl, rfl, ?_⟩
  · intro x y hx0 hx1 hy0 hy1 hout
    have hx : x = 0 ∨ x = 1 ∨ x = 2 ∨ x = 3 := by omega
    have hy : y = 0 ∨ y = 1 ∨ y = 2 ∨ y = 3 := by omega
    rcases hx with rfl | rfl | rfl | rfl <;> rcases hy with rfl | rfl | rfl | rfl <;>
      first
        | rfl
        | exact absurd (by decide) hout
  · obtain ⟨out, hout, _, _, _, hpix⟩ := fuse_zero_spec blockA blockB (by decide) (by decide)
      rfl rfl
    obtain ⟨a, b, p, ha, hb, hp, hpab⟩ := hpix 1 1 (by decide) (by decide) (by decide)
      (by decide)
    have ea : pixelAt blockA.Pixels 1 1 = .ok 60 := rfl
    have eb : pixelAt blockB.Pixels 1 1 = .ok 200 := rfl
    rw [ea] at ha
    rw [eb] at hb
    cases ha
    cases hb
    refine ⟨out, hout, ?_⟩
    rw [hp, hpab]

/-! ## Resampling to the own size -/

theorem clamp_int_coord (x n : Int) (hx0 : 0 ≤ x) (hx1 : x < n) (hn : n ≤ 2 ^ 53) :
    max 0 (min (x : ℚ) (fl ((n - 1 : Int) : ℚ))) = (x : ℚ) := by
  have hfl : fl ((n - 1 : Int) : ℚ) = ((n - 1 : Int) : ℚ) :=
    fl_intCast (n - 1) (by rw [abs_le]; constructor <;> omega)
  rw [hfl]
  have h1 : (x : ℚ) ≤ ((n - 1 : Int) : ℚ) := by exact_mod_cast (by omega : x ≤ n - 1)
  have h0 : (0 : ℚ) ≤ (x : ℚ) := by exact_mod_cast hx0
  rw [min_eq_left h1, max_eq_right h0]

/-- At an integer coordinate inside the image `interpolateLinear` returns the
pixel there. -/
theorem interpolateLinear_at_int (A : PGMImage) (hWF : A.WF) (hW2 : A.Width ≤ 2 ^ 53)
    (hH2 : A.Height ≤ 2 ^ 53) (x y : Int) (hx0 : 0 ≤ x) (hx1 : x < A.Width) (hy0 : 0 ≤ y)
    (hy1 : y < A.Height) :
    interpolateLinear A (x : ℚ) (y : ℚ) = pixelAt A.Pixels y x := by
  obtain ⟨p, hp, hp256⟩ := hWF.pixel hx0 hx1 hy0 hy1
  have tx : toInt ((x : Int) : ℚ) = x := toInt_intCast x (by omega) (by omega)
  have ty : toInt ((y : Int) : ℚ) = y := toInt_intCast y (by omega) (by omega)
  have hbyte : fl (((p : Nat) : Int) : ℚ) = ((p : Nat) : Int) :=
    fl_byte p (by omega) (by omega)
  have hu : toUint8 (((p : Nat) : Int) : ℚ) = p := by
    unfold toUint8
    rw [truncQ_intCast]
    omega
  have hnot : ¬ ((((p : Nat) : Int) : ℚ) > 255 ∨ (((p : Nat) : Int) : ℚ) < 0) := by
    intro h
    rcases h with h | h
    · have : ((p : Nat) : Int) > 255 := by exact_mod_cast h
      omega
    · have : ((p : Nat) : Int) < 0 := by exact_mod_cast h
      omega
  unfold interpolateLinear
  simp only [clamp_int_coord x A.Width hx0 hx1 hW2, clamp_int_coord y A.Height hy0 hy1 hH2,
    Int.floor_intCast, Int.ceil_intCast, tx, ty, hp, ok_bind, pure_eq_ok, sub_self, fl_zero,
    Int.cast_zero, mul_zero, add_zero, hbyte, if_neg hnot, hu]

/-- At an integer coordinate inside the image `interpolateLinearLaplacian`
returns the pixel there after three conversions to float64. -/
theorem interpolateLinearLaplacian_at_int (B : LaplacianImage) (hWF : B.WF)
    (hW2 : B.Width ≤ 2 ^ 53) (hH2 : B.Height ≤ 2 ^ 53) (x y : Int) (hx0 : 0 ≤ x)
    (hx1 : x < B.Width) (hy0 : 0 ≤ y) (hy1 : y < B.Height) :
    ∃ v, pixelAt B.Pixels y x = .ok v ∧
      interpolateLinearLaplacian B (x : ℚ) (y : ℚ) = .ok (toInt (fl (fl (fl (v : ℚ))))) := by
  have hS : Shape B.Pixels B.Height B.Width := hWF
  obtain ⟨v, hv, _⟩ := pixelAt_ok_of_shape hS hx0 hx1 hy0 hy1
  have tx : toInt ((x : Int) : ℚ) = x := toInt_intCast x (by omega) (by omega)
  have ty : toInt ((y : Int) : ℚ) = y := toInt_intCast y (by omega) (by omega)
  have hlen : (B.Pixels.length : Int) = B.Height := hS.1
  have hpos : 0 < B.Pixels.length := by omega
  have hrow0 : index B.Pixels 0 = .ok (B.Pixels.get ⟨0, hpos⟩) :=
    index_natCast_of_lt B.Pixels 0 hpos
  have hrl : ((B.Pixels.get ⟨0, hpos⟩).length : Int) = B.Width :=
    hS.2 _ (List.get_mem _ _ _)
  have hw0 : wrapInt 0 = 0 := by decide
  refine ⟨v, hv, ?_⟩
  unfold interpolateLinearLaplacian
  simp only [hrow0, hrl, hlen, ok_bind, clamp_int_coord x B.Width hx0 hx1 hW2,
    clamp_int_coord y B.Height hy0 hy1 hH2, Int.floor_intCast, Int.ceil_intCast, tx, ty, hv,
    pure_eq_ok, sub_self, fl_zero, hw0, Int.cast_zero, mul_zero, add_zero]

theorem ratio_one (n : Int) (h1 : 2 ≤ n) (h2 : n ≤ 2 ^ 53) :
    fdiv (fl ((n - 1 : Int) : ℚ)) (fl ((n - 1 : Int) : ℚ)) = some 1 := by
  have hfl : fl ((n - 1 : Int) : ℚ) = ((n - 1 : Int) : ℚ) :=
    fl_intCast (n - 1) (by rw [abs_le]; constructor <;> omega)
  have hne : ((n - 1 : Int) : ℚ) ≠ 0 := by
    have : (n - 1 : Int) ≠ 0 := by omega
    exact_mod_cast this
  unfold fdiv
  rw [hfl, if_neg hne, div_self hne, fl_one]

theorem scaleCoord_one (x n : Int) (hx0 : 0 ≤ x) (hx1 : x < n) (hn : n ≤ 2 ^ 53) :
    scaleCoord x (some 1) = .ok (x : ℚ) := by
  have hfl : fl (x : ℚ) = x := fl_intCast x (by rw [abs_le]; constructor <;> omega)
  rw [scaleCoord_some, mul_one, hfl, hfl]

/-- Resampling a well-formed 8-bit image to its own size returns its pixels. -/
theorem resizeImage_identity (A : PGMImage) (hWF : A.WF) (hW1 : 2 ≤ A.Width)
    (hW2 : A.Width ≤ 2 ^ 53) (hH1 : 2 ≤ A.Height) (hH2 : A.Height ≤ 2 ^ 53) :
    resizeImage A A.Width A.Height =
      .ok { Width := A.Width, Height := A.Height, MaxVal := 255, Pixels := A.Pixels } := by
  unfold resizeImage
  refine bind_eq_ok_of (a := A.Pixels) ?_ rfl
  rw [makeGrid_eq_ok_iff]
  refine ⟨hWF.1, fun x y hx0 hx1 hy0 hy1 => ?_⟩
  simp only [ratio_one A.Width hW1 hW2, ratio_one A.Height hH1 hH2,
    scaleCoord_one x A.Width hx0 hx1 hW2, scaleCoord_one y A.Height hy0 hy1 hH2, ok_bind]
  exact interpolateLinear_at_int A hWF hW2 hH2 x y hx0 hx1 hy0 hy1

/-- Resampling a well-formed signed image to its own size returns, at every
position, the pixel there after three conversions to float64. -/
theorem resizeImageLaplacian_own_size (B : LaplacianImage) (hWF : B.WF) (hW1 : 2 ≤ B.Width)
    (hW2 : B.Width ≤ 2 ^ 53) (hH1 : 2 ≤ B.Height) (hH2 : B.Height ≤ 2 ^ 53) :
    ∃ R, resizeImageLaplacian B B.Width B.Height = .ok R ∧ R.Width = B.Width ∧
      R.Height = B.Height ∧ Shape R.Pixels B.Height B.Width ∧
      ∀ x y : Int, 0 ≤ x → x < B.Width → 0 ≤ y → y < B.Height →
        ∃ v, pixelAt B.Pixels y x = .ok v ∧
          pixelAt R.Pixels y x = .ok (toInt (fl (fl (fl (v : ℚ))))) := by
  obtain ⟨G, hG⟩ := makeGrid_exists B.Height B.Width
    (fun x y => interpolateLinearLaplacian B (x : ℚ) (y : ℚ))
    (by omega) (fun _ => by omega)
    (fun x y hx0 hx1 hy0 hy1 => by
      obtain ⟨v, _, hv⟩ := interpolateLinearLaplacian_at_int B hWF hW2 hH2 x y hx0 hx1 hy0 hy1
      exact ⟨_, hv⟩)
  obtain ⟨hshape, hpt⟩ := (makeGrid_eq_ok_iff _ _ _ _).mp hG
  refine ⟨{ Width := B.Width, Height := B.Height, Pixels := G }, ?_, rfl, rfl, hshape, ?_⟩
  · unfold resizeImageLaplacian
    refine bind_eq_ok_of (a := G) ?_ rfl
    rw [makeGrid_eq_ok_iff]
    refine ⟨hshape, fun x y hx0 hx1 hy0 hy1 => ?_⟩
    simp only [ratio_one B.Width hW1 hW2, ratio_one B.Height hH1 hH2,
      scaleCoord_one x B.Width hx0 hx1 hW2, scaleCoord_one y B.Height hy0 hy1 hH2, ok_bind]
    exact hpt x y hx0 hx1 hy0 hy1
  · intro x y hx0 hx1 hy0 hy1
    obtain ⟨v, hv, hval⟩ := interpolateLinearLaplacian_at_int B hWF hW2 hH2 x y hx0 hx1 hy0 hy1
    refine ⟨v, hv, ?_⟩
    rw [← hpt x y hx0 hx1 hy0 hy1]
    exact hval

/-- C12 (amended). Resampling identity: for a well-formed 8-bit image `A` and a
well-formed signed image `B` whose values have magnitude at most `2^53` (sides
between 2 and 2^53), `resizeImage` called with the own width and height of `A`
returns the pixels of `A`, and `resizeImageLaplacian` called with the own width
and height of `B` returns the pixels of `B`. -/
theorem resampling_identity (A : PGMImage) (B : LaplacianImage) (hA : A.WF) (hB : B.WF)
    (aW1 : 2 ≤ A.Width) (aW2 : A.Width ≤ 2 ^ 53) (aH1 : 2 ≤ A.Height) (aH2 : A.Height ≤ 2 ^ 53)
    (bW1 : 2 ≤ B.Width) (bW2 : B.Width ≤ 2 ^ 53) (bH1 : 2 ≤ B.Height) (bH2 : B.Height ≤ 2 ^ 53)
    (hbound : ∀ row ∈ B.Pixels, ∀ p ∈ row, |p| ≤ 2 ^ 53) :
    (∃ R, resizeImage A A.Width A.Height = .ok R ∧ R.Width = A.Width ∧
      R.Height = A.Height ∧ R.Pixels = A.Pixels) ∧
    ∃ R, resizeImageLaplacian B B.Width B.Height = .ok R ∧ R.Width = B.Width ∧
      R.Height = B.Height ∧ R.Pixels = B.Pixels := by
  refine ⟨⟨_, resizeImage_identity A hA aW1 aW2 aH1 aH2, rfl, rfl, rfl⟩, ?_⟩
  obtain ⟨R, hR, rw1, rh1, rS, rpix⟩ := resizeImageLaplacian_own_size B hB bW1 bW2 bH1 bH2
  refine ⟨R, hR, rw1, rh1, ?_⟩
  have hS : Shape B.Pixels B.Height B.Width := hB
  refine grid_ext rS hS (fun x y hx0 hx1 hy0 hy1 => ?_)
  obtain ⟨v, hv, hval⟩ := rpix x y hx0 hx1 hy0 hy1
  obtain ⟨v1, hv1, row, hrow, hmem⟩ := pixelAt_ok_of_shape hS hx0 hx1 hy0 hy1
  rw [hv] at hv1
  cases hv1
  have hb := hbound row hrow v hmem
  have hb2 := abs_le.mp hb
  rw [hval, hv, fl_intCast v hb, fl_intCast v hb, fl_intCast v hb,
    toInt_intCast v (by omega) (by omega)]

theorem resampling_identity_witness :
    tinyImage.WF ∧ smallGrid.WF ∧ (∀ row ∈ smallGrid.Pixels, ∀ p ∈ row, |p| ≤ 2 ^ 53) ∧
    (∃ R, resizeImage tinyImage tinyImage.Width tinyImage.Height = .ok R ∧
      R.Width = tinyImage.Width ∧ R.Height = tinyImage.Height ∧ R.Pixels = tinyImage.Pixels) ∧
    ∃ R, resizeImageLaplacian smallGrid smallGrid.Width smallGrid.Height = .ok R ∧
      R.Width = smallGrid.Width ∧ R.Height = smallGrid.Height ∧
      R.Pixels = smallGrid.Pixels :=
  ⟨by decide, by decide, by decide,
    resampling_identity tinyImage smallGrid (by decide) (by decide) (by decide) (by decide)
      (by decide) (by decide) (by decide) (by decide) (by decide) (by decide) (by decide)⟩

/-- C12 (counterexample). The well-formed 2 by 2 signed image `hugeGrid` has the
pixel `2^53 + 1` at position (0, 0); resampled to its own size 2 by 2 the pixel
there is `2^53`: the interpolation converts the sample to float64. -/
theorem resizeImageLaplacian_huge_pixel :
    hugeGrid.WF ∧ hugeGrid.Width = 2 ∧ hugeGrid.Height = 2 ∧
    pixelAt hugeGrid.Pixels 0 0 = .ok 9007199254740993 ∧
    ∃ R, resizeImageLaplacian hugeGrid 2 2 = .ok R ∧
      pixelAt R.Pixels 0 0 = .ok 9007199254740992 := by
  refine ⟨by decide, rfl, rfl, rfl, ?_⟩
  obtain ⟨R, hR, _, _, _, rpix⟩ := resizeImageLaplacian_own_size hugeGrid (by decide)
    (by decide) (by decide) (by decide) (by decide)
  obtain ⟨v, hv, hval⟩ := rpix 0 0 (by decide) (by decide) (by decide) (by decide)
  have e : pixelAt hugeGrid.Pixels 0 0 = .ok 9007199254740993 := rfl
  rw [e] at hv
  cases hv
  have c : (((9007199254740993 : Int)) : ℚ) = 9007199254740993 := by norm_num
  have t : toInt (9007199254740992 : ℚ) = 9007199254740992 := by
    have := toInt_intCast 9007199254740992 (by norm_num) (by norm_num)
    simpa using this
  rw [c, fl_two_pow_53_succ, fl_two_pow_53, fl_two_pow_53, t] at hval
  exact ⟨R, hR, hval⟩

/-! ## Finer facts about rounding -/

/-- The rounding of a positive rational is a significand in `[2^52, 2^53]`
times the power of two of its binade. -/
theorem flAbs_repr {a : ℚ} (ha : 0 < a) :
    ∃ R : ℕ, 2 ^ 52 ≤ R ∧ R ≤ 2 ^ 53 ∧ flAbs a = (R : ℚ) * 2 ^ (Int.log 2 a - 52) := by
  obtain ⟨h1, h2⟩ := scaled_bounds ha
  have e1 : ((2 : ℚ) ^ (52 : ℤ)) = (((2 : ℤ) ^ 52 : ℤ) : ℚ) := by norm_num
  have e2 : ((2 : ℚ) ^ (53 : ℤ)) = (((2 : ℤ) ^ 53 : ℤ) : ℚ) := by norm_num
  have l1 : (2 : ℤ) ^ 52 ≤ roundHalfEven (a / 2 ^ (Int.log 2 a - 52)) := by
    have := roundHalfEven_mono h1
    rwa [e1, roundHalfEven_intCast] at this
  have l2 : roundHalfEven (a / 2 ^ (Int.log 2 a - 52)) ≤ (2 : ℤ) ^ 53 := by
    have := roundHalfEven_mono h2.le
    rwa [e2, roundHalfEven_intCast] at this
  obtain ⟨R, hR⟩ := Int.eq_ofNat_of_zero_le (a := roundHalfEven (a / 2 ^ (Int.log 2 a - 52)))
    (by omega)
  refine ⟨R, ?_, ?_, ?_⟩
  · have : (2 : ℤ) ^ 52 ≤ (R : ℤ) := by rw [← hR]; exact l1
    exact_mod_cast this
  · have : (R : ℤ) ≤ (2 : ℤ) ^ 53 := by rw [← hR]; exact l2
    exact_mod_cast this
  · unfold flAbs
    rw [hR]
    norm_cast

theorem fl_repr_exact (R : ℕ) (k : ℤ) (hR : R ≤ 2 ^ 53) :
    fl ((R : ℚ) * 2 ^ k) = (R : ℚ) * 2 ^ k := by
  rcases Nat.lt_or_ge R (2 ^ 53) with h | h
  · exact fl_natCast_mul_zpow R k h
  · have hR2 : R = 2 ^ 53 := le_antisymm hR h
    have e : (R : ℚ) * 2 ^ k = ((2 ^ 52 : ℕ) : ℚ) * 2 ^ (k + 1) := by
      rw [hR2, zpow_add₀ (by norm_num : (2 : ℚ) ≠ 0)]
      push_cast
      ring
    rw [e]
    exact fl_natCast_mul_zpow (2 ^ 52) (k + 1) (by norm_num)

/-- Rounding is idempotent. -/
theorem fl_fl (q : ℚ) : fl (fl q) = fl q := by
  have key : ∀ a : ℚ, 0 < a → fl (fl a) = fl a := by
    intro a ha
    obtain ⟨R, _, hR, hrepr⟩ := flAbs_repr ha
    rw [fl_of_nonneg ha.le, hrepr]
    exact fl_repr_exact R _ hR
  rcases lt_trichotomy q 0 with h | h | h
  · have := key (-q) (by linarith)
    rw [fl_neg, fl_neg] at this
    linarith
  · subst h; rw [fl_zero, fl_zero]
  · exact key q h

/-- The rounding error of a positive rational is at most half a unit in the
last place of its binade. -/
theorem fl_err_ulp {a : ℚ} (ha : 0 < a) : |fl a - a| ≤ 2 ^ (Int.log 2 a - 53) := by
  have hs := two_zpow_pos (Int.log 2 a - 52)
  have herr := roundHalfEven_err (a / 2 ^ (Int.log 2 a - 52))
  have key : flAbs a - a =
      ((roundHalfEven (a / 2 ^ (Int.log 2 a - 52)) : ℚ) - a / 2 ^ (Int.log 2 a - 52)) *
        2 ^ (Int.log 2 a - 52) := by
    unfold flAbs; field_simp
  rw [fl_of_nonneg ha.le, key, abs_mul, abs_of_pos hs]
  calc _ ≤ 1 / 2 * (2 : ℚ) ^ (Int.log 2 a - 52) := mul_le_mul_of_nonneg_right herr hs.le
    _ = 2 ^ (Int.log 2 a - 53) := by
        have : Int.log 2 a - 53 = (Int.log 2 a - 52) + (-1) := by ring
        rw [this, zpow_add₀ (by norm_num : (2 : ℚ) ≠ 0)]
        norm_num; ring

/-- A byte `M` has an even significand: whatever exceeds it by at most half a
unit in the last place rounds to at most `M`. -/
theorem fl_le_int (M : Int) (hM1 : 1 ≤ M) (hM2 : M ≤ 255) {q : ℚ}
    (hq : q ≤ (M : ℚ) + 2 ^ (Int.log 2 (M : ℚ) - 53)) : fl q ≤ (M : ℚ) := by
  have hMq1 : (1 : ℚ) ≤ (M : ℚ) := by exact_mod_cast hM1
  have hMq2 : (M : ℚ) ≤ 255 := by exact_mod_cast hM2
  have hMpos : (0 : ℚ) < (M : ℚ) := by linarith
  rcases le_or_lt q (M : ℚ) with hle | hlt
  · have := fl_mono hle
    rwa [fl_byte M (by omega) hM2] at this
  obtain ⟨hk1, hk2⟩ := log_spec hMpos
  have hk0 : 0 ≤ Int.log 2 (M : ℚ) :=
    (Int.zpow_le_iff_le_log (b := 2) (by norm_num) hMpos (x := 0)).mp (by simpa using hMq1)
  obtain ⟨n, hn⟩ := Int.eq_ofNat_of_zero_le hk0
  rw [hn] at hk1 hk2 hq
  rw [zpow_natCast] at hk1
  have hn7 : n ≤ 7 := by
    by_contra hcon
    have h8 : (2 : ℚ) ^ 8 ≤ 2 ^ n := pow_le_pow_right₀ (by norm_num) (by omega)
    norm_num at h8
    linarith
  have hk2z : M + 1 ≤ 2 ^ (n + 1) := by
    have e : ((n : ℤ) + 1) = ((n + 1 : ℕ) : ℤ) := by push_cast; ring
    rw [e, zpow_natCast] at hk2
    have : (M : ℚ) < (((2 : ℤ) ^ (n + 1) : ℤ) : ℚ) := by push_cast; exact hk2
    have : M < 2 ^ (n + 1) := by exact_mod_cast this
    omega
  have hk2q : (M : ℚ) + 1 ≤ 2 ^ ((n : ℤ) + 1) := by
    have e : ((n : ℤ) + 1) = ((n + 1 : ℕ) : ℤ) := by push_cast; ring
    rw [e, zpow_natCast]
    have : ((M + 1 : ℤ) : ℚ) ≤ (((2 : ℤ) ^ (n + 1) : ℤ) : ℚ) := by exact_mod_cast hk2z
    push_cast at this
    exact this
  have hhalf : (2 : ℚ) ^ ((n : ℤ) - 53) ≤ 1 / 2 := by
    calc (2 : ℚ) ^ ((n : ℤ) - 53) ≤ 2 ^ (-1 : ℤ) := zpow_le_zpow_right₀ (by norm_num) (by omega)
      _ = 1 / 2 := by norm_num
  have hqpos : 0 < q := by linarith
  have hlogq : Int.log 2 q = (n : ℤ) := by
    apply log_unique
    · rw [zpow_natCast]; linarith
    · linarith
  have hu := two_zpow_pos ((n : ℤ) - 52)
  obtain ⟨e, he⟩ : ∃ e : ℕ, e + n = 51 := ⟨51 - n, by omega⟩
  have hS : (M : ℚ) / 2 ^ ((n : ℤ) - 52) = (((M * 2 ^ (e + 1) : ℤ)) : ℚ) := by
    rw [div_eq_iff hu.ne']
    push_cast
    rw [mul_assoc, ← zpow_natCast, ← zpow_add₀ (by norm_num : (2 : ℚ) ≠ 0)]
    have : (((e + 1 : ℕ)) : ℤ) + ((n : ℤ) - 52) = 0 := by push_cast; omega
    rw [this]; simp
  have hh : (2 : ℚ) ^ ((n : ℤ) - 53) / 2 ^ ((n : ℤ) - 52) = 1 / 2 := by
    rw [← zpow_sub₀ (by norm_num : (2 : ℚ) ≠ 0)]
    have : (n : ℤ) - 53 - ((n : ℤ) - 52) = -1 := by ring
    rw [this]; norm_num
  have hsc1 : (((M * 2 ^ (e + 1) : ℤ)) : ℚ) < q / 2 ^ ((n : ℤ) - 52) := by
    rw [← hS]; exact div_lt_div_of_pos_right hlt hu
  have hsc2 : q / 2 ^ ((n : ℤ) - 52) ≤ (((M * 2 ^ (e + 1) : ℤ)) : ℚ) + 1 / 2 := by
    rw [← hS, ← hh, ← add_div]; exact div_le_div_of_nonneg_right hq hu.le
  have hfloor : ⌊q / 2 ^ ((n : ℤ) - 52)⌋ = M * 2 ^ (e + 1) := by
    rw [Int.floor_eq_iff]; constructor <;> linarith
  have heven : (M * 2 ^ (e + 1)) % 2 = 0 := by
    rw [pow_succ, ← mul_assoc]; exact Int.mul_emod_left _ _
  have hround : roundHalfEven (q / 2 ^ ((n : ℤ) - 52)) = M * 2 ^ (e + 1) := by
    unfold roundHalfEven
    rw [hfloor]
    split_ifs with c1 c2
    · rfl
    · exfalso; linarith
    · rfl
  rw [fl_of_nonneg hqpos.le]
  unfold flAbs
  rw [hlogq, hround, ← hS, div_mul_cancel₀ _ hu.ne']

/-- The sum `t + fl (M - t)` never rounds above the byte `M`. -/
theorem fl_add_fl_sub_le (M : Int) (hM : M ≤ 255) (t : ℚ) (ht0 : 0 ≤ t) (htM : t ≤ (M : ℚ)) :
    fl (t + fl ((M : ℚ) - t)) ≤ (M : ℚ) := by
  rcases eq_or_lt_of_le htM with heq | hlt
  · have hM0 : 0 ≤ M := by
      have : (0 : ℚ) ≤ (M : ℚ) := by linarith
      exact_mod_cast this
    rw [heq, sub_self, fl_zero, add_zero, fl_byte M (by omega) hM]
  · have hMpos : (0 : ℚ) < (M : ℚ) := by linarith
    have hM1 : 1 ≤ M := by
      have : 0 < M := by exact_mod_cast hMpos
      omega
    have ha : 0 < (M : ℚ) - t := by linarith
    have herr := (abs_le.mp (fl_err_ulp ha)).2
    have hlog : Int.log 2 ((M : ℚ) - t) ≤ Int.log 2 (M : ℚ) :=
      Int.log_mono_right ha (by linarith)
    have hpow : (2 : ℚ) ^ (Int.log 2 ((M : ℚ) - t) - 53) ≤ 2 ^ (Int.log 2 (M : ℚ) - 53) :=
      zpow_le_zpow_right₀ (by norm_num) (by omega)
    exact fl_le_int M hM1 hM (by linarith)

/-- Subtracting a float64 value of at most 256 from a smaller non-negative
integer is exact. -/
theorem fl_sub_int_exact (t : ℚ) (ht : fl t = t) (m : Int) (hm0 : 0 ≤ m) (hmt : (m : ℚ) ≤ t)
    (ht2 : t ≤ 256) : fl ((m : ℚ) - t) = (m : ℚ) - t := by
  have hmq : (0 : ℚ) ≤ (m : ℚ) := by exact_mod_cast hm0
  rcases eq_or_lt_of_le (le_trans hmq hmt) with h0 | hpos
  · have : (m : ℚ) = 0 := by linarith
    rw [← h0, this, sub_self, fl_zero]
  obtain ⟨R, _, hR, hrepr⟩ := flAbs_repr hpos
  rw [← fl_of_nonneg hpos.le, ht] at hrepr
  obtain ⟨hl1, _⟩ := log_spec hpos
  have hL : Int.log 2 t ≤ 8 := by
    by_contra hcon
    have h9 : (2 : ℚ) ^ (9 : ℤ) ≤ 2 ^ Int.log 2 t := zpow_le_zpow_right₀ (by norm_num) (by omega)
    norm_num at h9
    linarith
  obtain ⟨e, he⟩ := Int.eq_ofNat_of_zero_le (a := 52 - Int.log 2 t) (by omega)
  have hu := two_zpow_pos (Int.log 2 t - 52)
  have hm : (m : ℚ) = (((m * 2 ^ e : ℤ)) : ℚ) * 2 ^ (Int.log 2 t - 52) := by
    push_cast
    rw [mul_assoc, ← zpow_natCast, ← zpow_add₀ (by norm_num : (2 : ℚ) ≠ 0), ← he]
    have : 52 - Int.log 2 t + (Int.log 2 t - 52) = 0 := by ring
    rw [this]; simp
  have hdiff : t - (m : ℚ) = ((((R : ℤ) - m * 2 ^ e : ℤ)) : ℚ) * 2 ^ (Int.log 2 t - 52) := by
    have : ((((R : ℤ) - m * 2 ^ e : ℤ)) : ℚ) = (R : ℚ) - (((m * 2 ^ e : ℤ)) : ℚ) := by
      push_cast; ring
    rw [this, sub_mul, ← hm, ← hrepr]
  have hN0 : 0 ≤ (R : ℤ) - m * 2 ^ e := by
    have h1 : 0 ≤ ((((R : ℤ) - m * 2 ^ e : ℤ)) : ℚ) * 2 ^ (Int.log 2 t - 52) := by
      rw [← hdiff]; linarith
    have h2 : 0 ≤ ((((R : ℤ) - m * 2 ^ e : ℤ)) : ℚ) := nonneg_of_mul_nonneg_left h1 hu
    exact_mod_cast h2
  obtain ⟨N, hN⟩ := Int.eq_ofNat_of_zero_le hN0
  have hN53 : N ≤ 2 ^ 53 := by
    have h1 : (0 : ℤ) ≤ m * 2 ^ e := mul_nonneg hm0 (by positivity)
    have h2 : (N : ℤ) ≤ (R : ℤ) := by omega
    have h3 : N ≤ R := by exact_mod_cast h2
    omega
  have hexact := fl_repr_exact N (Int.log 2 t - 52) hN53
  have hN' : ((((R : ℤ) - m * 2 ^ e : ℤ)) : ℚ) = (N : ℚ) := by rw [hN]; norm_cast
  rw [hN'] at hdiff
  have e2 : (m : ℚ) - t = -(t - (m : ℚ)) := by ring
  rw [e2, fl_neg, hdiff, hexact]

/-! ## The interpolated value stays between the samples -/

/-- One linear interpolation between two bytes in `[lo, hi]` stays in `[lo, hi]`. -/
theorem lerp_between (a c lo hi : Int) (t : ℚ) (hlo : 0 ≤ lo) (hhi : hi ≤ 255)
    (ha0 : lo ≤ a) (ha1 : a ≤ hi) (hc0 : lo ≤ c) (hc1 : c ≤ hi) (ht0 : 0 ≤ t) (ht1 : t ≤ 1) :
    (lo : ℚ) ≤ fl (fl (a : ℚ) + fl (fl ((c - a : Int) : ℚ) * t)) ∧
      fl (fl (a : ℚ) + fl (fl ((c - a : Int) : ℚ) * t)) ≤ (hi : ℚ) := by
  rw [fl_byte a (by omega) (by omega), fl_byte (c - a) (by omega) (by omega)]
  have haq0 : (lo : ℚ) ≤ a := by exact_mod_cast ha0
  have haq1 : (a : ℚ) ≤ hi := by exact_mod_cast ha1
  have hcq0 : (lo : ℚ) ≤ c := by exact_mod_cast hc0
  have hcq1 : (c : ℚ) ≤ hi := by exact_mod_cast hc1
  have hd : (((c - a : Int) : ℚ)) = (c : ℚ) - a := by push_cast; ring
  have key : (lo : ℚ) ≤ (a : ℚ) + fl (((c - a : Int) : ℚ) * t) ∧
      (a : ℚ) + fl (((c - a : Int) : ℚ) * t) ≤ hi := by
    rcases le_total a c with hac | hca
    · have hq : (0 : ℚ) ≤ ((c - a : Int) : ℚ) := by exact_mod_cast (by omega : (0 : Int) ≤ c - a)
      have p0 : 0 ≤ fl (((c - a : Int) : ℚ) * t) := fl_nonneg (mul_nonneg hq ht0)
      have p1 : fl (((c - a : Int) : ℚ) * t) ≤ ((c - a : Int) : ℚ) := by
        have := fl_mono (mul_le_of_le_one_right hq ht1)
        rwa [fl_byte (c - a) (by omega) (by omega)] at this
      constructor <;> linarith
    · have hq : ((c - a : Int) : ℚ) ≤ 0 := by exact_mod_cast (by omega : c - a ≤ (0 : Int))
      have p0 : fl (((c - a : Int) : ℚ) * t) ≤ 0 := fl_nonpos (mul_nonpos_of_nonpos_of_nonneg hq ht0)
      have p1 : ((c - a : Int) : ℚ) ≤ fl (((c - a : Int) : ℚ) * t) := by
        have h' : ((c - a : Int) : ℚ) ≤ ((c - a : Int) : ℚ) * t := by nlinarith
        have := fl_mono h'
        rwa [fl_byte (c - a) (by omega) (by omega)] at this
      constructor <;> linarith
  constructor
  · have := fl_mono key.1
    rwa [fl_byte lo (by omega) (by omega)] at this
  · have := fl_mono key.2
    rwa [fl_byte hi (by omega) (by omega)] at this

/-- The second interpolation, between two float64 values in `[lo, hi]`, stays
in `[lo, hi]`. -/
theorem blend_between (t b dy : ℚ) (lo hi : Int) (hlo : 0 ≤ lo) (hhi : hi ≤ 255)
    (ht : fl t = t) (ht0 : (lo : ℚ) ≤ t) (ht1 : t ≤ (hi : ℚ)) (hb0 : (lo : ℚ) ≤ b)
    (hb1 : b ≤ (hi : ℚ)) (hd0 : 0 ≤ dy) (hd1 : dy ≤ 1) :
    (lo : ℚ) ≤ fl (t + fl (fl (b - t) * dy)) ∧ fl (t + fl (fl (b - t) * dy)) ≤ (hi : ℚ) := by
  have hloq : (0 : ℚ) ≤ (lo : ℚ) := by exact_mod_cast hlo
  have hhiq : (hi : ℚ) ≤ 255 := by exact_mod_cast hhi
  have hlohi : lo ≤ hi := by
    have : (lo : ℚ) ≤ (hi : ℚ) := le_trans ht0 ht1
    exact_mod_cast this
  have flo : fl (lo : ℚ) = lo := fl_byte lo (by omega) (by omega)
  have fhi : fl (hi : ℚ) = hi := fl_byte hi (by omega) (by omega)
  have hdd : fl (fl (b - t)) = fl (b - t) := fl_fl _
  rcases le_total t b with htb | hbt
  · have d0 : 0 ≤ fl (b - t) := fl_nonneg (by linarith)
    have p0 : 0 ≤ fl (fl (b - t) * dy) := fl_nonneg (mul_nonneg d0 hd0)
    constructor
    · have := fl_mono (show (lo : ℚ) ≤ t + fl (fl (b - t) * dy) by linarith)
      rwa [flo] at this
    · have d1 : fl (b - t) ≤ fl ((hi : ℚ) - t) := fl_mono (by linarith)
      have p1 : fl (fl (b - t) * dy) ≤ fl (b - t) := by
        have := fl_mono (mul_le_of_le_one_right d0 hd1)
        rwa [hdd] at this
      have hsum : t + fl (fl (b - t) * dy) ≤ t + fl ((hi : ℚ) - t) := by linarith
      exact le_trans (fl_mono hsum) (fl_add_fl_sub_le hi hhi t (by linarith) ht1)
  · have d0 : fl (b - t) ≤ 0 := fl_nonpos (by linarith)
    have p0 : fl (fl (b - t) * dy) ≤ 0 := fl_nonpos (mul_nonpos_of_nonpos_of_nonneg d0 hd0)
    constructor
    · have hex : fl ((lo : ℚ) - t) = (lo : ℚ) - t :=
        fl_sub_int_exact t ht lo hlo ht0 (by linarith)
      have d1 : (lo : ℚ) - t ≤ fl (b - t) := by
        have := fl_mono (show (lo : ℚ) - t ≤ b - t by linarith)
        rwa [hex] at this
      have p1 : fl (b - t) ≤ fl (fl (b - t) * dy) := by
        have h' : fl (b - t) ≤ fl (b - t) * dy := by nlinarith
        have := fl_mono h'
        rwa [hdd] at this
      have := fl_mono (show (lo : ℚ) ≤ t + fl (fl (b - t) * dy) by linarith)
      rwa [flo] at this
    · have := fl_mono (show t + fl (fl (b - t) * dy) ≤ (hi : ℚ) by linarith)
      rwa [fhi] at this

/-- The blend of four bytes in `[lo, hi]` lies in `[lo, hi]`. -/
theorem bilinear_between (tl tr bl br lo hi : Int) (dx dy : ℚ) (hlo : 0 ≤ lo) (hhi : hi ≤ 255)
    (h1 : lo ≤ tl ∧ tl ≤ hi) (h2 : lo ≤ tr ∧ tr ≤ hi) (h3 : lo ≤ bl ∧ bl ≤ hi)
    (h4 : lo ≤ br ∧ br ≤ hi) (hx0 : 0 ≤ dx) (hx1 : dx ≤ 1) (hy0 : 0 ≤ dy) (hy1 : dy ≤ 1) :
    (lo : ℚ) ≤ bilinear tl tr bl br dx dy ∧ bilinear tl tr bl br dx dy ≤ (hi : ℚ) := by
  obtain ⟨t0, t1⟩ := lerp_between tl tr lo hi dx hlo hhi h1.1 h1.2 h2.1 h2.2 hx0 hx1
  obtain ⟨b0, b1⟩ := lerp_between bl br lo hi dx hlo hhi h3.1 h3.2 h4.1 h4.2 hx0 hx1
  unfold bilinear
  exact blend_between _ _ dy lo hi hlo hhi (fl_fl _) t0 t1 b0 b1 hy0 hy1

/-- Narrowing a value in `[lo, hi]` gives a byte in `[lo, hi]`. -/
theorem toUint8_between (v : ℚ) (lo hi : Int) (hlo : 0 ≤ lo) (hhi : hi ≤ 255)
    (h0 : (lo : ℚ) ≤ v) (h1 : v ≤ (hi : ℚ)) :
    lo ≤ ((toUint8 v : Nat) : Int) ∧ ((toUint8 v : Nat) : Int) ≤ hi := by
  have hv0 : 0 ≤ v := le_trans (by exact_mod_cast hlo) h0
  have f0 : lo ≤ ⌊v⌋ := Int.le_floor.mpr h0
  have f1 : ⌊v⌋ ≤ hi := by
    have : ((⌊v⌋ : Int) : ℚ) ≤ (hi : ℚ) := le_trans (Int.floor_le v) h1
    exact_mod_cast this
  unfold toUint8 truncQ
  rw [if_pos hv0]
  omega

theorem pixelAt_ok_mem {α : Type} {G : List (List α)} {y x : Int} {v : α}
    (h : pixelAt G y x = .ok v) : ∃ row ∈ G, v ∈ row := by
  unfold pixelAt at h
  obtain ⟨row, hrow, hv⟩ := (bind_eq_ok_iff _ _ _).mp h
  exact ⟨row, (index_eq_ok_lt hrow).2.2, (index_eq_ok_lt hv).2.2⟩

/-- What `interpolateLinear` reads and computes on a well-formed image: the four
samples around the clamped coordinate, their blend, and the narrowing of the
range-checked blend. -/
theorem interpolateLinear_reads (A : PGMImage) (hWF : A.WF) (hW1 : 1 ≤ A.Width)
    (hW2 : A.Width ≤ 2 ^ 53) (hH1 : 1 ≤ A.Height) (hH2 : A.Height ≤ 2 ^ 53) (x y : ℚ) :
    ∃ (tl tr bl br : Nat) (v : ℚ),
      pixelAt A.Pixels ⌊clampCoord y A.Height⌋ ⌊clampCoord x A.Width⌋ = .ok tl ∧
      pixelAt A.Pixels ⌊clampCoord y A.Height⌋ ⌈clampCoord x A.Width⌉ = .ok tr ∧
      pixelAt A.Pixels ⌈clampCoord y A.Height⌉ ⌊clampCoord x A.Width⌋ = .ok bl ∧
      pixelAt A.Pixels ⌈clampCoord y A.Height⌉ ⌈clampCoord x A.Width⌉ = .ok br ∧
      tl < 256 ∧ tr < 256 ∧ bl < 256 ∧ br < 256 ∧
      v = bilinear tl tr bl br
        (fl (clampCoord x A.Width - ((⌊clampCoord x A.Width⌋ : Int) : ℚ)))
        (fl (clampCoord y A.Height - ((⌊clampCoord y A.Height⌋ : Int) : ℚ))) ∧
      interpolateLinearValue A x y = .ok v ∧
      interpolateLinear A x y =
        .ok (toUint8 (if v > 255 ∨ v < 0 then (if v < 0 then 0 else 255) else v)) := by
  obtain ⟨cx0, cx1⟩ := clampCoord_range x A.Width hW1 hW2
  obtain ⟨cy0, cy1⟩ := clampCoord_range y A.Height hH1 hH2
  obtain ⟨fx, fx0, fx1⟩ := toInt_floor_range cx0 cx1 hW2
  obtain ⟨gx, gx0, gx1⟩ := toInt_ceil_range cx0 cx1 hW2
  obtain ⟨fy, fy0, fy1⟩ := toInt_floor_range cy0 cy1 hH2
  obtain ⟨gy, gy0, gy1⟩ := toInt_ceil_range cy0 cy1 hH2
  obtain ⟨tl, htl, tl1⟩ := hWF.pixel fx0 fx1 fy0 fy1
  obtain ⟨tr, htr, tr1⟩ := hWF.pixel gx0 gx1 fy0 fy1
  obtain ⟨bl, hbl, bl1⟩ := hWF.pixel fx0 fx1 gy0 gy1
  obtain ⟨br, hbr, br1⟩ := hWF.pixel gx0 gx1 gy0 gy1
  refine ⟨tl, tr, bl, br, _, htl, htr, hbl, hbr, tl1, tr1, bl1, br1, rfl, ?_, ?_⟩
  · unfold interpolateLinearValue clampCoord bilinear
    simp only [fx, gx, fy, gy, htl, htr, hbl, hbr, ok_bind, pure_eq_ok]
  · unfold interpolateLinear clampCoord bilinear
    simp only [fx, gx, fy, gy, htl, htr, hbl, hbr, ok_bind, pure_eq_ok]

/-- The value `interpolateLinear` computes lies in every byte range that holds
its four samples; the range check passes and the narrowed value lies in the
same range. -/
theorem interpolateLinear_samples (A : PGMImage) (hWF : A.WF) (hW1 : 1 ≤ A.Width)
    (hW2 : A.Width ≤ 2 ^ 53) (hH1 : 1 ≤ A.Height) (hH2 : A.Height ≤ 2 ^ 53) (x y : ℚ) :
    ∃ (tl tr bl br : Nat) (v : ℚ),
      pixelAt A.Pixels ⌊clampCoord y A.Height⌋ ⌊clampCoord x A.Width⌋ = .ok tl ∧
      pixelAt A.Pixels ⌊clampCoord y A.Height⌋ ⌈clampCoord x A.Width⌉ = .ok tr ∧
      pixelAt A.Pixels ⌈clampCoord y A.Height⌉ ⌊clampCoord x A.Width⌋ = .ok bl ∧
      pixelAt A.Pixels ⌈clampCoord y A.Height⌉ ⌈clampCoord x A.Width⌉ = .ok br ∧
      interpolateLinearValue A x y = .ok v ∧ 0 ≤ v ∧ v ≤ 255 ∧
      interpolateLinear A x y = .ok (toUint8 v) ∧
      ∀ lo hi : Int, 0 ≤ lo → hi ≤ 255 → lo ≤ tl → lo ≤ tr → lo ≤ bl → lo ≤ br →
        (tl : Int) ≤ hi → (tr : Int) ≤ hi → (bl : Int) ≤ hi → (br : Int) ≤ hi →
        (lo : ℚ) ≤ v ∧ v ≤ (hi : ℚ) ∧ lo ≤ ((toUint8 v : Nat) : Int) ∧
          ((toUint8 v : Nat) : Int) ≤ hi := by
  obtain ⟨tl, tr, bl, br, v, htl, htr, hbl, hbr, tl1, tr1, bl1, br1, hv, hval, hres⟩ :=
    interpolateLinear_reads A hWF hW1 hW2 hH1 hH2 x y
  obtain ⟨dx0, dx1⟩ := frac_range (clampCoord x A.Width)
  obtain ⟨dy0, dy1⟩ := frac_range (clampCoord y A.Height)
  have hrange : ∀ lo hi : Int, 0 ≤ lo → hi ≤ 255 → lo ≤ tl → lo ≤ tr → lo ≤ bl → lo ≤ br →
      (tl : Int) ≤ hi → (tr : Int) ≤ hi → (bl : Int) ≤ hi → (br : Int) ≤ hi →
      (lo : ℚ) ≤ v ∧ v ≤ (hi : ℚ) := by
    intro lo hi hlo hhi a1 a2 a3 a4 b1 b2 b3 b4
    rw [hv]
    exact bilinear_between _ _ _ _ lo hi _ _ hlo hhi ⟨a1, b1⟩ ⟨a2, b2⟩ ⟨a3, b3⟩ ⟨a4, b4⟩
      dx0 dx1 dy0 dy1
  obtain ⟨v0, v1⟩ := hrange 0 255 (by omega) (by omega) (by omega) (by omega) (by omega)
    (by omega) (by omega) (by omega) (by omega) (by omega)
  have v0' : (0 : ℚ) ≤ v := by simpa using v0
  have v1' : v ≤ 255 := by simpa using v1
  have hnot : ¬ (v > 255 ∨ v < 0) := by
    intro h
    rcases h with h | h <;> linarith
  rw [if_neg hnot] at hres
  refine ⟨tl, tr, bl, br, v, htl, htr, hbl, hbr, hval, v0', v1', hres, ?_⟩
  intro lo hi hlo hhi a1 a2 a3 a4 b1 b2 b3 b4
  obtain ⟨r0, r1⟩ := hrange lo hi hlo hhi a1 a2 a3 a4 b1 b2 b3 b4
  obtain ⟨u0, u1⟩ := toUint8_between v lo hi hlo hhi r0 r1
  exact ⟨r0, r1, u0, u1⟩

/-- Every pixel `resizeImage` returns lies in every range that holds the pixels
of the source. -/
theorem resizeImage_between (A : PGMImage) (hWF : A.WF) (hW1 : 1 ≤ A.Width)
    (hW2 : A.Width ≤ 2 ^ 53) (hH1 : 1 ≤ A.Height) (hH2 : A.Height ≤ 2 ^ 53)
    (tw th : Int) (htw : 2 ≤ tw) (hth : 2 ≤ th) (lo hi : Nat)
    (hbound : ∀ row ∈ A.Pixels, ∀ p ∈ row, lo ≤ p ∧ p ≤ hi) :
    ∃ R, resizeImage A tw th = .ok R ∧ ∀ row ∈ R.Pixels, ∀ p ∈ row, lo ≤ p ∧ p ≤ hi := by
  obtain ⟨R, hR, _, _, _, _, _⟩ := resizeImage_spec A hWF hW1 hW2 hH1 hH2 tw th htw hth
  refine ⟨R, hR, fun row hrow p hp => ?_⟩
  obtain ⟨y, x, hy0, hy1, hx0, hx1, hpx⟩ := mem_grid_pixelAt hrow hp
  have hR2 := hR
  unfold resizeImage at hR2
  obtain ⟨G, hG, hRG⟩ := (bind_eq_ok_iff _ _ _).mp hR2
  have hRG : R = { Width := tw, Height := th, MaxVal := 255, Pixels := G } :=
    (Except.ok.inj hRG).symm
  subst hRG
  obtain ⟨hshape, hpt⟩ := (makeGrid_eq_ok_iff _ _ _ _).mp hG
  have hx1' : x < tw := by rw [← hshape.2 row hrow]; exact hx1
  have hy1' : y < th := by rw [← hshape.1]; exact hy1
  have hf := hpt x y hx0 hx1' hy0 hy1'
  obtain ⟨wr, hwr⟩ := ratio_some A.Width tw htw
  obtain ⟨hr, hhr⟩ := ratio_some A.Height th hth
  simp only [hwr, hhr, scaleCoord_some, ok_bind] at hf
  obtain ⟨tl, tr, bl, br, v, htl, htr, hbl, hbr, _, _, _, hres, hrange⟩ :=
    interpolateLinear_samples A hWF hW1 hW2 hH1 hH2 (fl (fl (x : ℚ) * wr))
      (fl (fl (y : ℚ) * hr))
  rw [hres] at hf
  have hpx' : pixelAt G y x = .ok p := hpx
  rw [hpx'] at hf
  have hpv : toUint8 v = p := Except.ok.inj hf
  obtain ⟨r1, hr1, m1⟩ := pixelAt_ok_mem htl
  obtain ⟨r2, hr2, m2⟩ := pixelAt_ok_mem htr
  obtain ⟨r3, hr3, m3⟩ := pixelAt_ok_mem hbl
  obtain ⟨r4, hr4, m4⟩ := pixelAt_ok_mem hbr
  have q1 := hbound r1 hr1 tl m1
  have q2 := hbound r2 hr2 tr m2
  have q3 := hbound r3 hr3 bl m3
  have q4 := hbound r4 hr4 br m4
  have w1 := hWF.2 r1 hr1 tl m1
  have w2 := hWF.2 r2 hr2 tr m2
  have w3 := hWF.2 r3 hr3 bl m3
  have w4 := hWF.2 r4 hr4 br m4
  obtain ⟨_, _, u0, u1⟩ := hrange (lo : Int) (min (hi : Int) 255) (by omega) (by omega)
    (by omega) (by omega) (by omega) (by omega) (by omega) (by omega) (by omega) (by omega)
  rw [hpv] at u0 u1
  omega

/-- C19. For a well-formed 8-bit image (sides between 1 and 2^53) and every
coordinate `(x, y)`: the value `interpolateLinear` computes before narrowing
lies between the minimum and the maximum of the four neighbour samples it
reads, hence in `[0, 255]`; the range check passes, so the result is the
narrowing of that value, again between the minimum and the maximum of the four
samples.  And every pixel of the result of `resizeImage` (target at least 2 by
2) lies in every range `[lo, hi]` that holds all pixels of the source, so
between the minimum and the maximum pixel of the source. -/
theorem interpolation_within_samples (A : PGMImage) (hWF : A.WF) (hW1 : 1 ≤ A.Width)
    (hW2 : A.Width ≤ 2 ^ 53) (hH1 : 1 ≤ A.Height) (hH2 : A.Height ≤ 2 ^ 53) :
    (∀ x y : ℚ, ∃ (tl tr bl br : Nat) (value : ℚ),
      pixelAt A.Pixels ⌊clampCoord y A.Height⌋ ⌊clampCoord x A.Width⌋ = .ok tl ∧
      pixelAt A.Pixels ⌊clampCoord y A.Height⌋ ⌈clampCoord x A.Width⌉ = .ok tr ∧
      pixelAt A.Pixels ⌈clampCoord y A.Height⌉ ⌊clampCoord x A.Width⌋ = .ok bl ∧
      pixelAt A.Pixels ⌈clampCoord y A.Height⌉ ⌈clampCoord x A.Width⌉ = .ok br ∧
      interpolateLinearValue A x y = .ok value ∧
      ((min (min tl tr) (min bl br) : Nat) : ℚ) ≤ value ∧
      value ≤ ((max (max tl tr) (max bl br) : Nat) : ℚ) ∧
      0 ≤ value ∧ value ≤ 255 ∧
      interpolateLinear A x y = .ok (toUint8 value) ∧
      min (min tl tr) (min bl br) ≤ toUint8 value ∧
      toUint8 value ≤ max (max tl tr) (max bl br)) ∧
    ∀ (tw th : Int) (lo hi : Nat), 2 ≤ tw → 2 ≤ th →
      (∀ row ∈ A.Pixels, ∀ p ∈ row, lo ≤ p ∧ p ≤ hi) →
      ∃ R, resizeImage A tw th = .ok R ∧ ∀ row ∈ R.Pixels, ∀ p ∈ row, lo ≤ p ∧ p ≤ hi := by
  refine ⟨fun x y => ?_, fun tw th lo hi htw hth hbound =>
    resizeImage_between A hWF hW1 hW2 hH1 hH2 tw th htw hth lo hi hbound⟩
  obtain ⟨tl, tr, bl, br, v, htl, htr, hbl, hbr, hval, v0, v1, hres, hrange⟩ :=
    interpolateLinear_samples A hWF hW1 hW2 hH1 hH2 x y
  obtain ⟨r1, hr1, m1⟩ := pixelAt_ok_mem htl
  obtain ⟨r2, hr2, m2⟩ := pixelAt_ok_mem htr
  obtain ⟨r3, hr3, m3⟩ := pixelAt_ok_mem hbl
  obtain ⟨r4, hr4, m4⟩ := pixelAt_ok_mem hbr
  have w1 := hWF.2 r1 hr1 tl m1
  have w2 := hWF.2 r2 hr2 tr m2
  have w3 := hWF.2 r3 hr3 bl m3
  have w4 := hWF.2 r4 hr4 br m4
  obtain ⟨q0, q1, u0, u1⟩ := hrange ((min (min tl tr) (min bl br) : Nat) : Int)
    ((max (max tl tr) (max bl br) : Nat) : Int) (by omega) (by omega) (by omega) (by omega)
    (by omega) (by omega) (by omega) (by omega) (by omega) (by omega)
  refine ⟨tl, tr, bl, br, v, htl, htr, hbl, hbr, hval, ?_, ?_, v0, v1, hres, ?_, ?_⟩
  · exact_mod_cast q0
  · exact_mod_cast q1
  · exact_mod_cast u0
  · exact_mod_cast u1

theorem interpolation_within_samples_witness :
    tinyImage.WF ∧
    (∀ row ∈ tinyImage.Pixels, ∀ p ∈ row, 1 ≤ p ∧ p ≤ 4) ∧
    ∃ R, resizeImage tinyImage 5 7 = .ok R ∧ ∀ row ∈ R.Pixels, ∀ p ∈ row, 1 ≤ p ∧ p ≤ 4 :=
  ⟨by decide, by decide,
    (interpolation_within_samples tinyImage (by decide) (by decide) (by decide) (by decide)
      (by decide)).2 5 7 1 4 (by decide) (by decide) (by decide)⟩

/-! ## The corners of a resampled image -/

/-- The coordinate mapped from target index 0 clamps to 0. -/
theorem coord_first (n : Int) (h1 : 1 ≤ n) (h2 : n ≤ 2 ^ 53) (r : ℚ) :
    max 0 (min (fl (fl (((0 : Int)) : ℚ) * r)) (fl ((n - 1 : Int) : ℚ))) = 0 := by
  have hfl : fl ((n - 1 : Int) : ℚ) = ((n - 1 : Int) : ℚ) :=
    fl_intCast (n - 1) (by rw [abs_le]; constructor <;> omega)
  have hn : (0 : ℚ) ≤ ((n - 1 : Int) : ℚ) := by exact_mod_cast (by omega : (0 : Int) ≤ n - 1)
  rw [hfl, Int.cast_zero, fl_zero, zero_mul, fl_zero, min_eq_left hn, max_self]

/-- The coordinate mapped from the last target index clamps into
`[n - 1 - 2^-20, n - 1]` for a source side `n` of at most `2^32`. -/
theorem coord_last (n t : Int) (h1 : 1 ≤ n) (h2 : n ≤ 2 ^ 32) (ht : 2 ≤ t) (r : ℚ)
    (hr : fdiv (fl ((n - 1 : Int) : ℚ)) (fl ((t - 1 : Int) : ℚ)) = some r) :
    ((n - 1 : Int) : ℚ) - 1 / 1048576 ≤
        max 0 (min (fl (fl ((t - 1 : Int) : ℚ) * r)) (fl ((n - 1 : Int) : ℚ))) ∧
      max 0 (min (fl (fl ((t - 1 : Int) : ℚ) * r)) (fl ((n - 1 : Int) : ℚ))) ≤
        ((n - 1 : Int) : ℚ) := by
  have hfl : fl ((n - 1 : Int) : ℚ) = ((n - 1 : Int) : ℚ) :=
    fl_intCast (n - 1) (by rw [abs_le]; constructor <;> omega)
  have hn0 : (0 : ℚ) ≤ ((n - 1 : Int) : ℚ) := by exact_mod_cast (by omega : (0 : Int) ≤ n - 1)
  have hn1 : ((n - 1 : Int) : ℚ) ≤ 4294967296 := by
    exact_mod_cast (by omega : n - 1 ≤ (4294967296 : Int))
  have hk : (0 : ℚ) < fl ((t - 1 : Int) : ℚ) := by
    apply fl_pos
    exact_mod_cast (by omega : (0 : Int) < t - 1)
  have hrv : r = fl (((n - 1 : Int) : ℚ) / fl ((t - 1 : Int) : ℚ)) := by
    unfold fdiv at hr
    rw [if_neg hk.ne', hfl] at hr
    exact (Option.some.inj hr).symm
  have e53 : (2 : ℚ) ^ (53 : ℤ) = 9007199254740992 := by norm_num
  have hq1 : 0 ≤ ((n - 1 : Int) : ℚ) / fl ((t - 1 : Int) : ℚ) := div_nonneg hn0 hk.le
  have er := (abs_le.mp (fl_err (((n - 1 : Int) : ℚ) / fl ((t - 1 : Int) : ℚ)))).1
  rw [abs_of_nonneg hq1, e53, ← hrv] at er
  have hr0 : 0 ≤ r := by rw [hrv]; exact fl_nonneg hq1
  have hq2 : 0 ≤ fl ((t - 1 : Int) : ℚ) * r := mul_nonneg hk.le hr0
  have es := (abs_le.mp (fl_err (fl ((t - 1 : Int) : ℚ) * r))).1
  rw [abs_of_nonneg hq2, e53] at es
  have hkq : fl ((t - 1 : Int) : ℚ) * (((n - 1 : Int) : ℚ) / fl ((t - 1 : Int) : ℚ)) =
      ((n - 1 : Int) : ℚ) := by
    rw [mul_comm, div_mul_cancel₀ _ hk.ne']
  have hprod : ((n - 1 : Int) : ℚ) * (1 - 1 / 9007199254740992) ≤
      fl ((t - 1 : Int) : ℚ) * r := by
    have : fl ((t - 1 : Int) : ℚ) * ((((n - 1 : Int) : ℚ) / fl ((t - 1 : Int) : ℚ)) *
        (1 - 1 / 9007199254740992)) ≤ fl ((t - 1 : Int) : ℚ) * r := by
      apply mul_le_mul_of_nonneg_left _ hk.le
      linarith
    rw [← mul_assoc, hkq] at this
    exact this
  have hsx : ((n - 1 : Int) : ℚ) - 1 / 1048576 ≤ fl (fl ((t - 1 : Int) : ℚ) * r) := by
    linarith
  rw [hfl]
  constructor
  · exact le_max_of_le_right (le_min hsx (by linarith))
  · exact max_le hn0 (min_le_right _ _)

theorem fl_near_one : fl (1 - 1 / 1048576 : ℚ) = 1 - 1 / 1048576 := by
  have := fl_natCast_mul_zpow 1048575 (-20) (by norm_num)
  norm_num at this ⊢
  exact this

/-- A coordinate within `2^-20` below the integer `m`: its ceiling is `m`, and
either it is `m` itself, with offset 0, or its offset is at least `1 - 2^-20`. -/
theorem corner_of_near (c : ℚ) (m : Int) (h0 : (m : ℚ) - 1 / 1048576 ≤ c) (h1 : c ≤ (m : ℚ)) :
    ⌈c⌉ = m ∧ ((⌊c⌋ = m ∧ fl (c - ((⌊c⌋ : Int) : ℚ)) = 0) ∨
      1 - 1 / 1048576 ≤ fl (c - ((⌊c⌋ : Int) : ℚ))) := by
  have hceil : ⌈c⌉ = m := by
    rw [Int.ceil_eq_iff]
    constructor
    · linarith
    · exact h1
  refine ⟨hceil, ?_⟩
  rcases eq_or_lt_of_le h1 with heq | hlt
  · left
    rw [heq, Int.floor_intCast, sub_self, fl_zero]
    exact ⟨rfl, rfl⟩
  · right
    have hfloor : ⌊c⌋ = m - 1 := by
      rw [Int.floor_eq_iff]
      push_cast
      constructor <;> linarith
    rw [hfloor]
    have := fl_mono (show (1 - 1 / 1048576 : ℚ) ≤ c - (((m - 1 : Int)) : ℚ) by
      push_cast; linarith)
    rwa [fl_near_one] at this

/-- One linear interpolation between bytes with the offset at the far end: the
result is within 1/1000 of the far sample, and is that sample when both samples
agree and the offset is 0. -/
theorem lerp_corner (a c : Int) (t : ℚ) (ha0 : 0 ≤ a) (ha1 : a ≤ 255) (hc0 : 0 ≤ c)
    (hc1 : c ≤ 255) (ht1 : t ≤ 1) (h : (a = c ∧ t = 0) ∨ 1 - 1 / 1048576 ≤ t) :
    |fl (fl (a : ℚ) + fl (fl ((c - a : Int) : ℚ) * t)) - (c : ℚ)| ≤ 1 / 1000 ∧
      ((a = c ∧ t = 0) → fl (fl (a : ℚ) + fl (fl ((c - a : Int) : ℚ) * t)) = (c : ℚ)) := by
  have hexact : (a = c ∧ t = 0) →
      fl (fl (a : ℚ) + fl (fl ((c - a : Int) : ℚ) * t)) = (c : ℚ) := by
    rintro ⟨rfl, rfl⟩
    rw [mul_zero, fl_zero, add_zero, fl_byte a (by omega) ha1, fl_byte a (by omega) ha1]
  refine ⟨?_, hexact⟩
  rcases h with h | h
  · rw [hexact h, sub_self, abs_zero]; norm_num
  rw [fl_byte a (by omega) ha1, fl_byte (c - a) (by omega) (by omega)]
  have hd : (((c - a : Int) : ℚ)) = (c : ℚ) - a := by push_cast; ring
  have haq0 : (0 : ℚ) ≤ a := by exact_mod_cast ha0
  have haq1 : (a : ℚ) ≤ 255 := by exact_mod_cast ha1
  have hcq0 : (0 : ℚ) ≤ c := by exact_mod_cast hc0
  have hcq1 : (c : ℚ) ≤ 255 := by exact_mod_cast hc1
  rw [hd]
  have hq : |((c : ℚ) - a) * t - ((c : ℚ) - a)| ≤ 255 / 1048576 := by
    have e : ((c : ℚ) - a) * t - ((c : ℚ) - a) = -(((c : ℚ) - a) * (1 - t)) := by ring
    rw [e, abs_neg, abs_mul]
    have h1 : |(c : ℚ) - a| ≤ 255 := by rw [abs_le]; constructor <;> linarith
    have h2 : |1 - t| ≤ 1 / 1048576 := by rw [abs_le]; constructor <;> linarith
    calc |(c : ℚ) - a| * |1 - t| ≤ 255 * (1 / 1048576) :=
          mul_le_mul h1 h2 (abs_nonneg _) (by norm_num)
      _ = 255 / 1048576 := by ring
  have hq' := abs_le.mp hq
  have hqa : |((c : ℚ) - a) * t| ≤ 256 := by rw [abs_le]; constructor <;> linarith
  have e1 := fl_close (((c : ℚ) - a) * t)
  have e1' := abs_le.mp (le_trans e1 (div_le_div_of_nonneg_right hqa (by norm_num)))
  have hs : |(a : ℚ) + fl (((c : ℚ) - a) * t)| ≤ 256 := by
    rw [abs_le]; constructor <;> linarith
  have e2 := fl_close ((a : ℚ) + fl (((c : ℚ) - a) * t))
  have e2' := abs_le.mp (le_trans e2 (div_le_div_of_nonneg_right hs (by norm_num)))
  rw [abs_le]
  constructor <;> linarith

/-- The second interpolation with the offset at the far end: the result is
within 11/10000 of the far value, and is that value when both values agree and
the offset is 0. -/
theorem blend_corner (top bot dy : ℚ) (ht0 : 0 ≤ top) (ht1 : top ≤ 255) (hb0 : 0 ≤ bot)
    (hb1 : bot ≤ 255) (hfl : fl bot = bot) (hd1 : dy ≤ 1)
    (h : (top = bot ∧ dy = 0) ∨ 1 - 1 / 1048576 ≤ dy) :
    |fl (top + fl (fl (bot - top) * dy)) - bot| ≤ 11 / 10000 ∧
      ((top = bot ∧ dy = 0) → fl (top + fl (fl (bot - top) * dy)) = bot) := by
  have hexact : (top = bot ∧ dy = 0) → fl (top + fl (fl (bot - top) * dy)) = bot := by
    rintro ⟨rfl, rfl⟩
    rw [mul_zero, fl_zero, add_zero, hfl]
  refine ⟨?_, hexact⟩
  rcases h with h | h
  · rw [hexact h, sub_self, abs_zero]; norm_num
  have hda : |bot - top| ≤ 255 := by rw [abs_le]; constructor <;> linarith
  have e0 := fl_close (bot - top)
  have e0' := abs_le.mp (le_trans e0 (div_le_div_of_nonneg_right hda (by norm_num)))
  have hda' := abs_le.mp hda
  have hδ : |fl (bot - top)| ≤ 256 := by rw [abs_le]; constructor <;> linarith
  have hq : |fl (bot - top) * dy - fl (bot - top)| ≤ 256 / 1048576 := by
    have e : fl (bot - top) * dy - fl (bot - top) = -(fl (bot - top) * (1 - dy)) := by ring
    rw [e, abs_neg, abs_mul]
    have h2 : |1 - dy| ≤ 1 / 1048576 := by rw [abs_le]; constructor <;> linarith
    calc |fl (bot - top)| * |1 - dy| ≤ 256 * (1 / 1048576) :=
          mul_le_mul hδ h2 (abs_nonneg _) (by norm_num)
      _ = 256 / 1048576 := by ring
  have hq' := abs_le.mp hq
  have hδ' := abs_le.mp hδ
  have hqa : |fl (bot - top) * dy| ≤ 257 := by rw [abs_le]; constructor <;> linarith
  have e1 := fl_close (fl (bot - top) * dy)
  have e1' := abs_le.mp (le_trans e1 (div_le_div_of_nonneg_right hqa (by norm_num)))
  have hs : |top + fl (fl (bot - top) * dy)| ≤ 256 := by
    rw [abs_le]; constructor <;> linarith
  have e2 := fl_close (top + fl (fl (bot - top) * dy))
  have e2' := abs_le.mp (le_trans e2 (div_le_div_of_nonneg_right hs (by norm_num)))
  rw [abs_le]
  constructor <;> linarith

/-- Narrowing a value in `[0, 255]` within less than 1 of the byte `C` gives `C`
or `C - 1`. -/
theorem toUint8_near (v : ℚ) (C : Nat) (h0 : 0 ≤ v) (h1 : v ≤ 255)
    (hC : |v - (C : ℚ)| < 1) : toUint8 v = C ∨ toUint8 v + 1 = C := by
  obtain ⟨c0, c1⟩ := abs_lt.mp hC
  have f0 : 0 ≤ ⌊v⌋ := Int.floor_nonneg.mpr h0
  have f1 : ⌊v⌋ ≤ 255 := by
    have : ((⌊v⌋ : Int) : ℚ) ≤ ((255 : Int) : ℚ) := le_trans (Int.floor_le v) (by simpa using h1)
    exact_mod_cast this
  have f2 : (C : Int) - 1 ≤ ⌊v⌋ := by
    rw [Int.le_floor]; push_cast; linarith
  have f3 : ⌊v⌋ ≤ (C : Int) := by
    have : ((⌊v⌋ : Int) : ℚ) < ((C + 1 : Int) : ℚ) := by
      push_cast; linarith [Int.floor_le v]
    have : ⌊v⌋ < (C : Int) + 1 := by exact_mod_cast this
    omega
  unfold toUint8 truncQ
  rw [if_pos h0]
  omega

/-- The pixels `resizeImage` returns: the interpolation at the mapped
coordinates. -/
theorem resizeImage_pixel (A : PGMImage) (hWF : A.WF) (hW1 : 1 ≤ A.Width)
    (hW2 : A.Width ≤ 2 ^ 53) (hH1 : 1 ≤ A.Height) (hH2 : A.Height ≤ 2 ^ 53)
    (tw th : Int) (htw : 2 ≤ tw) (hth : 2 ≤ th) :
    ∃ (R : PGMImage) (wr hr : ℚ), resizeImage A tw th = .ok R ∧
      fdiv (fl ((A.Width - 1 : Int) : ℚ)) (fl ((tw - 1 : Int) : ℚ)) = some wr ∧
      fdiv (fl ((A.Height - 1 : Int) : ℚ)) (fl ((th - 1 : Int) : ℚ)) = some hr ∧
      ∀ x y : Int, 0 ≤ x → x < tw → 0 ≤ y → y < th →
        pixelAt R.Pixels y x = interpolateLinear A (fl (fl (x : ℚ) * wr)) (fl (fl (y : ℚ) * hr)) := by
  obtain ⟨R, hR, _, _, _, _, _⟩ := resizeImage_spec A hWF hW1 hW2 hH1 hH2 tw th htw hth
  obtain ⟨wr, hwr⟩ := ratio_some A.Width tw htw
  obtain ⟨hr, hhr⟩ := ratio_some A.Height th hth
  refine ⟨R, wr, hr, hR, hwr, hhr, fun x y hx0 hx1 hy0 hy1 => ?_⟩
  have hR2 := hR
  unfold resizeImage at hR2
  obtain ⟨G, hG, hRG⟩ := (bind_eq_ok_iff _ _ _).mp hR2
  have hRG : R = { Width := tw, Height := th, MaxVal := 255, Pixels := G } :=
    (Except.ok.inj hRG).symm
  subst hRG
  have hf := ((makeGrid_eq_ok_iff _ _ _ _).mp hG).2 x y hx0 hx1 hy0 hy1
  simp only [hwr, hhr, scaleCoord_some, ok_bind] at hf
  exact hf.symm

/-- The interpolation at a coordinate whose ceilings are `(j, i)` and whose
offsets are at the far end: the result is the sample at `(j, i)` or one less,
and is that sample when both offsets are 0. -/
theorem corner_value (A : PGMImage) (hWF : A.WF) (hW1 : 1 ≤ A.Width)
    (hW2 : A.Width ≤ 2 ^ 53) (hH1 : 1 ≤ A.Height) (hH2 : A.Height ≤ 2 ^ 53) (sx sy : ℚ)
    (j i : Int)
    (hx : ⌈clampCoord sx A.Width⌉ = j ∧
      ((⌊clampCoord sx A.Width⌋ = j ∧
          fl (clampCoord sx A.Width - ((⌊clampCoord sx A.Width⌋ : Int) : ℚ)) = 0) ∨
        1 - 1 / 1048576 ≤ fl (clampCoord sx A.Width - ((⌊clampCoord sx A.Width⌋ : Int) : ℚ))))
    (hy : ⌈clampCoord sy A.Height⌉ = i ∧
      ((⌊clampCoord sy A.Height⌋ = i ∧
          fl (clampCoord sy A.Height - ((⌊clampCoord sy A.Height⌋ : Int) : ℚ)) = 0) ∨
        1 - 1 / 1048576 ≤
          fl (clampCoord sy A.Height - ((⌊clampCoord sy A.Height⌋ : Int) : ℚ)))) :
    ∃ C p : Nat, pixelAt A.Pixels i j = .ok C ∧ interpolateLinear A sx sy = .ok p ∧
      (p = C ∨ p + 1 = C) ∧
      ((⌊clampCoord sx A.Width⌋ = j ∧
          fl (clampCoord sx A.Width - ((⌊clampCoord sx A.Width⌋ : Int) : ℚ)) = 0) →
        (⌊clampCoord sy A.Height⌋ = i ∧
          fl (clampCoord sy A.Height - ((⌊clampCoord sy A.Height⌋ : Int) : ℚ)) = 0) →
        p = C) := by
  obtain ⟨tl, tr, bl, br, v, htl, htr, hbl, hbr, tl1, tr1, bl1, br1, hv, _, hres⟩ :=
    interpolateLinear_reads A hWF hW1 hW2 hH1 hH2 sx sy
  unfold bilinear at hv
  obtain ⟨dx0, dx1⟩ := frac_range (clampCoord sx A.Width)
  obtain ⟨dy0, dy1⟩ := frac_range (clampCoord sy A.Height)
  obtain ⟨hxc, hxd⟩ := hx
  obtain ⟨hyc, hyd⟩ := hy
  rw [hxc] at htr hbr
  rw [hyc] at hbl hbr
  have hxt : (((tl : Nat) : Int) = ((tr : Nat) : Int) ∧
      fl (clampCoord sx A.Width - ((⌊clampCoord sx A.Width⌋ : Int) : ℚ)) = 0) ∨
      1 - 1 / 1048576 ≤ fl (clampCoord sx A.Width - ((⌊clampCoord sx A.Width⌋ : Int) : ℚ)) := by
    rcases hxd with ⟨hf, hd⟩ | hd
    · left
      rw [hf] at htl
      rw [htl] at htr
      exact ⟨by exact_mod_cast Except.ok.inj htr, hd⟩
    · exact Or.inr hd
  have hxb : (((bl : Nat) : Int) = ((br : Nat) : Int) ∧
      fl (clampCoord sx A.Width - ((⌊clampCoord sx A.Width⌋ : Int) : ℚ)) = 0) ∨
      1 - 1 / 1048576 ≤ fl (clampCoord sx A.Width - ((⌊clampCoord sx A.Width⌋ : Int) : ℚ)) := by
    rcases hxd with ⟨hf, hd⟩ | hd
    · left
      rw [hf] at hbl
      rw [hbl] at hbr
      exact ⟨by exact_mod_cast Except.ok.inj hbr, hd⟩
    · exact Or.inr hd
  obtain ⟨t0, t1⟩ := lerp_byte_range (tl : Int) (tr : Int) _ (by omega) (by omega) (by omega)
    (by omega) dx0 dx1
  obtain ⟨b0, b1⟩ := lerp_byte_range (bl : Int) (br : Int) _ (by omega) (by omega) (by omega)
    (by omega) dx0 dx1
  obtain ⟨tn, _⟩ := lerp_corner (tl : Int) (tr : Int) _ (by omega) (by omega) (by omega)
    (by omega) dx1 hxt
  obtain ⟨bn, bex⟩ := lerp_corner (bl : Int) (br : Int) _ (by omega) (by omega) (by omega)
    (by omega) dx1 hxb
  have hyt : (fl (fl (((tl : Nat) : Int) : ℚ) + fl (fl (((tr : Int) - (tl : Int) : Int) : ℚ) *
        fl (clampCoord sx A.Width - ((⌊clampCoord sx A.Width⌋ : Int) : ℚ)))) =
      fl (fl (((bl : Nat) : Int) : ℚ) + fl (fl (((br : Int) - (bl : Int) : Int) : ℚ) *
        fl (clampCoord sx A.Width - ((⌊clampCoord sx A.Width⌋ : Int) : ℚ)))) ∧
      fl (clampCoord sy A.Height - ((⌊clampCoord sy A.Height⌋ : Int) : ℚ)) = 0) ∨
      1 - 1 / 1048576 ≤
        fl (clampCoord sy A.Height - ((⌊clampCoord sy A.Height⌋ : Int) : ℚ)) := by
    rcases hyd with ⟨hf, hd⟩ | hd
    · left
      rw [hf] at htl htr
      rw [htl] at hbl
      rw [htr] at hbr
      have e1 : tl = bl := Except.ok.inj hbl
      have e2 : tr = br := Except.ok.inj hbr
      rw [e1, e2]
      exact ⟨rfl, hd⟩
    · exact Or.inr hd
  obtain ⟨vn, vex⟩ := blend_corner _ _ _ t0 t1 b0 b1 (fl_fl _) dy1 hyt
  have hvn : |v - (br : ℚ)| < 1 := by
    have vn' := vn
    rw [← hv] at vn'
    have h1 := abs_le.mp vn'
    have h2 := abs_le.mp bn
    have e : ((((br : Nat) : Int)) : ℚ) = (br : ℚ) := by norm_cast
    rw [e] at h2
    rw [abs_lt]
    constructor <;> linarith
  obtain ⟨v0, v1⟩ := bilinear_between (tl : Int) (tr : Int) (bl : Int) (br : Int) 0 255
    (fl (clampCoord sx A.Width - ((⌊clampCoord sx A.Width⌋ : Int) : ℚ)))
    (fl (clampCoord sy A.Height - ((⌊clampCoord sy A.Height⌋ : Int) : ℚ)))
    (by omega) (by omega) ⟨by omega, by omega⟩ ⟨by omega, by omega⟩ ⟨by omega, by omega⟩
    ⟨by omega, by omega⟩ dx0 dx1 dy0 dy1
  unfold bilinear at v0 v1
  rw [← hv] at v0 v1
  have v0' : (0 : ℚ) ≤ v := by simpa using v0
  have v1' : v ≤ 255 := by simpa using v1
  have hnot : ¬ (v > 255 ∨ v < 0) := by
    intro h
    rcases h with h | h <;> linarith
  rw [if_neg hnot] at hres
  refine ⟨br, toUint8 v, hbr, hres, toUint8_near v br v0' v1' hvn, fun hx1 hy1 => ?_⟩
  have hbe := bex (by
    rcases hxb with h | h
    · exact h
    · exfalso
      rw [hx1.2] at h
      norm_num at h)
  have hve := vex (by
    rcases hyt with h | h
    · exact h
    · exfalso
      rw [hy1.2] at h
      norm_num at h)
  have hvbr : v = (((br : Nat) : Int) : ℚ) := by
    rw [hv, hve, hbe]
  rw [hvbr]
  unfold toUint8
  rw [truncQ_intCast]
  omega

theorem first_axis (n : Int) (h1 : 1 ≤ n) (h2 : n ≤ 2 ^ 53) (r : ℚ) :
    ⌈clampCoord (fl (fl (((0 : Int)) : ℚ) * r)) n⌉ = 0 ∧
      ⌊clampCoord (fl (fl (((0 : Int)) : ℚ) * r)) n⌋ = 0 ∧
      fl (clampCoord (fl (fl (((0 : Int)) : ℚ) * r)) n -
        ((⌊clampCoord (fl (fl (((0 : Int)) : ℚ) * r)) n⌋ : Int) : ℚ)) = 0 := by
  have hc : clampCoord (fl (fl (((0 : Int)) : ℚ) * r)) n = 0 := coord_first n h1 h2 r
  rw [hc]
  simp [fl_zero]

theorem last_axis (n t : Int) (h1 : 1 ≤ n) (h2 : n ≤ 2 ^ 32) (ht : 2 ≤ t) (r : ℚ)
    (hr : fdiv (fl ((n - 1 : Int) : ℚ)) (fl ((t - 1 : Int) : ℚ)) = some r) :
    ⌈clampCoord (fl (fl ((t - 1 : Int) : ℚ) * r)) n⌉ = n - 1 ∧
      ((⌊clampCoord (fl (fl ((t - 1 : Int) : ℚ) * r)) n⌋ = n - 1 ∧
          fl (clampCoord (fl (fl ((t - 1 : Int) : ℚ) * r)) n -
            ((⌊clampCoord (fl (fl ((t - 1 : Int) : ℚ) * r)) n⌋ : Int) : ℚ)) = 0) ∨
        1 - 1 / 1048576 ≤ fl (clampCoord (fl (fl ((t - 1 : Int) : ℚ) * r)) n -
          ((⌊clampCoord (fl (fl ((t - 1 : Int) : ℚ) * r)) n⌋ : Int) : ℚ))) := by
  obtain ⟨c0, c1⟩ := coord_last n t h1 h2 ht r hr
  exact corner_of_near _ (n - 1) c0 c1

/-- C13 (amended). Corners of a resampled image: for a well-formed source with
sides between 1 and 2^32 and a target of at least 2 by 2, the pixel of the
result at (0, 0) equals the source pixel at (0, 0), and each of the pixels at
(targetWidth-1, 0), (0, targetHeight-1) and (targetWidth-1, targetHeight-1)
equals the source pixel at (sourceWidth-1, 0), (0, sourceHeight-1) and
(sourceWidth-1, sourceHeight-1) respectively, or is one less. -/
theorem resize_corners (A : PGMImage) (hWF : A.WF) (hW1 : 1 ≤ A.Width)
    (hW2 : A.Width ≤ 2 ^ 32) (hH1 : 1 ≤ A.Height) (hH2 : A.Height ≤ 2 ^ 32)
    (tw th : Int) (htw : 2 ≤ tw) (hth : 2 ≤ th) :
    ∃ R, resizeImage A tw th = .ok R ∧
      (∃ c : Nat, pixelAt A.Pixels 0 0 = .ok c ∧ pixelAt R.Pixels 0 0 = .ok c) ∧
      (∃ c p : Nat, pixelAt A.Pixels 0 (A.Width - 1) = .ok c ∧
        pixelAt R.Pixels 0 (tw - 1) = .ok p ∧ (p = c ∨ p + 1 = c)) ∧
      (∃ c p : Nat, pixelAt A.Pixels (A.Height - 1) 0 = .ok c ∧
        pixelAt R.Pixels (th - 1) 0 = .ok p ∧ (p = c ∨ p + 1 = c)) ∧
      ∃ c p : Nat, pixelAt A.Pixels (A.Height - 1) (A.Width - 1) = .ok c ∧
        pixelAt R.Pixels (th - 1) (tw - 1) = .ok p ∧ (p = c ∨ p + 1 = c) := by
  have hW3 : A.Width ≤ 2 ^ 53 := by omega
  have hH3 : A.Height ≤ 2 ^ 53 := by omega
  obtain ⟨R, wr, hr, hR, hwr, hhr, hpix⟩ :=
    resizeImage_pixel A hWF hW1 hW3 hH1 hH3 tw th htw hth
  obtain ⟨x0c, x0f, x0d⟩ := first_axis A.Width hW1 hW3 wr
  obtain ⟨y0c, y0f, y0d⟩ := first_axis A.Height hH1 hH3 hr
  have x1 := last_axis A.Width tw hW1 hW2 htw wr hwr
  have y1 := last_axis A.Height th hH1 hH2 hth hr hhr
  refine ⟨R, hR, ?_, ?_, ?_, ?_⟩
  · obtain ⟨c, p, hc, hp, _, hex⟩ := corner_value A hWF hW1 hW3 hH1 hH3 _ _ 0 0
      ⟨x0c, Or.inl ⟨x0f, x0d⟩⟩ ⟨y0c, Or.inl ⟨y0f, y0d⟩⟩
    have hpc := hex ⟨x0f, x0d⟩ ⟨y0f, y0d⟩
    subst hpc
    refine ⟨p, hc, ?_⟩
    rw [hpix 0 0 (by omega) (by omega) (by omega) (by omega)]
    exact hp
  · obtain ⟨c, p, hc, hp, hnear, _⟩ := corner_value A hWF hW1 hW3 hH1 hH3 _ _ (A.Width - 1) 0
      x1 ⟨y0c, Or.inl ⟨y0f, y0d⟩⟩
    refine ⟨c, p, hc, ?_, hnear⟩
    rw [hpix (tw - 1) 0 (by omega) (by omega) (by omega) (by omega)]
    exact hp
  · obtain ⟨c, p, hc, hp, hnear, _⟩ := corner_value A hWF hW1 hW3 hH1 hH3 _ _ 0 (A.Height - 1)
      ⟨x0c, Or.inl ⟨x0f, x0d⟩⟩ y1
    refine ⟨c, p, hc, ?_, hnear⟩
    rw [hpix 0 (th - 1) (by omega) (by omega) (by omega) (by omega)]
    exact hp
  · obtain ⟨c, p, hc, hp, hnear, _⟩ := corner_value A hWF hW1 hW3 hH1 hH3 _ _ (A.Width - 1)
      (A.Height - 1) x1 y1
    refine ⟨c, p, hc, ?_, hnear⟩
    rw [hpix (tw - 1) (th - 1) (by omega) (by omega) (by omega) (by omega)]
    exact hp

theorem resize_corners_witness :
    tinyImage.WF ∧
    ∃ R, resizeImage tinyImage 3 5 = .ok R ∧
      (∃ c : Nat, pixelAt tinyImage.Pixels 0 0 = .ok c ∧ pixelAt R.Pixels 0 0 = .ok c) ∧
      (∃ c p : Nat, pixelAt tinyImage.Pixels 0 (tinyImage.Width - 1) = .ok c ∧
        pixelAt R.Pixels 0 (3 - 1) = .ok p ∧ (p = c ∨ p + 1 = c)) ∧
      (∃ c p : Nat, pixelAt tinyImage.Pixels (tinyImage.Height - 1) 0 = .ok c ∧
        pixelAt R.Pixels (5 - 1) 0 = .ok p ∧ (p = c ∨ p + 1 = c)) ∧
      ∃ c p : Nat, pixelAt tinyImage.Pixels (tinyImage.Height - 1) (tinyImage.Width - 1) = .ok c ∧
        pixelAt R.Pixels (5 - 1) (3 - 1) = .ok p ∧ (p = c ∨ p + 1 = c) :=
  ⟨by decide, resize_corners tinyImage (by decide) (by decide) (by decide) (by decide)
    (by decide) 3 5 (by decide) (by decide)⟩

theorem fl_ratio_49 : fl (1 / 49 : ℚ) = 5882252574524729 / 288230376151711744 := by
  have h := fl_eval (1 / 49 : ℚ) (-58) 5882252574524729 (by norm_num) (by norm_num)
    (by rw [abs_lt]; constructor <;> norm_num)
  rw [h]
  norm_num

theorem fl_coord_49 :
    fl (49 * (5882252574524729 / 288230376151711744) : ℚ) =
      9007199254740991 / 9007199254740992 := by
  have h := fl_eval (49 * (5882252574524729 / 288230376151711744) : ℚ) (-53) 9007199254740991
    (by norm_num) (by norm_num) (by rw [abs_lt]; constructor <;> norm_num)
  rw [h]
  norm_num

theorem fl_coord_49_exact :
    fl (9007199254740991 / 9007199254740992 : ℚ) = 9007199254740991 / 9007199254740992 := by
  have h := fl_natCast_mul_zpow 9007199254740991 (-53) (by norm_num)
  norm_num at h ⊢
  exact h

theorem fl_edge_value :
    fl (255 * (9007199254740991 / 9007199254740992) : ℚ) =
      8972014882652159 / 35184372088832 := by
  have h := fl_eval (255 * (9007199254740991 / 9007199254740992) : ℚ) (-45) 8972014882652159
    (by norm_num) (by norm_num) (by rw [abs_lt]; constructor <;> norm_num)
  rw [h]
  norm_num

theorem fl_edge_value_exact :
    fl (8972014882652159 / 35184372088832 : ℚ) = 8972014882652159 / 35184372088832 := by
  have h := fl_natCast_mul_zpow 8972014882652159 (-45) (by norm_num)
  norm_num at h ⊢
  exact h

/-- C13 (counterexample). The well-formed 2 by 2 image `edgeImage` resampled to
50 by 2: the source pixel at (sourceWidth-1, 0) = (1, 0) is 255, the pixel of
the result at (targetWidth-1, 0) = (49, 0) is 254.  The ratio is the rounded
1/49, the mapped coordinate `49 * ratio` rounds to `1 - 2^-53`, not to 1, and
the blend `255 * (1 - 2^-53)` rounds to `255 - 2^-45`, which narrows to 254. -/
theorem resizeImage_corner_off :
    edgeImage.WF ∧ edgeImage.Width = 2 ∧ edgeImage.Height = 2 ∧
    pixelAt edgeImage.Pixels 0 1 = .ok 255 ∧
    ∃ R, resizeImage edgeImage 50 2 = .ok R ∧ pixelAt R.Pixels 0 49 = .ok 254 := by
  refine ⟨by decide, rfl, rfl, rfl, ?_⟩
  obtain ⟨R, wr, hr, hR, hwr, hhr, hpix⟩ :=
    resizeImage_pixel edgeImage (by decide) (by decide) (by decide) (by decide) (by decide)
      50 2 (by decide) (by decide)
  refine ⟨R, hR, ?_⟩
  have hp := hpix 49 0 (by decide) (by decide) (by decide) (by decide)
  have ew : ((edgeImage.Width - 1 : Int) : ℚ) = 1 := by
    have : (edgeImage.Width - 1 : Int) = 1 := rfl
    rw [this]; norm_num
  have e49 : (((50 : Int) - 1 : Int) : ℚ) = 49 := by norm_num
  have f49 : fl (49 : ℚ) = 49 := by
    have := fl_intCast 49 (by norm_num)
    simpa using this
  have hwrv : wr = 5882252574524729 / 288230376151711744 := by
    unfold fdiv at hwr
    rw [ew, e49, fl_one, f49, if_neg (by norm_num), fl_ratio_49] at hwr
    exact (Option.some.inj hwr).symm
  have hsx : fl (fl (((49 : Int)) : ℚ) * wr) = 9007199254740991 / 9007199254740992 := by
    have : (((49 : Int)) : ℚ) = 49 := by norm_num
    rw [this, f49, hwrv, fl_coord_49]
  have hsy : fl (fl (((0 : Int)) : ℚ) * hr) = 0 := by
    rw [Int.cast_zero, fl_zero, zero_mul, fl_zero]
  rw [hsx, hsy] at hp
  obtain ⟨tl, tr, bl, br, v, htl, htr, hbl, hbr, _, _, _, _, hv, _, hres⟩ :=
    interpolateLinear_reads edgeImage (by decide) (by decide) (by decide) (by decide)
      (by decide) (9007199254740991 / 9007199254740992) 0
  have hcx : clampCoord (9007199254740991 / 9007199254740992) edgeImage.Width =
      9007199254740991 / 9007199254740992 := by
    unfold clampCoord
    rw [ew, fl_one]
    norm_num
  have hcy : clampCoord 0 edgeImage.Height = 0 := by
    have eh : ((edgeImage.Height - 1 : Int) : ℚ) = 1 := by
      have : (edgeImage.Height - 1 : Int) = 1 := rfl
      rw [this]; norm_num
    unfold clampCoord
    rw [eh, fl_one]
    norm_num
  have hfx : ⌊(9007199254740991 / 9007199254740992 : ℚ)⌋ = 0 := by
    rw [Int.floor_eq_iff]; constructor <;> norm_num
  have hgx : ⌈(9007199254740991 / 9007199254740992 : ℚ)⌉ = 1 := by
    rw [Int.ceil_eq_iff]; constructor <;> norm_num
  rw [hcx, hcy, hfx] at hv
  rw [hcx, hcy] at htl htr hbl hbr
  rw [hfx] at htl hbl
  rw [hgx] at htr hbr
  simp only [Int.floor_zero, Int.ceil_zero] at htl htr hbl hbr hv
  have p00 : pixelAt edgeImage.Pixels 0 0 = .ok 0 := rfl
  have p01 : pixelAt edgeImage.Pixels 0 1 = .ok 255 := rfl
  rw [p00] at htl hbl
  rw [p01] at htr hbr
  have e1 : tl = 0 := (Except.ok.inj htl).symm
  have e2 : tr = 255 := (Except.ok.inj htr).symm
  have e3 : bl = 0 := (Except.ok.inj hbl).symm
  have e4 : br = 255 := (Except.ok.inj hbr).symm
  subst e1 e2 e3 e4
  have hvv : v = 8972014882652159 / 35184372088832 := by
    rw [hv]
    unfold bilinear
    norm_num [fl_zero, fl_coord_49_exact, fl_edge_value, fl_edge_value_exact]
    have f255 : fl (255 : ℚ) = 255 := by
      have := fl_intCast 255 (by norm_num)
      simpa using this
    simp only [f255, fl_edge_value, fl_edge_value_exact]
  have hnot : ¬ (v > 255 ∨ v < 0) := by
    rw [hvv]; norm_num
  rw [if_neg hnot, hvv] at hres
  rw [hp, hres]
  have hfl : ⌊(8972014882652159 / 35184372088832 : ℚ)⌋ = 254 := by
    rw [Int.floor_eq_iff]; constructor <;> norm_num
  have : toUint8 (8972014882652159 / 35184372088832 : ℚ) = 254 := by
    unfold toUint8 truncQ
    rw [if_pos (by norm_num), hfl]
    rfl
  rw [this]

end Edof
